import Mathlib

/-!
# bdtool: command synthesis, playlist parsing and the growable buffer

A shallow embedding of `strbuf.h` and of the text-producing functions of
`bdtool.c`, followed by the properties proved about them.

Conventions of the embedding.

* A byte is a `Nat` (below 256); `char` comparisons in the source only
  distinguish the digits, the single quote and the terminator, so the
  signedness of `char` plays no role.
* A `const char *` argument is the list of bytes of the object it points
  into, starting at the pointer.  Reading at an index outside that list is a
  fault.  The C string with text `t` is therefore passed as `t ++ [0]`.
* `size_t` is 64 bits wide and `sizeof(strbuf)` is 16 (two `size_t` fields
  before the flexible array member).
* Functions whose C code can leave defined behaviour, loop forever or call
  `abort()` return `Run α`.
-/

namespace BdTool

/-! ## Machine model -/

/-- Ways in which a run of the C code does not return normally. -/
inductive Fault where
  /-- A read or a write outside the object that is addressed. -/
  | oob
  /-- A loop that never terminates. -/
  | hang
  /-- The program called `abort()`. -/
  | abort
  deriving DecidableEq, Repr

/-- Result of running a piece of C code. -/
abbrev Run (α : Type) := Except Fault α

deriving instance DecidableEq for Except

/-- Number of values of a `size_t`. -/
def SIZE_MOD : Nat := 2 ^ 64

/-- Value of `sizeof(strbuf)`. -/
def sizeof_strbuf : Nat := 16

/-- Number of values of a `uint32_t`. -/
def UINT32_MOD : Nat := 2 ^ 32

/-- Bytes of an ASCII string literal, without terminator. -/
def bytes (s : String) : List Nat := s.data.map Char.toNat

/-- The object a C string literal denotes: its bytes and the terminator. -/
def lit (s : String) : List Nat := bytes s ++ [0]

/-- The C library `strlen`: number of bytes before the first terminator. -/
def strlen : List Nat → Run Nat
  | [] => .error .oob
  | c :: rest => if c = 0 then .ok 0 else (strlen rest).map (· + 1)

/-! ## strbuf.h -/

/-- The `strbuf` struct; `str` holds the `allocated_size` bytes of the
flexible array member. -/
structure strbuf where
  allocated_size : Nat
  used_size : Nat
  str : List Nat
  deriving DecidableEq, Repr

/-- The text held by a buffer: the first `used_size` bytes of `str`. -/
def strbuf.content (b : strbuf) : List Nat := b.str.take b.used_size

/-- Embedding of `strbuf_realloc`.  `buf = none` is the `NULL` pointer.  `heap k` is
the indeterminate byte found at index `k` of memory that `realloc` hands out
fresh.  `realloc` is taken to succeed whenever the requested size is
representable; a request whose size computation wraps around yields a
block too small for the writes that follow. -/
def strbuf_realloc (heap : Nat → Nat) (buf : Option strbuf) (newsize : Nat) : Run strbuf :=
  let newsize := if newsize = 0 then 1 else newsize
  if SIZE_MOD ≤ sizeof_strbuf + newsize then .error .oob
  else
    let old : List Nat := match buf with
      | none => []
      | some b => b.str
    let mem := old.take newsize ++
      (List.range (newsize - old.length)).map (fun k => heap (old.length + k))
    let mem := mem.set (newsize - 1) 0
    match buf with
    | none => .ok { allocated_size := newsize, used_size := 0, str := mem.set 0 0 }
    | some b => .ok { allocated_size := newsize, used_size := b.used_size, str := mem }

/-- Embedding of `strbuf_alloc`. -/
def strbuf_alloc (heap : Nat → Nat) : Run strbuf :=
  strbuf_realloc heap none ((32 + SIZE_MOD - sizeof_strbuf) % SIZE_MOD)

/-- The `while` loop of `strbuf_ensure_space`, in `size_t` arithmetic.  The
iteration `n ↦ 2 n + 16 (mod 2^64)` reaches the fixed point `2^64 - 16` after
64 steps, so a loop still running after 65 tests runs forever. -/
def strbuf_ensure_space_loop (used space : Nat) : Nat → Nat → Run Nat
  | 0, _ => .error .hang
  | fuel + 1, newsize =>
    if (newsize + SIZE_MOD - used) % SIZE_MOD < space then
      strbuf_ensure_space_loop used space fuel ((newsize * 2 + sizeof_strbuf) % SIZE_MOD)
    else .ok newsize

/-- Embedding of `strbuf_ensure_space`. -/
def strbuf_ensure_space (heap : Nat → Nat) (buf : strbuf) (space : Nat) : Run strbuf := do
  let newsize ← strbuf_ensure_space_loop buf.used_size space 66 buf.allocated_size
  if newsize ≠ buf.allocated_size then strbuf_realloc heap (some buf) newsize
  else .ok buf

/-- One step of the size computation of `strbuf_ensure_space`. -/
def grow_step (n : Nat) : Nat := (n * 2 + sizeof_strbuf) % SIZE_MOD

/-- The `memcpy` and the two assignments that end `strbuf_append_len`, on the buffer that
`strbuf_ensure_space` left. -/
def strbuf_append_len_write (buf : strbuf) (str : List Nat) (len : Nat) : Run strbuf :=
  if str.length < len then .error .oob
  else if buf.str.length < buf.used_size + len then .error .oob
  else
    let mem := buf.str.take buf.used_size ++ str.take len ++
      buf.str.drop (buf.used_size + len)
    let used := (buf.used_size + len) % SIZE_MOD
    if mem.length ≤ used then .error .oob
    else .ok { buf with used_size := used, str := mem.set used 0 }

/-- Embedding of `strbuf_append_len`: `str` is the object read by `memcpy`. -/
def strbuf_append_len (heap : Nat → Nat) (buf : strbuf) (str : List Nat) (len : Nat) :
    Run strbuf := do
  let buf ← strbuf_ensure_space heap buf ((len + 1) % SIZE_MOD)
  strbuf_append_len_write buf str len

/-- Embedding of `strbuf_append`. -/
def strbuf_append (heap : Nat → Nat) (buf : strbuf) (str : List Nat) : Run strbuf := do
  let n ← strlen str
  strbuf_append_len heap buf str n

/-- The second `vsnprintf` call of `strbuf_append_vprintf` and the update of `used_size`: the
rendered text `out` and its terminator are written at `str[used_size]`. -/
def strbuf_append_vprintf_write (buf : strbuf) (out : List Nat) : Run strbuf :=
  let size := out.length
  if buf.str.length < buf.used_size + (size + 1) then .error .oob
  else
    let mem := buf.str.take buf.used_size ++ (out ++ [0]) ++
      buf.str.drop (buf.used_size + (size + 1))
    .ok { buf with used_size := (buf.used_size + size) % SIZE_MOD, str := mem }

/-- Embedding of `strbuf_append_vprintf`.  `out` is the text that `vsnprintf` renders for
the format and its arguments; `vsnprintf` reports a text of more than
`INT_MAX` bytes as an error, upon which the function aborts. -/
def strbuf_append_vprintf (heap : Nat → Nat) (buf : strbuf) (out : List Nat) : Run strbuf :=
  if 2 ^ 31 ≤ out.length then .error .abort
  else do
    let buf ← strbuf_ensure_space heap buf ((out.length + 1) % SIZE_MOD)
    strbuf_append_vprintf_write buf out

/-- Embedding of `strbuf_append_printf`, which forwards its arguments to
`strbuf_append_vprintf`. -/
def strbuf_append_printf (heap : Nat → Nat) (buf : strbuf) (out : List Nat) : Run strbuf :=
  strbuf_append_vprintf heap buf out

/-! ## bdtool.c -/

/-- Outcome of `parse_playlist`: the value returned and, when the function
complained on `stderr`, the character and the position it reported. -/
structure ParseResult where
  value : Nat
  report : Option (Nat × Nat)
  deriving DecidableEq, Repr

/-- The `for` loop of `parse_playlist`.  The list is the object from `p[i]` on,
`i` the loop counter and `r` the `uint32_t` accumulator. -/
def parse_playlist_loop : List Nat → Nat → Nat → Run ParseResult
  | [], _, _ => .error .oob
  | c :: rest, i, r =>
    if c = 0 then .ok { value := r, report := none }
    else if 48 ≤ c ∧ c ≤ 57 then
      parse_playlist_loop rest (i + 1) ((r * 10 % UINT32_MOD + (c - 48)) % UINT32_MOD)
    else .ok { value := UINT32_MOD - 1, report := some (c, i) }

/-- Embedding of `parse_playlist`. -/
def parse_playlist (p : List Nat) : Run ParseResult := parse_playlist_loop p 0 0

/-- The `for` loop of `strbuf_append_shellescape`, with the local variables `s` and `i` of
the source.  At the end of a pass in which a quote was found `i` has been
reset to 0 and is then incremented by the loop header. -/
def strbuf_append_shellescape_loop (heap : Nat → Nat) :
    Nat → strbuf → List Nat → Nat → Run (strbuf × List Nat)
  | 0, _, _, _ => .error .hang
  | fuel + 1, buf, s, i =>
    match s[i]? with
    | none => .error .oob
    | some c =>
      if c = 0 then .ok (buf, s)
      else if c = 39 then do
        let buf ← strbuf_append_len heap buf s i
        let buf ← strbuf_append heap buf (lit "'\\''")
        strbuf_append_shellescape_loop heap fuel buf (s.drop (i + 1)) (0 + 1)
      else strbuf_append_shellescape_loop heap fuel buf s (i + 1)

/-- Embedding of `strbuf_append_shellescape`.  Every pass of the loop moves the position
read forward, so `s.length + 1` passes are enough. -/
def strbuf_append_shellescape (heap : Nat → Nat) (buf : strbuf) (s : List Nat) : Run strbuf := do
  let buf ← strbuf_append heap buf (lit "'")
  let r ← strbuf_append_shellescape_loop heap (s.length + 1) buf s 0
  let buf ← strbuf_append heap r.1 r.2
  strbuf_append heap buf (lit "'")

/-- Modelled from the spec: the libbluray declaration `BLURAY_STREAM_INFO` is
not part of the sources.  A stream descriptor carries its program
identifier (a `uint16_t`) and its language code (the bytes of a `uint8_t`
array holding a C string). -/
structure BLURAY_STREAM_INFO where
  pid : Nat
  lang : List Nat
  deriving DecidableEq, Repr

/-- Modelled from the spec: the libbluray declaration `BLURAY_CLIP_INFO`.  Each
array is a list and the matching `_count` field is its length. -/
structure BLURAY_CLIP_INFO where
  video_streams : List BLURAY_STREAM_INFO
  audio_streams : List BLURAY_STREAM_INFO
  pg_streams : List BLURAY_STREAM_INFO
  deriving DecidableEq, Repr

/-- Modelled from the spec: the libbluray declaration `BLURAY_TITLE_CHAPTER`, with
the two `uint64_t` fields the program reads. -/
structure BLURAY_TITLE_CHAPTER where
  start : Nat
  duration : Nat
  deriving DecidableEq, Repr

/-- Modelled from the spec: the libbluray declaration `BLURAY_TITLE_INFO`, with
the fields the program reads. -/
structure BLURAY_TITLE_INFO where
  chapter_count : Nat
  chapters : List BLURAY_TITLE_CHAPTER
  clips : List BLURAY_CLIP_INFO
  deriving DecidableEq, Repr

/-- The metadata provider: `bd_get_playlist_info` as a lookup by playlist number;
`none` is the `NULL` result. -/
abbrev BLURAY := Nat → Option BLURAY_TITLE_INFO

/-- Text rendered by the conversions `%d` and `%u` for a non-negative value. -/
def fmt_dec (n : Nat) : List Nat := (Nat.toDigits 10 n).map Char.toNat

/-- Text rendered by the conversion `%x`. -/
def fmt_hex (n : Nat) : List Nat := (Nat.toDigits 16 n).map Char.toNat

/-- Text rendered by the conversion `%s`: the bytes before the terminator. -/
def fmt_str : List Nat → Run (List Nat)
  | [] => .error .oob
  | c :: rest => if c = 0 then .ok [] else (fmt_str rest).map (c :: ·)

/-- The body shared by the three stream loops of `construct_makemkv`, for the
stream `s` at index `i`.  `disp` is the text of the disposition clause the
loop writes and `tag` the stream specifier of its metadata clause. -/
def stream_pass (heap : Nat → Nat) (disp : List Nat) (tag : String)
    (i : Nat) (s : BLURAY_STREAM_INFO) (buf : strbuf) : Run strbuf := do
  let buf ← strbuf_append_printf heap buf
    (bytes "-map 0:i:0x" ++ fmt_hex s.pid ++ bytes " -c copy ")
  let buf ← strbuf_append_printf heap buf disp
  match s.lang[0]? with
  | none => .error .oob
  | some c =>
    if c ≠ 0 then do
      let l ← fmt_str s.lang
      strbuf_append_printf heap buf
        (bytes "-metadata:" ++ bytes tag ++ bytes ":" ++ fmt_dec i ++
          bytes " language=" ++ l ++ bytes " ")
    else .ok buf

/-- The shape shared by the three stream loops of `construct_makemkv`, from
index `i` on: `disp i` is the text of the disposition clause that the loop
writes for index `i`. -/
def stream_loop (heap : Nat → Nat) (disp : Nat → List Nat) (tag : String) :
    Nat → List BLURAY_STREAM_INFO → strbuf → Run strbuf
  | _, [], buf => .ok buf
  | i, s :: rest, buf => do
    let buf ← stream_pass heap (disp i) tag i s buf
    stream_loop heap disp tag (i + 1) rest buf

/-- Disposition clause written by the loop over the video streams. -/
def video_disposition (i : Nat) : List Nat :=
  if i = 0 then bytes "-disposition:v:" ++ fmt_dec i ++ bytes " default "
  else bytes "-disposition:v:" ++ fmt_dec i ++ bytes " 0 "

/-- Disposition clause written by the loop over the audio streams. -/
def audio_disposition (i : Nat) : List Nat :=
  bytes "-disposition:a:" ++ fmt_dec i ++ bytes " 0 "

/-- Disposition clause written by the loop over the presentation-graphics
streams. -/
def pg_disposition (i : Nat) : List Nat :=
  bytes "-disposition:s:" ++ fmt_dec i ++ bytes " 0 "

/-- The loop over the video streams, from index `i` on. -/
def video_loop (heap : Nat → Nat) : Nat → List BLURAY_STREAM_INFO → strbuf → Run strbuf :=
  stream_loop heap video_disposition "v"

/-- The loop over the audio streams, from index `i` on. -/
def audio_loop (heap : Nat → Nat) : Nat → List BLURAY_STREAM_INFO → strbuf → Run strbuf :=
  stream_loop heap audio_disposition "s:a"

/-- The loop over the presentation-graphics streams, from index `i` on. -/
def pg_loop (heap : Nat → Nat) : Nat → List BLURAY_STREAM_INFO → strbuf → Run strbuf :=
  stream_loop heap pg_disposition "s:s"

/-- The lines that write one input source: `-i <(SELF BD_PATH COMMAND ID) `. -/
def input_source (heap : Nat → Nat) (self bd_path : List Nat)
    (command : String) (playlistInt : Nat) (buf : strbuf) : Run strbuf := do
  let buf ← strbuf_append_printf heap buf (bytes "-i <(")
  let buf ← strbuf_append_shellescape heap buf self
  let buf ← strbuf_append heap buf (lit " ")
  let buf ← strbuf_append_shellescape heap buf bd_path
  strbuf_append_printf heap buf
    (bytes " " ++ bytes command ++ bytes " " ++ fmt_dec playlistInt ++ bytes ") ")

/-- The block of `construct_makemkv` guarded by `info->chapter_count > 0`. -/
def chapter_source (heap : Nat → Nat) (self bd_path : List Nat)
    (playlistInt : Nat) (info : BLURAY_TITLE_INFO) (buf : strbuf) : Run strbuf :=
  if info.chapter_count > 0 then do
    let buf ← input_source heap self bd_path "print-ff-chapters" playlistInt buf
    strbuf_append heap buf (lit "-map_chapters 1 ")
  else .ok buf

/-- The three stream loops of `construct_makemkv`, all over `info->clips[0]`. -/
def stream_loops (heap : Nat → Nat) (info : BLURAY_TITLE_INFO) (buf : strbuf) : Run strbuf :=
  match info.clips[0]? with
  | none => .error .oob
  | some clip => do
    let buf ← video_loop heap 0 clip.video_streams buf
    let buf ← audio_loop heap 0 clip.audio_streams buf
    pg_loop heap 0 clip.pg_streams buf

/-- The part of `construct_makemkv` that writes into the buffer, once the
playlist number and its title information are at hand. -/
def construct_makemkv_body (heap : Nat → Nat) (self bd_path : List Nat)
    (playlistInt : Nat) (info : BLURAY_TITLE_INFO) (outfile : List Nat) (buf : strbuf) :
    Run strbuf := do
  let buf ← strbuf_append heap buf (lit "ffmpeg ")
  let buf ← input_source heap self bd_path "splice" playlistInt buf
  let buf ← chapter_source heap self bd_path playlistInt info buf
  let buf ← stream_loops heap info buf
  strbuf_append_shellescape heap buf outfile

/-- Embedding of `construct_makemkv`: the value returned and the buffer left behind. -/
def construct_makemkv (heap : Nat → Nat) (buf : strbuf) (self bd_path : List Nat)
    (bd : BLURAY) (playlist outfile : List Nat) : Run (Nat × strbuf) := do
  let parsed ← parse_playlist playlist
  let playlistInt := parsed.value
  if playlistInt = UINT32_MOD - 1 then .ok (1, buf)
  else
    match bd playlistInt with
    | none => .ok (1, buf)
    | some info => do
      let buf ← construct_makemkv_body heap self bd_path playlistInt info outfile buf
      .ok (0, buf)

/-! ## Buffer invariant and what an append writes -/

/-- The buffer invariant: the text and its terminator lie inside the
allocated bytes, `str` has `allocated_size` bytes, the allocation is
representable, and the byte after the text is the terminator. -/
def strbuf.wf (b : strbuf) : Prop :=
  b.used_size < b.allocated_size ∧ b.str.length = b.allocated_size ∧
    b.allocated_size + sizeof_strbuf < SIZE_MOD ∧ b.str[b.used_size]? = some 0

instance (b : strbuf) : Decidable b.wf := by
  unfold strbuf.wf; infer_instance

/-- Size up to which appends are shown to succeed: below it the doubling in
`strbuf_ensure_space` cannot wrap around. -/
def APPEND_LIMIT : Nat := 2 ^ 62

/-- What `strbuf_ensure_space` guarantees about the buffer it returns, whether
or not the size computation wrapped around. -/
def Grown (b b1 : strbuf) : Prop :=
  b1.used_size = b.used_size ∧ b1.str.length = b1.allocated_size ∧
    b1.allocated_size + sizeof_strbuf < SIZE_MOD ∧
    ∀ k, k ≤ b.used_size → k < b1.allocated_size → b1.str.take k = b.str.take k

/-- `Writes F t`: run on a buffer that satisfies the invariant, `F` can only
return a buffer that satisfies it and holds the old text followed by `t`;
and it does return when that text stays below `APPEND_LIMIT`. -/
def Writes (F : strbuf → Run strbuf) (t : List Nat) : Prop :=
  ∀ b, b.wf →
    (∀ b2, F b = .ok b2 → b2.wf ∧ b2.content = b.content ++ t) ∧
    (b.used_size + t.length < APPEND_LIMIT → ∃ b2, F b = .ok b2)

/-- The text of a C string: the bytes before the first terminator. -/
def cstr (s : List Nat) : List Nat := s.takeWhile (· ≠ 0)

/-! ## The text a function appends

Which text a function of `bdtool.c` appends, and whether it faults before
it is done, depends on its arguments only, not on the buffer.  For each
function a companion `…_text` computes that text by the same control flow,
and `Appends` states that the function on buffers follows it. -/

/-- `Appends F T`: run on a buffer that satisfies the invariant, `F` returns
only if `T` is a text `t`, and then the buffer returned satisfies the
invariant and holds the old text followed by `t`; conversely `F` does return
when `T` is a text that keeps the buffer below `APPEND_LIMIT`. -/
def Appends (F : strbuf → Run strbuf) (T : Run (List Nat)) : Prop :=
  ∀ b, b.wf →
    (∀ b2, F b = .ok b2 → ∃ t, T = .ok t ∧ b2.wf ∧ b2.content = b.content ++ t) ∧
    (∀ t, T = .ok t → b.used_size + t.length < APPEND_LIMIT → ∃ b2, F b = .ok b2)

/-- Text of two appends in a row. -/
def text_seq (T U : Run (List Nat)) : Run (List Nat) := do
  let t ← T
  let u ← U
  .ok (t ++ u)

/-- Text appended by `strbuf_append_printf` for the rendered text `out`. -/
def text_printf (out : List Nat) : Run (List Nat) :=
  if 2 ^ 31 ≤ out.length then .error .abort else .ok out

/-- Text appended by `strbuf_append` for the object `str`. -/
def text_append (str : List Nat) : Run (List Nat) := do
  let _ ← strlen str
  .ok (cstr str)

/-- Text appended by the loop of `strbuf_append_shellescape`, and the value of `s` the
loop ends with. -/
def shellescape_loop_text : Nat → List Nat → Nat → Run (List Nat × List Nat)
  | 0, _, _ => .error .hang
  | fuel + 1, s, i =>
    match s[i]? with
    | none => .error .oob
    | some c =>
      if c = 0 then .ok ([], s)
      else if c = 39 then do
        let r ← shellescape_loop_text fuel (s.drop (i + 1)) (0 + 1)
        .ok (s.take i ++ bytes "'\\''" ++ r.1, r.2)
      else shellescape_loop_text fuel s (i + 1)

/-- Text appended by `strbuf_append_shellescape`. -/
def shellescape_text (s : List Nat) : Run (List Nat) := do
  let r ← shellescape_loop_text (s.length + 1) s 0
  let tail ← text_append r.2
  .ok (bytes "'" ++ r.1 ++ tail ++ bytes "'")

/-- Text of the language clause of `stream_pass`, empty when the language
code is. -/
def language_text (tag : String) (i : Nat) (s : BLURAY_STREAM_INFO) : Run (List Nat) :=
  match s.lang[0]? with
  | none => .error .oob
  | some c =>
    if c ≠ 0 then do
      let l ← fmt_str s.lang
      text_printf (bytes "-metadata:" ++ bytes tag ++ bytes ":" ++ fmt_dec i ++
        bytes " language=" ++ l ++ bytes " ")
    else .ok []

/-- Text appended by `stream_pass`. -/
def stream_pass_text (disp : List Nat) (tag : String) (i : Nat) (s : BLURAY_STREAM_INFO) :
    Run (List Nat) :=
  text_seq (text_printf (bytes "-map 0:i:0x" ++ fmt_hex s.pid ++ bytes " -c copy "))
    (text_seq (text_printf disp) (language_text tag i s))

/-- Text appended by `stream_loop`. -/
def stream_loop_text (disp : Nat → List Nat) (tag : String) :
    Nat → List BLURAY_STREAM_INFO → Run (List Nat)
  | _, [] => .ok []
  | i, s :: rest =>
    text_seq (stream_pass_text (disp i) tag i s) (stream_loop_text disp tag (i + 1) rest)

/-- Text appended by `input_source`. -/
def input_source_text (self bd_path : List Nat) (command : String) (playlistInt : Nat) :
    Run (List Nat) :=
  text_seq (text_printf (bytes "-i <("))
    (text_seq (shellescape_text self)
      (text_seq (text_append (lit " "))
        (text_seq (shellescape_text bd_path)
          (text_printf (bytes " " ++ bytes command ++ bytes " " ++ fmt_dec playlistInt ++
            bytes ") ")))))

/-- Text appended by `chapter_source`. -/
def chapter_source_text (self bd_path : List Nat) (playlistInt : Nat)
    (info : BLURAY_TITLE_INFO) : Run (List Nat) :=
  if info.chapter_count > 0 then
    text_seq (input_source_text self bd_path "print-ff-chapters" playlistInt)
      (text_append (lit "-map_chapters 1 "))
  else .ok []

/-- Text appended by `stream_loops`. -/
def stream_loops_text (info : BLURAY_TITLE_INFO) : Run (List Nat) :=
  match info.clips[0]? with
  | none => .error .oob
  | some clip =>
    text_seq (stream_loop_text video_disposition "v" 0 clip.video_streams)
      (text_seq (stream_loop_text audio_disposition "s:a" 0 clip.audio_streams)
        (stream_loop_text pg_disposition "s:s" 0 clip.pg_streams))

/-- Text appended by `construct_makemkv_body`. -/
def construct_makemkv_text (self bd_path : List Nat) (playlistInt : Nat)
    (info : BLURAY_TITLE_INFO) (outfile : List Nat) : Run (List Nat) :=
  text_seq (text_append (lit "ffmpeg "))
    (text_seq (input_source_text self bd_path "splice" playlistInt)
      (text_seq (chapter_source_text self bd_path playlistInt info)
        (text_seq (stream_loops_text info) (shellescape_text outfile))))

/-! ## Layout of the command line -/

/-- Stream-selection clause for the program identifier `pid`. -/
def map_clause (pid : Nat) : List Nat :=
  bytes "-map 0:i:0x" ++ fmt_hex pid ++ bytes " -c copy "

/-- Language-metadata clause with stream specifier `tag`, index `i` and
language code `code`. -/
def language_clause (tag : String) (i : Nat) (code : List Nat) : List Nat :=
  bytes "-metadata:" ++ bytes tag ++ bytes ":" ++ fmt_dec i ++ bytes " language=" ++ code ++
    bytes " "

/-- The clauses of one stream, kept apart. -/
structure StreamClauses where
  selection : List Nat
  disposition : List Nat
  language : List Nat

/-- The clauses of one stream as they stand in the command line. -/
def StreamClauses.text (c : StreamClauses) : List Nat :=
  c.selection ++ c.disposition ++ c.language

/-- The clauses of the streams `l` of one kind, numbered from `i`: selection,
disposition `disp k`, and a language clause when the language code of the
stream is not empty. -/
def kind_clauses (disp : Nat → List Nat) (tag : String) (i : Nat)
    (l : List BLURAY_STREAM_INFO) : List StreamClauses :=
  (l.enumFrom i).map fun ks =>
    { selection := map_clause ks.2.pid
      disposition := disp ks.1
      language := if cstr ks.2.lang = [] then [] else language_clause tag ks.1 (cstr ks.2.lang) }

/-- The clauses of all streams of a clip: video, then audio, then
presentation graphics. -/
def command_clauses (clip : BLURAY_CLIP_INFO) : List StreamClauses :=
  kind_clauses video_disposition "v" 0 clip.video_streams ++
    kind_clauses audio_disposition "s:a" 0 clip.audio_streams ++
    kind_clauses pg_disposition "s:s" 0 clip.pg_streams

/-- One input source: `-i <(SELF BD_PATH COMMAND ID) `, with the two tokens
`e_self` and `e_path` that stand for the program and the disc. -/
def input_clause (e_self e_path : List Nat) (command : String) (n : Nat) : List Nat :=
  bytes "-i <(" ++ e_self ++ bytes " " ++ e_path ++ bytes " " ++ bytes command ++ bytes " " ++
    fmt_dec n ++ bytes ") "

/-- The command line up to the stream clauses. -/
def command_head (e_self e_path : List Nat) (n : Nat) (info : BLURAY_TITLE_INFO) : List Nat :=
  bytes "ffmpeg " ++ input_clause e_self e_path "splice" n ++
    (if info.chapter_count > 0 then
      input_clause e_self e_path "print-ff-chapters" n ++ bytes "-map_chapters 1 "
    else [])

/-- A text that ends with a space whose neighbour to the left is not a
space. -/
def EndsSpaced (t : List Nat) : Prop := ∃ x c, t = x ++ [c, 32] ∧ c ≠ 32

/-- A text that ends with a space. -/
def EndsSpace (t : List Nat) : Prop := ∃ x, t = x ++ [32]

/-! ## Playlist numbers -/

/-- An ASCII decimal digit. -/
def is_digit (c : Nat) : Prop := 48 ≤ c ∧ c ≤ 57

instance (c : Nat) : Decidable (is_digit c) := by
  unfold is_digit; infer_instance

/-- The standard decimal interpretation of a string of digits, most
significant digit first. -/
def decimal_value (d : List Nat) : Nat := Nat.ofDigits 10 (d.reverse.map (· - 48))

/-! ## Reference behaviour the claims are measured against -/

/-- Word splitting by the POSIX shell quoting rules: text inside single
quotes is literal, a backslash outside quotes makes the next character
literal, adjacent pieces concatenate, and unquoted blanks end a word.  The
flag tells whether a single quote is open, `cur` is the word in progress.
The result is `none` when a quote is left open or a backslash ends the
text. -/
def shell_words_from : Bool → Option (List Nat) → List Nat → Option (List (List Nat))
  | false, cur, [] =>
    match cur with
    | none => some []
    | some w => some [w]
  | true, _, [] => none
  | false, cur, c :: rest =>
    if c = 39 then shell_words_from true (some (cur.getD [])) rest
    else if c = 92 then
      match rest with
      | [] => none
      | d :: rest2 => shell_words_from false (some (cur.getD [] ++ [d])) rest2
    else if c = 32 ∨ c = 9 ∨ c = 10 then
      match cur with
      | none => shell_words_from false none rest
      | some w => (shell_words_from false none rest).map (w :: ·)
    else shell_words_from false (some (cur.getD [] ++ [c])) rest
  | true, cur, c :: rest =>
    if c = 39 then shell_words_from false cur rest
    else shell_words_from true (some (cur.getD [] ++ [c])) rest

/-- The words a POSIX shell reads from `text`. -/
def shell_words (text : List Nat) : Option (List (List Nat)) :=
  shell_words_from false none text

/-- The reference transform of the specification: a single quote, the string
with every single quote replaced by the four characters quote, backslash,
quote, quote, and a closing single quote. -/
def shellescape_reference (s : List Nat) : List Nat :=
  [39] ++ (s.map fun c => if c = 39 then [39, 92, 39, 39] else [c]).flatten ++ [39]

/-! ## Sample inputs -/

/-- A small title used to run the code: one video and one audio stream with
language `eng`, no chapters. -/
def sample_info : BLURAY_TITLE_INFO :=
  { chapter_count := 0
    chapters := []
    clips := [{ video_streams := [{ pid := 0x1011, lang := [101, 110, 103, 0] }]
                audio_streams := [{ pid := 0x1100, lang := [101, 110, 103, 0] }]
                pg_streams := [] }] }

/-- A title with two chapters, two video streams, one audio stream and one
subtitle stream; the second video stream has no language code. -/
def sample_info_chapters : BLURAY_TITLE_INFO :=
  { chapter_count := 2
    chapters := [{ start := 0, duration := 900000 }, { start := 900000, duration := 450000 }]
    clips := [{ video_streams := [{ pid := 0x1011, lang := [101, 110, 103, 0] },
                                  { pid := 0x1012, lang := [0, 0, 0, 0] }]
                audio_streams := [{ pid := 0x1100, lang := [101, 110, 103, 0] }]
                pg_streams := [{ pid := 0x1200, lang := [100, 101, 117, 0] }] }] }

/-- A title whose only stream has the language code `e` followed by a
space. -/
def sample_info_spaced : BLURAY_TITLE_INFO :=
  { chapter_count := 0
    chapters := []
    clips := [{ video_streams := [{ pid := 0x1011, lang := [101, 32, 0, 0] }]
                audio_streams := []
                pg_streams := [] }] }

/-- A metadata provider that knows every playlist as `info`. -/
def sample_disc (info : BLURAY_TITLE_INFO) : BLURAY := fun _ => some info

/-- A heap whose fresh bytes all read `0xAA`. -/
def sample_heap : Nat → Nat := fun _ => 170

/-- The buffer that `strbuf_alloc` returns on `sample_heap`. -/
def sample_buf : strbuf :=
  { allocated_size := 16, used_size := 0,
    str := [0, 170, 170, 170, 170, 170, 170, 170, 170, 170, 170, 170, 170, 170, 170, 0] }

/-- The buffer left by `construct_makemkv` on the sample inputs with title
`info`: program `./bdtool`, disc `/mnt/bd`, playlist `00001`, output
`out.mkv`, starting from `sample_buf`. -/
def sample_out (info : BLURAY_TITLE_INFO) : strbuf :=
  match construct_makemkv sample_heap sample_buf (lit "./bdtool") (lit "/mnt/bd")
      (sample_disc info) (lit "00001") (lit "out.mkv") with
  | .ok r => r.2
  | .error _ => sample_buf

/-! ## print_chapters_ffmpeg -/

/-- Number of values of a `uint64_t`. -/
def UINT64_MOD : Nat := 2 ^ 64

/-- The `for` loop of `print_chapters_ffmpeg`: `todo` passes are left, `i` is the
loop counter and `out` the text printed on `stdout` so far.  The sum of the
two `uint64_t` fields is formed in `uint64_t`. -/
def print_chapters_loop (chapters : List BLURAY_TITLE_CHAPTER) :
    Nat → Nat → List Nat → Run (List Nat)
  | 0, _, out => .ok out
  | todo + 1, i, out =>
    match chapters[i]? with
    | none => .error .oob
    | some c =>
      print_chapters_loop chapters todo (i + 1)
        (out ++ bytes "[CHAPTER]\n" ++ bytes "TIMEBASE=1/90000\n" ++
          (bytes "START=" ++ fmt_dec c.start ++ bytes "\n") ++
          (bytes "END=" ++ fmt_dec ((c.start + c.duration) % UINT64_MOD) ++ bytes "\n") ++
          bytes "\n")

/-- Embedding of `print_chapters_ffmpeg`: the value returned and the text printed on
`stdout`. -/
def print_chapters_ffmpeg (bd : BLURAY) (playlist : List Nat) : Run (Nat × List Nat) := do
  let parsed ← parse_playlist playlist
  let playlistInt := parsed.value
  if playlistInt = UINT32_MOD - 1 then .ok (1, [])
  else
    match bd playlistInt with
    | none => .ok (1, [])
    | some info => do
      let out ← print_chapters_loop info.chapters info.chapter_count 0
        (bytes ";FFMETADATA\n\n")
      .ok (0, out)

/-- A line of text: its bytes and a newline. -/
def text_line (t : List Nat) : List Nat := t ++ [10]

/-- The block of one chapter in the chapter file, with end value `e`: section
marker, timebase, start, end, blank line. -/
def chapter_block (start e : Nat) : List Nat :=
  text_line (bytes "[CHAPTER]") ++ text_line (bytes "TIMEBASE=1/90000") ++
    text_line (bytes "START=" ++ fmt_dec start) ++ text_line (bytes "END=" ++ fmt_dec e) ++
    text_line []

/-- A title with one chapter whose start and duration add up to `2^64`. -/
def sample_info_late : BLURAY_TITLE_INFO :=
  { chapter_count := 1
    chapters := [{ start := 18446744073709551615, duration := 1 }]
    clips := [] }

/-! ## Sequences of appends -/

/-- One call of an append function of `strbuf.h`, with its arguments: for
`strbuf_append_printf` the text rendered for the format and its arguments. -/
inductive AppendCall where
  | append_len (str : List Nat) (len : Nat)
  | append (str : List Nat)
  | append_printf (out : List Nat)

/-- Runs the call on the buffer `b`. -/
def AppendCall.run (heap : Nat → Nat) (b : strbuf) : AppendCall → Run strbuf
  | .append_len str len => strbuf_append_len heap b str len
  | .append str => strbuf_append heap b str
  | .append_printf out => strbuf_append_printf heap b out

/-- The fragment that the call is to append: the first `len` bytes of the
object, the text of the C string, the rendered text. -/
def AppendCall.fragment : AppendCall → List Nat
  | .append_len str len => str.take len
  | .append str => cstr str
  | .append_printf out => out

/-- Arguments that the C function can be called with: `len` bytes can be
read from the object, the C string has a terminator, the rendered text has
at most `INT_MAX` bytes. -/
def AppendCall.valid : AppendCall → Prop
  | .append_len str len => len ≤ str.length
  | .append str => 0 ∈ str
  | .append_printf out => out.length < 2 ^ 31

instance (c : AppendCall) : Decidable c.valid := by
  cases c <;> unfold AppendCall.valid <;> infer_instance

/-- Runs the calls one after the other. -/
def run_calls (heap : Nat → Nat) : List AppendCall → strbuf → Run strbuf
  | [], b => .ok b
  | c :: rest, b => do
    let b1 ← c.run heap b
    run_calls heap rest b1

/-- Runs the calls one after the other and counts the reallocations: the
calls that change the capacity, since `strbuf_ensure_space` calls
`strbuf_realloc` once, and only when the size it arrived at differs from
`allocated_size`. -/
def count_reallocs (heap : Nat → Nat) : List AppendCall → strbuf → Run (Nat × strbuf)
  | [], b => .ok (0, b)
  | c :: rest, b => do
    let b1 ← c.run heap b
    let r ← count_reallocs heap rest b1
    .ok ((if b1.allocated_size ≠ b.allocated_size then 1 else 0) + r.1, r.2)

/-- The calls used to run the code: a formatted append, the append of a C
string and the append of the first three bytes of an object. -/
def sample_calls : List AppendCall :=
  [.append_printf (bytes "-map 0:i:0x1011 -c copy "), .append (lit "ffmpeg "),
    .append_len (bytes "splice") 3]

/-- A title whose only stream has the language code `abc`. -/
def sample_info_word : BLURAY_TITLE_INFO :=
  { chapter_count := 0
    chapters := []
    clips := [{ video_streams := [{ pid := 0x1011, lang := [97, 98, 99, 0] }]
                audio_streams := []
                pg_streams := [] }] }

/-- A title whose only stream has the language code `a b`, with a space in
the middle. -/
def sample_info_blank : BLURAY_TITLE_INFO :=
  { chapter_count := 0
    chapters := []
    clips := [{ video_streams := [{ pid := 0x1011, lang := [97, 32, 98, 0] }]
                audio_streams := []
                pg_streams := [] }] }

/-! ## Words of the command line -/

/-- The characters that the POSIX shell requires to be quoted when they are to
stand for themselves: the operators, dollar, backquote, backslash, the two
quotes and the blanks. -/
def shell_special (c : Nat) : Prop :=
  c ∈ [124, 38, 59, 60, 62, 40, 41, 36, 96, 92, 34, 39, 32, 9, 10]

instance (c : Nat) : Decidable (shell_special c) := by
  unfold shell_special; infer_instance

/-- A character that `shell_words_from` adds to the word in progress when no
quote is open: not a single quote, a backslash or a blank. -/
def word_char (c : Nat) : Prop := c ≠ 39 ∧ c ≠ 92 ∧ c ≠ 32 ∧ c ≠ 9 ∧ c ≠ 10

instance (c : Nat) : Decidable (word_char c) := by
  unfold word_char; infer_instance

/-- A text in which no single quote is directly followed by another single
quote or by the end of the text. -/
def quote_safe : List Nat → Prop
  | [] => True
  | [c] => c ≠ 39
  | c :: d :: rest => (c = 39 → d ≠ 39) ∧ quote_safe (d :: rest)

instance quote_safe_decidable : (t : List Nat) → Decidable (quote_safe t)
  | [] => isTrue trivial
  | [c] => by unfold quote_safe; infer_instance
  | c :: d :: rest => by
    have := quote_safe_decidable (d :: rest)
    unfold quote_safe; infer_instance

/-- `Word p w`: read by `shell_words_from` outside quotes, the text `p` adds
the characters `w` to the word in progress and leaves no quote open. -/
def Word (p w : List Nat) : Prop :=
  ∀ cur rest, shell_words_from false cur (p ++ rest) =
    shell_words_from false (some (cur.getD [] ++ w)) rest

/-- `Line t ws`: read by `shell_words_from` between two words, the text `t`
gives the words `ws` and ends between two words. -/
def Line (t : List Nat) (ws : List (List Nat)) : Prop :=
  ∀ rest, shell_words_from false none (t ++ rest) =
    (shell_words_from false none rest).map (ws ++ ·)

/-- The words of one input source `-i <(SELF BD_PATH COMMAND ID) `. -/
def input_words (self bd_path : List Nat) (command : String) (n : Nat) : List (List Nat) :=
  [bytes "-i", bytes "<(" ++ self, bd_path, bytes command, fmt_dec n ++ bytes ")"]

/-- The words of the disposition clause of the video stream at index `i`. -/
def video_words (i : Nat) : List (List Nat) :=
  [bytes "-disposition:v:" ++ fmt_dec i, if i = 0 then bytes "default" else bytes "0"]

/-- The words of the disposition clause of the audio stream at index `i`. -/
def audio_words (i : Nat) : List (List Nat) :=
  [bytes "-disposition:a:" ++ fmt_dec i, bytes "0"]

/-- The words of the disposition clause of the presentation-graphics stream
at index `i`. -/
def pg_words (i : Nat) : List (List Nat) :=
  [bytes "-disposition:s:" ++ fmt_dec i, bytes "0"]

/-- The words of the clauses of the stream `s` at index `i` of its kind: four
for the selection, the words `dw` of the disposition, and two for the
language when the language code is not empty, the second of them
`language=<code>`. -/
def stream_words (dw : List (List Nat)) (tag : String) (i : Nat) (s : BLURAY_STREAM_INFO) :
    List (List Nat) :=
  [bytes "-map", bytes "0:i:0x" ++ fmt_hex s.pid, bytes "-c", bytes "copy"] ++ dw ++
    (if cstr s.lang = [] then []
     else [bytes "-metadata:" ++ bytes tag ++ bytes ":" ++ fmt_dec i,
       bytes "language=" ++ cstr s.lang])

/-- The words of the clauses of the streams `l` of one kind, numbered from
`i`. -/
def kind_words (dw : Nat → List (List Nat)) (tag : String) (i : Nat)
    (l : List BLURAY_STREAM_INFO) : List (List Nat) :=
  ((l.enumFrom i).map fun ks => stream_words (dw ks.1) tag ks.1 ks.2).flatten

/-- The words of the command line for the program `self`, the disc `bd_path`,
the playlist number `n`, the title `info` with first clip `clip`, and the
output file `outfile`. -/
def command_words (self bd_path : List Nat) (n : Nat) (info : BLURAY_TITLE_INFO)
    (clip : BLURAY_CLIP_INFO) (outfile : List Nat) : List (List Nat) :=
  [bytes "ffmpeg"] ++ input_words self bd_path "splice" n ++
    (if info.chapter_count > 0 then
      input_words self bd_path "print-ff-chapters" n ++ [bytes "-map_chapters", bytes "1"]
    else []) ++
    kind_words video_words "v" 0 clip.video_streams ++
    kind_words audio_words "s:a" 0 clip.audio_streams ++
    kind_words pg_words "s:s" 0 clip.pg_streams ++ [outfile]

/-- The number of streams of the list that have a language code. -/
def language_count (l : List BLURAY_STREAM_INFO) : Nat :=
  (l.filter fun s => decide (cstr s.lang ≠ [])).length

/-- The buffer left by `construct_makemkv` on the sample inputs with the title
`sample_info` and the output file `it's.mkv`. -/
def sample_out_quoted : strbuf :=
  match construct_makemkv sample_heap sample_buf (lit "./bdtool") (lit "/mnt/bd")
      (sample_disc sample_info) (lit "00001") (lit "it's.mkv") with
  | .ok r => r.2
  | .error _ => sample_buf

/-! ## The byte before the output token -/

/-- `Trail t o`: the text `t` ends with a space, and the byte before that
space is a space exactly when `o` is a stream whose language code ends in a
space. -/
def Trail (t : List Nat) (o : Option BLURAY_STREAM_INFO) : Prop :=
  ∃ x c, t = x ++ [c, 32] ∧
    (c = 32 ↔ ∃ s, o = some s ∧ (cstr s.lang).getLast? = some 32)

/-- A title whose video stream has the language code `e` followed by a space
and whose audio stream, the last one written, has the code `eng`. -/
def sample_info_inner : BLURAY_TITLE_INFO :=
  { chapter_count := 0
    chapters := []
    clips := [{ video_streams := [{ pid := 0x1011, lang := [101, 32, 0, 0] }]
                audio_streams := [{ pid := 0x1100, lang := [101, 110, 103, 0] }]
                pg_streams := [] }] }

/-! # Theorems

## Buffer invariant and what an append writes -/

theorem SIZE_MOD_eq : SIZE_MOD = 18446744073709551616 := by decide

theorem APPEND_LIMIT_eq : APPEND_LIMIT = 4611686018427387904 := by decide

theorem sizeof_strbuf_eq : sizeof_strbuf = 16 := rfl

theorem bind_eq_ok {α β : Type} (x : Run α) (f : α → Run β) (b : β) :
    (x >>= f) = .ok b ↔ ∃ a, x = .ok a ∧ f a = .ok b := by
  cases x <;> simp [bind, Except.bind]

theorem take_set_of_le {α : Type} (l : List α) (k n : Nat) (a : α) (h : k ≤ n) :
    (l.set n a).take k = l.take k := by
  induction l generalizing k n with
  | nil => simp
  | cons x xs ih =>
    cases n with
    | zero =>
      have : k = 0 := by omega
      subst this; simp
    | succ n =>
      cases k with
      | zero => simp
      | succ k => simp [List.set, ih k n (by omega)]

theorem strbuf.content_length (b : strbuf) (h : b.wf) : b.content.length = b.used_size := by
  obtain ⟨h1, h2, _, _⟩ := h
  simp [strbuf.content, List.length_take]; omega

theorem strbuf_realloc_some (heap : Nat → Nat) (b b1 : strbuf) (n : Nat) (hb : b.wf)
    (h : strbuf_realloc heap (some b) n = .ok b1) :
    Grown b b1 ∧ b1.allocated_size = (if n = 0 then 1 else n) := by
  obtain ⟨h1, h2, h3, _⟩ := hb
  unfold strbuf_realloc at h
  dsimp only at h
  generalize (if n = 0 then 1 else n) = m at h ⊢
  by_cases hsz : SIZE_MOD ≤ sizeof_strbuf + m
  · rw [if_pos hsz] at h; cases h
  · rw [if_neg hsz] at h
    simp only [Except.ok.injEq] at h
    subst h
    refine ⟨⟨rfl, ?_, ?_, ?_⟩, rfl⟩
    · simp [List.length_take]; omega
    · simp only; omega
    · intro k hk1 hk2
      simp only at hk2 ⊢
      rw [take_set_of_le _ _ _ _ (by omega)]
      rw [List.take_append_of_le_length (by simp [List.length_take]; omega)]
      rw [List.take_take]
      congr 1
      omega

theorem strbuf_ensure_space_grown (heap : Nat → Nat) (b b1 : strbuf) (space : Nat)
    (hb : b.wf) (h : strbuf_ensure_space heap b space = .ok b1) : Grown b b1 := by
  unfold strbuf_ensure_space at h
  rw [bind_eq_ok] at h
  obtain ⟨n, _, h⟩ := h
  split at h
  · exact (strbuf_realloc_some heap b b1 n hb h).1
  · simp only [Except.ok.injEq] at h
    subst h
    exact ⟨rfl, hb.2.1, hb.2.2.1, fun _ _ _ => rfl⟩

theorem strbuf_append_len_write_ok (b b1 b2 : strbuf) (str : List Nat) (len : Nat)
    (hg : Grown b b1) (h : strbuf_append_len_write b1 str len = .ok b2) :
    b2.wf ∧ b2.content = b.content ++ str.take len := by
  obtain ⟨g1, g2, g3, g4⟩ := hg
  have hs := SIZE_MOD_eq
  have hz := sizeof_strbuf_eq
  unfold strbuf_append_len_write at h
  by_cases c1 : str.length < len
  · rw [if_pos c1] at h; cases h
  rw [if_neg c1] at h
  by_cases c2 : b1.str.length < b1.used_size + len
  · rw [if_pos c2] at h; cases h
  rw [if_neg c2] at h
  dsimp only at h
  have hmod : (b1.used_size + len) % SIZE_MOD = b1.used_size + len :=
    Nat.mod_eq_of_lt (by omega)
  rw [hmod] at h
  have hlen : (List.take b1.used_size b1.str ++ List.take len str ++
      List.drop (b1.used_size + len) b1.str).length = b1.str.length := by
    simp [List.length_take, List.length_drop]; omega
  rw [hlen] at h
  by_cases c3 : b1.str.length ≤ b1.used_size + len
  · rw [if_pos c3] at h; cases h
  rw [if_neg c3] at h
  simp only [Except.ok.injEq] at h
  subst h
  have hA : (List.take b1.used_size b1.str ++ List.take len str).length =
      b1.used_size + len := by
    simp [List.length_take]; omega
  refine ⟨⟨?_, ?_, ?_, ?_⟩, ?_⟩
  · simp only; omega
  · simp only [List.length_set]; rw [hlen]; exact g2
  · exact g3
  · simp only
    rw [List.getElem?_set_self (by rw [hlen]; omega)]
  · simp only [strbuf.content]
    rw [take_set_of_le _ _ _ _ (le_refl _), List.take_left' hA]
    rw [g4 b1.used_size (by omega) (by omega), g1]

theorem strbuf_append_vprintf_write_ok (b b1 b2 : strbuf) (out : List Nat)
    (hg : Grown b b1) (h : strbuf_append_vprintf_write b1 out = .ok b2) :
    b2.wf ∧ b2.content = b.content ++ out := by
  obtain ⟨g1, g2, g3, g4⟩ := hg
  have hs := SIZE_MOD_eq
  have hz := sizeof_strbuf_eq
  unfold strbuf_append_vprintf_write at h
  dsimp only at h
  by_cases c2 : b1.str.length < b1.used_size + (out.length + 1)
  · rw [if_pos c2] at h; cases h
  rw [if_neg c2] at h
  have hmod : (b1.used_size + out.length) % SIZE_MOD = b1.used_size + out.length :=
    Nat.mod_eq_of_lt (by omega)
  rw [hmod] at h
  simp only [Except.ok.injEq] at h
  subst h
  have hA : (List.take b1.used_size b1.str ++ out).length = b1.used_size + out.length := by
    simp [List.length_take]; omega
  have hmem : List.take b1.used_size b1.str ++ (out ++ [0]) ++
      List.drop (b1.used_size + (out.length + 1)) b1.str =
      (List.take b1.used_size b1.str ++ out) ++
        (0 :: List.drop (b1.used_size + (out.length + 1)) b1.str) := by
    simp
  refine ⟨⟨?_, ?_, ?_, ?_⟩, ?_⟩
  · simp only; omega
  · simp only [List.length_append, List.length_take, List.length_drop, List.length_cons,
      List.length_nil]
    omega
  · exact g3
  · simp only
    rw [hmem, List.getElem?_append_right (by omega), hA]
    simp
  · simp only [strbuf.content]
    rw [hmem, List.take_left' hA]
    rw [g4 b1.used_size (by omega) (by omega), g1]

/-- Without wrap-around the loop of `strbuf_ensure_space` ends, with room for
the request. -/
theorem strbuf_ensure_space_loop_ok (used space : Nat) (hsp : used + space ≤ APPEND_LIMIT) :
    ∀ fuel n, used < n → n + sizeof_strbuf < SIZE_MOD →
      SIZE_MOD ≤ (n + sizeof_strbuf) * 2 ^ fuel →
      ∃ m, strbuf_ensure_space_loop used space fuel n = .ok m ∧
        used + space ≤ m ∧ m + sizeof_strbuf < SIZE_MOD ∧ n ≤ m := by
  have hs := SIZE_MOD_eq
  have hz := sizeof_strbuf_eq
  have hl := APPEND_LIMIT_eq
  intro fuel
  induction fuel with
  | zero =>
    intro n _ h2 h3
    simp only [pow_zero, mul_one] at h3
    omega
  | succ fuel ih =>
    intro n h1 h2 h3
    unfold strbuf_ensure_space_loop
    have hsub : (n + SIZE_MOD - used) % SIZE_MOD = n - used := by
      have : n + SIZE_MOD - used = (n - used) + SIZE_MOD := by omega
      rw [this, Nat.add_mod_right]
      exact Nat.mod_eq_of_lt (by omega)
    rw [hsub]
    by_cases c : n - used < space
    · rw [if_pos c]
      have hmod : (n * 2 + sizeof_strbuf) % SIZE_MOD = n * 2 + sizeof_strbuf :=
        Nat.mod_eq_of_lt (by omega)
      rw [hmod]
      have hh : (n * 2 + sizeof_strbuf + sizeof_strbuf) * 2 ^ fuel =
          (n + sizeof_strbuf) * 2 ^ (fuel + 1) := by
        rw [hz]; ring
      obtain ⟨m, e1, e2, e3, e4⟩ := ih (n * 2 + sizeof_strbuf) (by omega) (by omega)
        (by rw [hh]; exact h3)
      exact ⟨m, e1, e2, e3, by omega⟩
    · rw [if_neg c]
      exact ⟨n, rfl, by omega, h2, le_refl _⟩

theorem strbuf_ensure_space_total (heap : Nat → Nat) (b : strbuf) (space : Nat) (hb : b.wf)
    (hsp : b.used_size + space ≤ APPEND_LIMIT) :
    ∃ b1, strbuf_ensure_space heap b space = .ok b1 ∧
      b.used_size + space ≤ b1.allocated_size := by
  have hs := SIZE_MOD_eq
  have hz := sizeof_strbuf_eq
  obtain ⟨h1, h2, h3, _⟩ := hb
  obtain ⟨m, hm, hm1, hm2, hm3⟩ := strbuf_ensure_space_loop_ok b.used_size space hsp 66
    b.allocated_size h1 h3 (by rw [hs, hz]; omega)
  unfold strbuf_ensure_space
  rw [hm]
  simp only [bind, Except.bind]
  by_cases c : m = b.allocated_size
  · rw [if_neg (by simpa using c)]
    exact ⟨b, rfl, by omega⟩
  · rw [if_pos c]
    unfold strbuf_realloc
    dsimp only
    have hm0 : (if m = 0 then 1 else m) = m := by
      rw [if_neg]; omega
    rw [hm0, if_neg (by omega)]
    exact ⟨_, rfl, hm1⟩

theorem Writes.ok_nil : Writes (fun b => .ok b) [] := by
  intro b hb
  refine ⟨fun b2 h => ?_, fun _ => ⟨b, rfl⟩⟩
  simp only [Except.ok.injEq] at h
  subst h
  exact ⟨hb, by simp⟩

theorem Writes.seq {F G : strbuf → Run strbuf} {t u : List Nat}
    (hF : Writes F t) (hG : Writes G u) : Writes (fun b => F b >>= G) (t ++ u) := by
  intro b hb
  obtain ⟨f1, f2⟩ := hF b hb
  constructor
  · intro b2 h
    rw [bind_eq_ok] at h
    obtain ⟨b1, h1, h2⟩ := h
    obtain ⟨w1, c1⟩ := f1 b1 h1
    obtain ⟨w2, c2⟩ := (hG b1 w1).1 b2 h2
    exact ⟨w2, by rw [c2, c1, List.append_assoc]⟩
  · intro hlim
    rw [List.length_append] at hlim
    obtain ⟨b1, h1⟩ := f2 (by omega)
    obtain ⟨w1, c1⟩ := f1 b1 h1
    have hu : b1.used_size = b.used_size + t.length := by
      rw [← strbuf.content_length b1 w1, c1, List.length_append,
        strbuf.content_length b hb]
    obtain ⟨b2, h2⟩ := (hG b1 w1).2 (by omega)
    exact ⟨b2, by rw [bind_eq_ok]; exact ⟨b1, h1, h2⟩⟩

theorem Writes.append_len (heap : Nat → Nat) (str : List Nat) (len : Nat)
    (hlen : len ≤ str.length) :
    Writes (fun b => strbuf_append_len heap b str len) (str.take len) := by
  have hs := SIZE_MOD_eq
  have hl := APPEND_LIMIT_eq
  intro b hb
  constructor
  · intro b2 h
    beta_reduce at h
    unfold strbuf_append_len at h
    rw [bind_eq_ok] at h
    obtain ⟨b1, h1, h2⟩ := h
    exact strbuf_append_len_write_ok b b1 b2 str len
      (strbuf_ensure_space_grown heap b b1 _ hb h1) h2
  · intro hlim
    rw [List.length_take, Nat.min_eq_left hlen] at hlim
    have hmod : (len + 1) % SIZE_MOD = len + 1 := Nat.mod_eq_of_lt (by omega)
    obtain ⟨b1, h1, hroom⟩ := strbuf_ensure_space_total heap b ((len + 1) % SIZE_MOD) hb
      (by rw [hmod]; omega)
    rw [hmod] at hroom
    obtain ⟨g1, g2, g3, _⟩ := strbuf_ensure_space_grown heap b b1 _ hb h1
    beta_reduce
    unfold strbuf_append_len
    rw [h1]
    simp only [bind, Except.bind]
    unfold strbuf_append_len_write
    rw [if_neg (by omega), if_neg (by omega)]
    dsimp only
    rw [if_neg]
    · exact ⟨_, rfl⟩
    · have e : (b1.used_size + len) % SIZE_MOD = b1.used_size + len :=
        Nat.mod_eq_of_lt (by omega)
      rw [e]
      simp only [List.length_append, List.length_take, List.length_drop]
      omega

theorem Writes.printf (heap : Nat → Nat) (out : List Nat) (hout : out.length < 2 ^ 31) :
    Writes (fun b => strbuf_append_printf heap b out) out := by
  have hs := SIZE_MOD_eq
  have hl := APPEND_LIMIT_eq
  have hmod : (out.length + 1) % SIZE_MOD = out.length + 1 := Nat.mod_eq_of_lt (by omega)
  intro b hb
  constructor
  · intro b2 h
    beta_reduce at h
    unfold strbuf_append_printf strbuf_append_vprintf at h
    rw [if_neg (show ¬ 2 ^ 31 ≤ out.length by omega), bind_eq_ok] at h
    obtain ⟨b1, h1, h2⟩ := h
    exact strbuf_append_vprintf_write_ok b b1 b2 out
      (strbuf_ensure_space_grown heap b b1 _ hb h1) h2
  · intro hlim
    obtain ⟨b1, h1, hroom⟩ := strbuf_ensure_space_total heap b ((out.length + 1) % SIZE_MOD)
      hb (by rw [hmod]; omega)
    rw [hmod] at hroom
    obtain ⟨g1, g2, g3, _⟩ := strbuf_ensure_space_grown heap b b1 _ hb h1
    beta_reduce
    unfold strbuf_append_printf strbuf_append_vprintf
    rw [if_neg (show ¬ 2 ^ 31 ≤ out.length by omega), h1]
    simp only [bind, Except.bind]
    unfold strbuf_append_vprintf_write
    dsimp only
    rw [if_neg (by omega)]
    exact ⟨_, rfl⟩

theorem strlen_ok (s : List Nat) (n : Nat) (h : strlen s = .ok n) :
    n < s.length ∧ s.take n = cstr s ∧ s[n]? = some 0 := by
  induction s generalizing n with
  | nil => cases h
  | cons c rest ih =>
    unfold strlen at h
    by_cases hc : c = 0
    · rw [if_pos hc] at h
      simp only [Except.ok.injEq] at h
      subst h
      simp [cstr, hc]
    · rw [if_neg hc] at h
      cases hr : strlen rest with
      | error e => rw [hr] at h; cases h
      | ok m =>
        rw [hr] at h
        simp only [Except.map, Except.ok.injEq] at h
        subst h
        obtain ⟨i1, i2, i3⟩ := ih m hr
        refine ⟨by simp; omega, ?_, by simpa using i3⟩
        simp only [List.take_succ_cons, cstr]
        rw [List.takeWhile_cons_of_pos (by simpa using hc)]
        rw [i2]; rfl

theorem strlen_terminated (t rest : List Nat) (h : ∀ c ∈ t, c ≠ 0) :
    strlen (t ++ 0 :: rest) = .ok t.length := by
  induction t with
  | nil => simp [strlen]
  | cons c t ih =>
    have hc : c ≠ 0 := h c (by simp)
    rw [List.cons_append, strlen, if_neg hc, ih (fun d hd => h d (by simp [hd]))]
    rfl

theorem cstr_terminated (t rest : List Nat) (h : ∀ c ∈ t, c ≠ 0) :
    cstr (t ++ 0 :: rest) = t := by
  induction t with
  | nil => simp [cstr]
  | cons c t ih =>
    have hc : c ≠ 0 := h c (by simp)
    simp only [cstr, List.cons_append]
    rw [List.takeWhile_cons_of_pos (by simpa using hc)]
    congr 1
    exact ih (fun d hd => h d (by simp [hd]))

theorem Writes.append (heap : Nat → Nat) (str : List Nat) (n : Nat)
    (h : strlen str = .ok n) :
    Writes (fun b => strbuf_append heap b str) (cstr str) := by
  obtain ⟨h1, h2, _⟩ := strlen_ok str n h
  have : (fun b => strbuf_append heap b str) = fun b => strbuf_append_len heap b str n := by
    funext b
    unfold strbuf_append
    rw [h]
    rfl
  rw [this, ← h2]
  exact Writes.append_len heap str n (by omega)

/-! ## Functions follow their text -/

theorem text_seq_ok (T U : Run (List Nat)) (w : List Nat) :
    text_seq T U = .ok w ↔ ∃ t u, T = .ok t ∧ U = .ok u ∧ w = t ++ u := by
  unfold text_seq
  cases T <;> cases U <;> simp [bind, Except.bind, eq_comm]

theorem Writes.appends {F : strbuf → Run strbuf} {t : List Nat} (h : Writes F t) :
    Appends F (.ok t) := by
  intro b hb
  obtain ⟨h1, h2⟩ := h b hb
  refine ⟨fun b2 hb2 => ⟨t, rfl, h1 b2 hb2⟩, fun u hu hlim => ?_⟩
  simp only [Except.ok.injEq] at hu
  subst hu
  exact h2 hlim

theorem Appends.andThen {F G : strbuf → Run strbuf} {T U : Run (List Nat)}
    (hF : Appends F T) (hG : Appends G U) :
    Appends (fun b => F b >>= G) (text_seq T U) := by
  intro b hb
  obtain ⟨f1, f2⟩ := hF b hb
  constructor
  · intro b2 h
    rw [bind_eq_ok] at h
    obtain ⟨b1, h1, h2⟩ := h
    obtain ⟨t, ht, w1, c1⟩ := f1 b1 h1
    obtain ⟨u, hu, w2, c2⟩ := (hG b1 w1).1 b2 h2
    exact ⟨t ++ u, (text_seq_ok T U _).2 ⟨t, u, ht, hu, rfl⟩, w2,
      by rw [c2, c1, List.append_assoc]⟩
  · intro w hw hlim
    obtain ⟨t, u, ht, hu, rfl⟩ := (text_seq_ok T U w).1 hw
    rw [List.length_append] at hlim
    obtain ⟨b1, h1⟩ := f2 t ht (by omega)
    obtain ⟨t2, ht2, w1, c1⟩ := f1 b1 h1
    rw [ht] at ht2
    simp only [Except.ok.injEq] at ht2
    subst ht2
    have hlen : b1.used_size = b.used_size + t.length := by
      rw [← strbuf.content_length b1 w1, c1, List.length_append,
        strbuf.content_length b hb]
    obtain ⟨b2, h2⟩ := (hG b1 w1).2 u hu (by omega)
    exact ⟨b2, by rw [bind_eq_ok]; exact ⟨b1, h1, h2⟩⟩

theorem Appends.fault (e : Fault) : Appends (fun _ => .error e) (.error e) := by
  intro b _
  exact ⟨fun b2 h => (by cases h), fun t h => (by cases h)⟩

theorem Appends.nothing : Appends (fun b => .ok b) (.ok []) := Writes.ok_nil.appends

theorem printf_appends (heap : Nat → Nat) (out : List Nat) :
    Appends (fun b => strbuf_append_printf heap b out) (text_printf out) := by
  unfold text_printf
  by_cases h : 2 ^ 31 ≤ out.length
  · rw [if_pos h]
    have : (fun b => strbuf_append_printf heap b out) = fun _ => .error .abort := by
      funext b
      unfold strbuf_append_printf strbuf_append_vprintf
      rw [if_pos h]
    rw [this]
    exact Appends.fault _
  · rw [if_neg h]
    exact (Writes.printf heap out (by omega)).appends

theorem append_appends (heap : Nat → Nat) (str : List Nat) :
    Appends (fun b => strbuf_append heap b str) (text_append str) := by
  unfold text_append
  cases h : strlen str with
  | error e =>
    have : (fun b => strbuf_append heap b str) = fun _ => .error e := by
      funext b
      unfold strbuf_append
      rw [h]
      rfl
    rw [this]
    exact Appends.fault _
  | ok n => exact (Writes.append heap str n h).appends

theorem strbuf_append_shellescape_loop_appends (heap : Nat → Nat) :
    ∀ (fuel : Nat) (s : List Nat) (i : Nat) (b : strbuf), b.wf →
      (∀ b2 s2, strbuf_append_shellescape_loop heap fuel b s i = .ok (b2, s2) →
        ∃ t, shellescape_loop_text fuel s i = .ok (t, s2) ∧ b2.wf ∧
          b2.content = b.content ++ t) ∧
      (∀ t s2, shellescape_loop_text fuel s i = .ok (t, s2) →
        b.used_size + t.length < APPEND_LIMIT →
        ∃ b2, strbuf_append_shellescape_loop heap fuel b s i = .ok (b2, s2)) := by
  intro fuel
  induction fuel with
  | zero =>
    intro s i b _
    exact ⟨fun b2 s2 h => (by cases h), fun t s2 h => (by cases h)⟩
  | succ fuel ih =>
    intro s i b hb
    unfold strbuf_append_shellescape_loop shellescape_loop_text
    cases hc : s[i]? with
    | none => exact ⟨fun b2 s2 h => (by cases h), fun t s2 h => (by cases h)⟩
    | some c =>
      dsimp only
      by_cases c0 : c = 0
      · rw [if_pos c0, if_pos c0]
        constructor
        · intro b2 s2 h
          simp only [Except.ok.injEq, Prod.mk.injEq] at h
          obtain ⟨rfl, rfl⟩ := h
          exact ⟨[], rfl, hb, by simp⟩
        · intro t s2 h _
          simp only [Except.ok.injEq, Prod.mk.injEq] at h
          obtain ⟨_, rfl⟩ := h
          exact ⟨b, rfl⟩
      rw [if_neg c0, if_neg c0]
      by_cases c1 : c = 39
      · rw [if_pos c1, if_pos c1]
        have hi : i ≤ s.length := by
          have := (List.getElem?_eq_some_iff.1 hc).1
          omega
        have hq : Writes (fun b => strbuf_append_len heap b s i >>=
            fun b => strbuf_append heap b (lit "'\\''")) (s.take i ++ bytes "'\\''") :=
          (Writes.append_len heap s i hi).seq
            (Writes.append heap (lit "'\\''") 4 (by decide))
        obtain ⟨q1, q2⟩ := hq b hb
        constructor
        · intro b2 s2 h
          rw [← bind_assoc, bind_eq_ok] at h
          obtain ⟨b1, h1, h2⟩ := h
          obtain ⟨w1, e1⟩ := q1 b1 h1
          obtain ⟨t, ht, w2, e2⟩ := (ih _ _ b1 w1).1 b2 s2 h2
          refine ⟨s.take i ++ bytes "'\\''" ++ t, ?_, w2, ?_⟩
          · rw [ht]; rfl
          · rw [e2, e1, List.append_assoc]
        · intro t s2 h hlim
          rw [bind_eq_ok] at h
          obtain ⟨r, hr, h⟩ := h
          simp only [Except.ok.injEq, Prod.mk.injEq] at h
          obtain ⟨rfl, rfl⟩ := h
          rw [List.length_append] at hlim
          obtain ⟨b1, h1⟩ := q2 (by omega)
          obtain ⟨w1, e1⟩ := q1 b1 h1
          have hlen : b1.used_size = b.used_size + (s.take i ++ bytes "'\\''").length := by
            rw [← strbuf.content_length b1 w1, e1, List.length_append,
              strbuf.content_length b hb]
          obtain ⟨b2, h2⟩ := (ih _ _ b1 w1).2 r.1 r.2 hr (by omega)
          exact ⟨b2, by rw [← bind_assoc, bind_eq_ok]; exact ⟨b1, h1, h2⟩⟩
      · rw [if_neg c1, if_neg c1]
        exact ih s (i + 1) b hb

theorem shellescape_appends (heap : Nat → Nat) (s : List Nat) :
    Appends (fun b => strbuf_append_shellescape heap b s) (shellescape_text s) := by
  have hq : Writes (fun b => strbuf_append heap b (lit "'")) (bytes "'") :=
    Writes.append heap (lit "'") 1 (by decide)
  intro b hb
  obtain ⟨q1, q2⟩ := hq b hb
  beta_reduce
  unfold strbuf_append_shellescape shellescape_text
  constructor
  · intro b4 h
    rw [bind_eq_ok] at h
    obtain ⟨b1, h1, h⟩ := h
    rw [bind_eq_ok] at h
    obtain ⟨⟨b2, s2⟩, h2, h⟩ := h
    rw [bind_eq_ok] at h
    obtain ⟨b3, h3, h4⟩ := h
    obtain ⟨w1, e1⟩ := q1 b1 h1
    obtain ⟨t, ht, w2, e2⟩ :=
      (strbuf_append_shellescape_loop_appends heap _ s 0 b1 w1).1 b2 s2 h2
    obtain ⟨u, hu, w3, e3⟩ := (append_appends heap s2 b2 w2).1 b3 h3
    obtain ⟨w4, e4⟩ := (hq b3 w3).1 b4 h4
    refine ⟨bytes "'" ++ t ++ u ++ bytes "'", ?_, w4, ?_⟩
    · rw [ht]
      simp only [bind, Except.bind]
      rw [hu]
    · rw [e4, e3, e2, e1]
      simp only [List.append_assoc]
  · intro w h hlim
    rw [bind_eq_ok] at h
    obtain ⟨⟨t, s2⟩, ht, h⟩ := h
    rw [bind_eq_ok] at h
    obtain ⟨u, hu, h⟩ := h
    simp only [Except.ok.injEq] at h
    subst h
    simp only [List.length_append] at hlim
    obtain ⟨b1, h1⟩ := q2 (by omega)
    obtain ⟨w1, e1⟩ := q1 b1 h1
    have l1 : b1.used_size = b.used_size + (bytes "'").length := by
      rw [← strbuf.content_length b1 w1, e1, List.length_append,
        strbuf.content_length b hb]
    obtain ⟨b2, h2⟩ :=
      (strbuf_append_shellescape_loop_appends heap _ s 0 b1 w1).2 t s2 ht (by omega)
    obtain ⟨t2, ht2, w2, e2⟩ :=
      (strbuf_append_shellescape_loop_appends heap _ s 0 b1 w1).1 b2 s2 h2
    rw [ht] at ht2
    simp only [Except.ok.injEq, Prod.mk.injEq, and_true] at ht2
    subst ht2
    have l2 : b2.used_size = b1.used_size + t.length := by
      rw [← strbuf.content_length b2 w2, e2, List.length_append,
        strbuf.content_length b1 w1]
    obtain ⟨b3, h3⟩ := (append_appends heap s2 b2 w2).2 u hu (by omega)
    obtain ⟨u2, hu2, w3, e3⟩ := (append_appends heap s2 b2 w2).1 b3 h3
    beta_reduce at h1 h3
    rw [hu] at hu2
    simp only [Except.ok.injEq] at hu2
    subst hu2
    have l3 : b3.used_size = b2.used_size + u.length := by
      rw [← strbuf.content_length b3 w3, e3, List.length_append,
        strbuf.content_length b2 w2]
    obtain ⟨b4, h4⟩ := (hq b3 w3).2 (by omega)
    beta_reduce at h4
    refine ⟨b4, ?_⟩
    rw [h1]
    simp only [bind, Except.bind]
    rw [h2]
    simp only
    rw [h3]
    exact h4

theorem language_appends (heap : Nat → Nat) (tag : String) (i : Nat)
    (s : BLURAY_STREAM_INFO) :
    Appends (fun buf => match s.lang[0]? with
      | none => .error .oob
      | some c =>
        if c ≠ 0 then do
          let l ← fmt_str s.lang
          strbuf_append_printf heap buf
            (bytes "-metadata:" ++ bytes tag ++ bytes ":" ++ fmt_dec i ++
              bytes " language=" ++ l ++ bytes " ")
        else .ok buf) (language_text tag i s) := by
  unfold language_text
  cases s.lang[0]? with
  | none => exact Appends.fault _
  | some c =>
    dsimp only
    by_cases hc : c ≠ 0
    · simp only [if_pos hc]
      cases fmt_str s.lang with
      | error e => exact Appends.fault _
      | ok l => exact printf_appends heap _
    · simp only [if_neg hc]
      exact Appends.nothing

theorem stream_pass_appends (heap : Nat → Nat) (disp : List Nat) (tag : String) (i : Nat)
    (s : BLURAY_STREAM_INFO) :
    Appends (stream_pass heap disp tag i s) (stream_pass_text disp tag i s) :=
  Appends.andThen (printf_appends heap _)
    (Appends.andThen (printf_appends heap _) (language_appends heap tag i s))

theorem stream_loop_appends (heap : Nat → Nat) (disp : Nat → List Nat) (tag : String) :
    ∀ (l : List BLURAY_STREAM_INFO) (i : Nat),
      Appends (stream_loop heap disp tag i l) (stream_loop_text disp tag i l) := by
  intro l
  induction l with
  | nil => intro i; exact Appends.nothing
  | cons s rest ih =>
    intro i
    exact Appends.andThen (stream_pass_appends heap (disp i) tag i s) (ih (i + 1))

theorem input_source_appends (heap : Nat → Nat) (self bd_path : List Nat) (command : String)
    (n : Nat) :
    Appends (input_source heap self bd_path command n)
      (input_source_text self bd_path command n) :=
  Appends.andThen (printf_appends heap _)
    (Appends.andThen (shellescape_appends heap self)
      (Appends.andThen (append_appends heap _)
        (Appends.andThen (shellescape_appends heap bd_path) (printf_appends heap _))))

theorem chapter_source_appends (heap : Nat → Nat) (self bd_path : List Nat) (n : Nat)
    (info : BLURAY_TITLE_INFO) :
    Appends (chapter_source heap self bd_path n info)
      (chapter_source_text self bd_path n info) := by
  unfold chapter_source_text
  by_cases h : info.chapter_count > 0
  · have : chapter_source heap self bd_path n info = fun buf =>
        input_source heap self bd_path "print-ff-chapters" n buf >>=
          fun buf => strbuf_append heap buf (lit "-map_chapters 1 ") := by
      funext buf
      unfold chapter_source
      rw [if_pos h]
    rw [this, if_pos h]
    exact Appends.andThen (input_source_appends heap _ _ _ _) (append_appends heap _)
  · have : chapter_source heap self bd_path n info = fun buf => .ok buf := by
      funext buf
      unfold chapter_source
      rw [if_neg h]
    rw [this, if_neg h]
    exact Appends.nothing

theorem stream_loops_appends (heap : Nat → Nat) (info : BLURAY_TITLE_INFO) :
    Appends (stream_loops heap info) (stream_loops_text info) := by
  unfold stream_loops_text
  cases h : info.clips[0]? with
  | none =>
    have : stream_loops heap info = fun _ => .error .oob := by
      funext buf
      unfold stream_loops
      rw [h]
    rw [this]
    exact Appends.fault _
  | some clip =>
    have : stream_loops heap info = fun buf =>
        video_loop heap 0 clip.video_streams buf >>= fun buf =>
          audio_loop heap 0 clip.audio_streams buf >>= fun buf =>
            pg_loop heap 0 clip.pg_streams buf := by
      funext buf
      unfold stream_loops
      rw [h]
    rw [this]
    exact Appends.andThen (stream_loop_appends heap _ _ _ _)
      (Appends.andThen (stream_loop_appends heap _ _ _ _) (stream_loop_appends heap _ _ _ _))

/-- The writing part of `construct_makemkv` follows `construct_makemkv_text`. -/
theorem construct_makemkv_body_appends (heap : Nat → Nat) (self bd_path : List Nat) (n : Nat)
    (info : BLURAY_TITLE_INFO) (outfile : List Nat) :
    Appends (construct_makemkv_body heap self bd_path n info outfile)
      (construct_makemkv_text self bd_path n info outfile) :=
  Appends.andThen (append_appends heap _)
    (Appends.andThen (input_source_appends heap _ _ _ _)
      (Appends.andThen (chapter_source_appends heap _ _ _ _)
        (Appends.andThen (stream_loops_appends heap _) (shellescape_appends heap outfile))))

/-! ## Layout of the text -/

theorem text_printf_ok (out t : List Nat) (h : text_printf out = .ok t) : t = out := by
  unfold text_printf at h
  split at h
  · cases h
  · simp only [Except.ok.injEq] at h
    exact h.symm

theorem fmt_str_ok (s l : List Nat) (h : fmt_str s = .ok l) : l = cstr s := by
  induction s generalizing l with
  | nil => cases h
  | cons c rest ih =>
    unfold fmt_str at h
    by_cases hc : c = 0
    · rw [if_pos hc] at h
      simp only [Except.ok.injEq] at h
      subst h
      simp [cstr, hc]
    · rw [if_neg hc] at h
      cases hr : fmt_str rest with
      | error e => rw [hr] at h; cases h
      | ok m =>
        rw [hr] at h
        simp only [Except.map, Except.ok.injEq] at h
        subst h
        simp only [cstr]
        rw [List.takeWhile_cons_of_pos (by simpa using hc)]
        congr 1
        exact ih m hr

theorem language_text_ok (tag : String) (i : Nat) (s : BLURAY_STREAM_INFO) (t : List Nat)
    (h : language_text tag i s = .ok t) :
    t = if cstr s.lang = [] then [] else language_clause tag i (cstr s.lang) := by
  unfold language_text at h
  cases hl : s.lang with
  | nil => rw [hl] at h; cases h
  | cons c rest =>
    rw [hl] at h
    simp only [List.getElem?_cons_zero] at h
    by_cases hc : c ≠ 0
    · rw [if_pos hc, bind_eq_ok] at h
      obtain ⟨l, h1, h2⟩ := h
      have e := fmt_str_ok _ _ h1
      have hne : cstr (c :: rest) ≠ [] := by
        simp only [cstr]
        rw [List.takeWhile_cons_of_pos (by simpa using hc)]
        simp
      rw [if_neg hne, text_printf_ok _ _ h2, e]
      rfl
    · rw [if_neg hc] at h
      simp only [Except.ok.injEq] at h
      have he : cstr (c :: rest) = [] := by
        simp only [cstr]
        rw [List.takeWhile_cons_of_neg (by simpa using hc)]
      rw [if_pos he, h]

theorem stream_pass_text_ok (disp : List Nat) (tag : String) (i : Nat)
    (s : BLURAY_STREAM_INFO) (t : List Nat) (h : stream_pass_text disp tag i s = .ok t) :
    t = map_clause s.pid ++ disp ++
      (if cstr s.lang = [] then [] else language_clause tag i (cstr s.lang)) := by
  unfold stream_pass_text at h
  obtain ⟨t1, u, h1, h2, rfl⟩ := (text_seq_ok _ _ _).1 h
  obtain ⟨t2, t3, h3, h4, rfl⟩ := (text_seq_ok _ _ _).1 h2
  rw [text_printf_ok _ _ h1, text_printf_ok _ _ h3, language_text_ok _ _ _ _ h4]
  simp only [map_clause, List.append_assoc]

theorem stream_loop_text_ok (disp : Nat → List Nat) (tag : String) :
    ∀ (l : List BLURAY_STREAM_INFO) (i : Nat) (t : List Nat),
      stream_loop_text disp tag i l = .ok t →
      t = ((kind_clauses disp tag i l).map StreamClauses.text).flatten := by
  intro l
  induction l with
  | nil =>
    intro i t h
    simp only [stream_loop_text, Except.ok.injEq] at h
    simp [kind_clauses, ← h]
  | cons s rest ih =>
    intro i t h
    unfold stream_loop_text at h
    obtain ⟨t1, u, h1, h2, rfl⟩ := (text_seq_ok _ _ _).1 h
    rw [stream_pass_text_ok _ _ _ _ _ h1, ih (i + 1) u h2]
    simp [kind_clauses, List.enumFrom, StreamClauses.text]

theorem stream_loops_text_ok (info : BLURAY_TITLE_INFO) (t : List Nat)
    (h : stream_loops_text info = .ok t) :
    ∃ clip, info.clips[0]? = some clip ∧
      t = ((command_clauses clip).map StreamClauses.text).flatten := by
  unfold stream_loops_text at h
  cases hc : info.clips[0]? with
  | none => rw [hc] at h; cases h
  | some clip =>
    rw [hc] at h
    dsimp only at h
    obtain ⟨t1, u, h1, h2, rfl⟩ := (text_seq_ok _ _ _).1 h
    obtain ⟨t2, t3, h3, h4, rfl⟩ := (text_seq_ok _ _ _).1 h2
    refine ⟨clip, rfl, ?_⟩
    rw [stream_loop_text_ok _ _ _ _ _ h1, stream_loop_text_ok _ _ _ _ _ h3,
      stream_loop_text_ok _ _ _ _ _ h4]
    simp [command_clauses]

theorem text_append_ok (str t : List Nat) (h : text_append str = .ok t) : t = cstr str := by
  unfold text_append at h
  rw [bind_eq_ok] at h
  obtain ⟨_, _, h⟩ := h
  simp only [Except.ok.injEq] at h
  exact h.symm

theorem input_source_text_ok (self bd_path : List Nat) (command : String) (n : Nat)
    (t : List Nat) (h : input_source_text self bd_path command n = .ok t) :
    ∃ e_self e_path, shellescape_text self = .ok e_self ∧
      shellescape_text bd_path = .ok e_path ∧ t = input_clause e_self e_path command n := by
  unfold input_source_text at h
  obtain ⟨t1, u1, h1, k1, rfl⟩ := (text_seq_ok _ _ _).1 h
  obtain ⟨t2, u2, h2, k2, rfl⟩ := (text_seq_ok _ _ _).1 k1
  obtain ⟨t3, u3, h3, k3, rfl⟩ := (text_seq_ok _ _ _).1 k2
  obtain ⟨t4, t5, h4, h5, rfl⟩ := (text_seq_ok _ _ _).1 k3
  refine ⟨t2, t4, h2, h4, ?_⟩
  rw [text_printf_ok _ _ h1, text_append_ok _ _ h3, text_printf_ok _ _ h5]
  have : cstr (lit " ") = bytes " " := by decide
  rw [this]
  simp only [input_clause, List.append_assoc]

/-- Layout of the text that the writing part of `construct_makemkv` appends. -/
theorem construct_makemkv_text_ok (self bd_path : List Nat) (n : Nat)
    (info : BLURAY_TITLE_INFO) (outfile t : List Nat)
    (h : construct_makemkv_text self bd_path n info outfile = .ok t) :
    ∃ e_self e_path e_out clip, shellescape_text self = .ok e_self ∧
      shellescape_text bd_path = .ok e_path ∧ shellescape_text outfile = .ok e_out ∧
      info.clips[0]? = some clip ∧
      t = command_head e_self e_path n info ++
        ((command_clauses clip).map StreamClauses.text).flatten ++ e_out := by
  unfold construct_makemkv_text at h
  obtain ⟨t1, u1, h1, k1, rfl⟩ := (text_seq_ok _ _ _).1 h
  obtain ⟨t2, u2, h2, k2, rfl⟩ := (text_seq_ok _ _ _).1 k1
  obtain ⟨t3, u3, h3, k3, rfl⟩ := (text_seq_ok _ _ _).1 k2
  obtain ⟨t4, t5, h4, h5, rfl⟩ := (text_seq_ok _ _ _).1 k3
  obtain ⟨e_self, e_path, hs, hp, rfl⟩ := input_source_text_ok _ _ _ _ _ h2
  obtain ⟨clip, hc, rfl⟩ := stream_loops_text_ok _ _ h4
  refine ⟨e_self, e_path, t5, clip, hs, hp, h5, hc, ?_⟩
  have e1 : t1 = bytes "ffmpeg " := by
    rw [text_append_ok _ _ h1]; decide
  have e3 : t3 = if info.chapter_count > 0 then
      input_clause e_self e_path "print-ff-chapters" n ++ bytes "-map_chapters 1 "
      else [] := by
    unfold chapter_source_text at h3
    by_cases hcc : info.chapter_count > 0
    · rw [if_pos hcc] at h3
      rw [if_pos hcc]
      obtain ⟨t6, t7, h6, h7, rfl⟩ := (text_seq_ok _ _ _).1 h3
      obtain ⟨e_self2, e_path2, hs2, hp2, rfl⟩ := input_source_text_ok _ _ _ _ _ h6
      rw [hs] at hs2
      rw [hp] at hp2
      simp only [Except.ok.injEq] at hs2 hp2
      subst hs2 hp2
      rw [text_append_ok _ _ h7]
      have : cstr (lit "-map_chapters 1 ") = bytes "-map_chapters 1 " := by decide
      rw [this]
    · rw [if_neg hcc] at h3
      rw [if_neg hcc]
      simp only [Except.ok.injEq] at h3
      exact h3.symm
  rw [e1, e3]
  simp only [command_head, List.append_assoc]

/-! ## Parsing playlist numbers -/

theorem decimal_value_cons (c : Nat) (d : List Nat) :
    decimal_value (c :: d) = (c - 48) * 10 ^ d.length + decimal_value d := by
  unfold decimal_value
  rw [List.reverse_cons, List.map_append, Nat.ofDigits_append]
  simp only [List.map_cons, List.map_nil, Nat.ofDigits_singleton, List.length_map,
    List.length_reverse, List.map_reverse]
  rw [Nat.add_comm, Nat.mul_comm]

theorem parse_playlist_loop_digits (rest : List Nat) :
    ∀ (d : List Nat) (i r : Nat), (∀ c ∈ d, is_digit c) → r < UINT32_MOD →
      parse_playlist_loop (d ++ 0 :: rest) i r =
        .ok { value := (r * 10 ^ d.length + decimal_value d) % UINT32_MOD, report := none } := by
  intro d
  induction d with
  | nil =>
    intro i r _ hr
    simp [parse_playlist_loop, decimal_value, Nat.mod_eq_of_lt hr]
  | cons c d ih =>
    intro i r hd hr
    have hc : is_digit c := hd c (by simp)
    have hc0 : c ≠ 0 := by unfold is_digit at hc; omega
    rw [List.cons_append, parse_playlist_loop, if_neg hc0,
      if_pos (show 48 ≤ c ∧ c ≤ 57 from hc)]
    rw [ih (i + 1) _ (fun x hx => hd x (by simp [hx])) (Nat.mod_lt _ (by decide))]
    congr 1
    rw [decimal_value_cons]
    have e : (r * 10 % UINT32_MOD + (c - 48)) % UINT32_MOD ≡ r * 10 + (c - 48)
        [MOD UINT32_MOD] := by
      unfold Nat.ModEq
      rw [Nat.mod_mod, Nat.add_mod, Nat.mod_mod, ← Nat.add_mod]
    have e2 := (e.mul_right (10 ^ d.length)).add_right (decimal_value d)
    unfold Nat.ModEq at e2
    rw [e2, List.length_cons]
    generalize c - 48 = x
    have e3 : (r * 10 + x) * 10 ^ d.length + decimal_value d =
        r * 10 ^ (d.length + 1) + (x * 10 ^ d.length + decimal_value d) := by ring
    rw [e3]

/-- On a string of digits `parse_playlist` returns the decimal value reduced
modulo `2^32`, and does not complain. -/
theorem parse_playlist_digits (d rest : List Nat) (hd : ∀ c ∈ d, is_digit c) :
    parse_playlist (d ++ 0 :: rest) =
      .ok { value := decimal_value d % UINT32_MOD, report := none } := by
  unfold parse_playlist
  rw [parse_playlist_loop_digits rest d 0 0 hd (by decide)]
  simp

theorem parse_playlist_loop_nondigit (c : Nat) (post : List Nat) (hc : ¬ is_digit c)
    (hc0 : c ≠ 0) :
    ∀ (d : List Nat) (i r : Nat), (∀ x ∈ d, is_digit x) →
      parse_playlist_loop (d ++ c :: post) i r =
        .ok { value := UINT32_MOD - 1, report := some (c, i + d.length) } := by
  intro d
  induction d with
  | nil =>
    intro i r _
    rw [List.nil_append, parse_playlist_loop, if_neg hc0,
      if_neg (show ¬ (48 ≤ c ∧ c ≤ 57) from hc)]
    rfl
  | cons x d ih =>
    intro i r hd
    have hx : is_digit x := hd x (by simp)
    have hx0 : x ≠ 0 := by unfold is_digit at hx; omega
    rw [List.cons_append, parse_playlist_loop, if_neg hx0,
      if_pos (show 48 ≤ x ∧ x ≤ 57 from hx)]
    rw [ih (i + 1) _ (fun y hy => hd y (by simp [hy]))]
    have e : i + 1 + d.length = i + (x :: d).length := by
      simp only [List.length_cons]; omega
    rw [e]

/-- A string with a character that is not a digit splits at the first such
character. -/
theorem split_first_nondigit (s : List Nat) (h : ∃ c ∈ s, ¬ is_digit c) :
    ∃ d c post, s = d ++ c :: post ∧ (∀ x ∈ d, is_digit x) ∧ ¬ is_digit c := by
  induction s with
  | nil => simp at h
  | cons x s ih =>
    by_cases hx : is_digit x
    · have h2 : ∃ c ∈ s, ¬ is_digit c := by
        obtain ⟨c, hc, hn⟩ := h
        rcases List.mem_cons.1 hc with rfl | hc
        · exact absurd hx hn
        · exact ⟨c, hc, hn⟩
      obtain ⟨d, c, post, rfl, hd, hc⟩ := ih h2
      refine ⟨x :: d, c, post, rfl, ?_, hc⟩
      intro y hy
      rcases List.mem_cons.1 hy with rfl | hy
      · exact hx
      · exact hd y hy
    · exact ⟨[], x, s, rfl, by simp, hx⟩

/-! ## Fresh buffers -/

theorem strbuf_alloc_ok (heap : Nat → Nat) :
    ∃ b0, strbuf_alloc heap = .ok b0 ∧ b0.wf ∧ b0.content = [] ∧ b0.used_size = 0 := by
  have e : strbuf_alloc heap = .ok
      { allocated_size := 16, used_size := 0,
        str := ((List.map (fun k => heap (0 + k)) (List.range 16)).set 15 0).set 0 0 } := rfl
  refine ⟨_, e, ⟨show 0 < 16 by decide, by simp,
    show 16 + sizeof_strbuf < SIZE_MOD by decide, ?_⟩, rfl, rfl⟩
  show (((List.map (fun k => heap (0 + k)) (List.range 16)).set 15 0).set 0 0)[0]? = some 0
  rw [List.getElem?_set_self (by simp)]

/-- What `strbuf_append_shellescape` does on a freshly allocated buffer when its text is
known. -/
theorem shellescape_fresh (heap : Nat → Nat) (s t : List Nat)
    (ht : shellescape_text s = .ok t) (hlen : t.length < APPEND_LIMIT) :
    ∃ b0 b1, strbuf_alloc heap = .ok b0 ∧ strbuf_append_shellescape heap b0 s = .ok b1 ∧
      b1.content = t := by
  obtain ⟨b0, h0, w0, c0, u0⟩ := strbuf_alloc_ok heap
  obtain ⟨a1, a2⟩ := shellescape_appends heap s b0 w0
  obtain ⟨b1, h1⟩ := a2 t ht (by omega)
  obtain ⟨t2, ht2, _, e⟩ := a1 b1 h1
  rw [ht] at ht2
  simp only [Except.ok.injEq] at ht2
  subst ht2
  exact ⟨b0, b1, h0, h1, by rw [e, c0]; rfl⟩

/-- Every run of `strbuf_append_shellescape` on `s` that returns has appended the text
`shellescape_text s`. -/
theorem shellescape_text_appended (heap : Nat → Nat) (s e : List Nat)
    (he : shellescape_text s = .ok e) (b0 b1 : strbuf) (w0 : b0.wf)
    (hrun : strbuf_append_shellescape heap b0 s = .ok b1) :
    b1.content = b0.content ++ e := by
  obtain ⟨t, ht, _, et⟩ := (shellescape_appends heap s b0 w0).1 b1 hrun
  rw [he] at ht
  simp only [Except.ok.injEq] at ht
  rw [et, ht]

/-- A string with a character that is not a digit makes `parse_playlist`
return the error value together with a report. -/
theorem parse_playlist_nondigit (s : List Nat) (h0 : ∀ c ∈ s, c ≠ 0)
    (h : ∃ c ∈ s, ¬ is_digit c) :
    ∃ r, parse_playlist (s ++ [0]) = .ok { value := UINT32_MOD - 1, report := some r } := by
  obtain ⟨d, c, post, rfl, hd, hc⟩ := split_first_nondigit s h
  have hc0 : c ≠ 0 := h0 c (by simp)
  refine ⟨(c, 0 + d.length), ?_⟩
  unfold parse_playlist
  rw [List.append_assoc, List.cons_append,
    parse_playlist_loop_nondigit c (post ++ [0]) hc hc0 d 0 0 hd]

/-! ## The fuel of the two loops is enough -/

/-- More passes than `s.length + 1` do not change what the loop of
`strbuf_append_shellescape` does: every pass moves the position read forward. -/
theorem strbuf_append_shellescape_loop_fuel (heap : Nat → Nat) (k : Nat) :
    ∀ (fuel : Nat) (b : strbuf) (s : List Nat) (i : Nat),
      1 ≤ fuel → s.length + 1 ≤ fuel + i →
      strbuf_append_shellescape_loop heap (fuel + k) b s i =
        strbuf_append_shellescape_loop heap fuel b s i := by
  intro fuel
  induction fuel with
  | zero => intro b s i h1 _; omega
  | succ fuel ih =>
    intro b s i _ h2
    have e : fuel + 1 + k = (fuel + k) + 1 := by omega
    rw [e]
    unfold strbuf_append_shellescape_loop
    cases hc : s[i]? with
    | none => rfl
    | some c =>
      have hi : i < s.length := (List.getElem?_eq_some_iff.1 hc).1
      dsimp only
      by_cases c0 : c = 0
      · rw [if_pos c0, if_pos c0]
      rw [if_neg c0, if_neg c0]
      by_cases c1 : c = 39
      · rw [if_pos c1, if_pos c1]
        cases strbuf_append_len heap b s i with
        | error e => rfl
        | ok b1 =>
          simp only [bind, Except.bind]
          cases strbuf_append heap b1 (lit "'\\''") with
          | error e => rfl
          | ok b2 =>
            dsimp only
            exact ih b2 _ _ (by omega) (by simp only [List.length_drop]; omega)
      · rw [if_neg c1, if_neg c1]
        exact ih b s (i + 1) (by omega) (by omega)

theorem grow_step_iterate (k n : Nat) :
    (grow_step^[k] n + sizeof_strbuf) % SIZE_MOD = (2 ^ k * (n + sizeof_strbuf)) % SIZE_MOD := by
  induction k generalizing n with
  | zero => simp
  | succ k ih =>
    rw [Function.iterate_succ_apply, ih (grow_step n)]
    have e : grow_step n + sizeof_strbuf ≡ 2 * (n + sizeof_strbuf) [MOD SIZE_MOD] := by
      unfold grow_step Nat.ModEq
      rw [Nat.add_mod, Nat.mod_mod, ← Nat.add_mod, sizeof_strbuf_eq]
      congr 1
      ring
    have e2 := e.mul_left (2 ^ k)
    unfold Nat.ModEq at e2
    rw [e2]
    congr 1
    ring

/-- After 64 steps the size computation sits at `2^64 - 16`, whatever the
start. -/
theorem grow_step_fixed (n : Nat) : grow_step^[64] n = SIZE_MOD - sizeof_strbuf := by
  have h := grow_step_iterate 64 n
  have hlt : grow_step^[64] n < SIZE_MOD := by
    rw [show (64 : Nat) = 63 + 1 from rfl, Function.iterate_succ_apply']
    exact Nat.mod_lt _ (by decide)
  have hz : (2 ^ 64 * (n + sizeof_strbuf)) % SIZE_MOD = 0 := by
    rw [show SIZE_MOD = 2 ^ 64 from rfl]
    exact Nat.mul_mod_right _ _
  rw [hz] at h
  rw [SIZE_MOD_eq, sizeof_strbuf_eq] at *
  omega

theorem strbuf_ensure_space_loop_unroll (used space : Nat) :
    ∀ (k n : Nat),
      (∃ m, ∀ f, strbuf_ensure_space_loop used space (k + 1 + f) n = .ok m) ∨
      (∀ f, strbuf_ensure_space_loop used space (k + f) n =
        strbuf_ensure_space_loop used space f (grow_step^[k] n)) := by
  intro k
  induction k with
  | zero => intro n; exact Or.inr (fun f => by simp)
  | succ k ih =>
    intro n
    by_cases c : (n + SIZE_MOD - used) % SIZE_MOD < space
    · rcases ih (grow_step n) with ⟨m, hm⟩ | h
      · refine Or.inl ⟨m, fun f => ?_⟩
        have e : k + 1 + 1 + f = (k + 1 + f) + 1 := by omega
        rw [e, strbuf_ensure_space_loop, if_pos c]
        exact hm f
      · refine Or.inr (fun f => ?_)
        have e : k + 1 + f = (k + f) + 1 := by omega
        rw [e, strbuf_ensure_space_loop, if_pos c, Function.iterate_succ_apply]
        exact h f
    · refine Or.inl ⟨n, fun f => ?_⟩
      have e : k + 1 + 1 + f = (k + 1 + f) + 1 := by omega
      rw [e, strbuf_ensure_space_loop, if_neg c]

theorem strbuf_ensure_space_loop_fixed (used space : Nat) :
    ∀ f, strbuf_ensure_space_loop used space (f + 1) (SIZE_MOD - sizeof_strbuf) =
      strbuf_ensure_space_loop used space 1 (SIZE_MOD - sizeof_strbuf) := by
  have hfix : (SIZE_MOD - sizeof_strbuf) * 2 + sizeof_strbuf ≡ SIZE_MOD - sizeof_strbuf
      [MOD SIZE_MOD] := by decide
  intro f
  induction f with
  | zero => rfl
  | succ f ih =>
    rw [strbuf_ensure_space_loop]
    by_cases c : (SIZE_MOD - sizeof_strbuf + SIZE_MOD - used) % SIZE_MOD < space
    · rw [if_pos c]
      have e : ((SIZE_MOD - sizeof_strbuf) * 2 + sizeof_strbuf) % SIZE_MOD =
          SIZE_MOD - sizeof_strbuf := by decide
      rw [e, ih]
    · rw [if_neg c]
      rw [strbuf_ensure_space_loop, if_neg c]

/-- The loop of `strbuf_ensure_space` behaves with any larger fuel as it does
with 66: it has either ended by then or reached the fixed point of the size
computation with the test still true, and so never ends. -/
theorem strbuf_ensure_space_loop_fuel (used space n k : Nat) :
    strbuf_ensure_space_loop used space (66 + k) n =
      strbuf_ensure_space_loop used space 66 n := by
  rcases strbuf_ensure_space_loop_unroll used space 64 n with ⟨m, hm⟩ | h
  · have e1 : 66 + k = 64 + 1 + (1 + k) := by omega
    rw [e1, hm (1 + k)]
    exact (hm 1).symm
  · have e1 : 66 + k = 64 + ((1 + k) + 1) := by omega
    rw [e1, h, show (66 : Nat) = 64 + (1 + 1) from rfl, h, grow_step_fixed,
      strbuf_ensure_space_loop_fixed]
    exact (strbuf_ensure_space_loop_fixed used space 1).symm

/-! ## Quoting and playlist numbers: claims C1 to C4 -/

/-- C1 (the code departs from the claim).  On the string of two adjacent
single quotes, `strbuf_append_shellescape` applied to a fresh buffer writes
the seven bytes quote, quote, backslash, quote, quote, quote, quote; read by
the POSIX quoting rules that text leaves a quote open, so it is not one word
equal to the string. -/
theorem shellescape_adjacent_quotes_not_a_word (heap : Nat → Nat) :
    ∃ b0 b1, strbuf_alloc heap = .ok b0 ∧
      strbuf_append_shellescape heap b0 (lit "''") = .ok b1 ∧
      b1.content = [39, 39, 92, 39, 39, 39, 39] ∧
      shell_words b1.content = none ∧
      shell_words b1.content ≠ some [bytes "''"] := by
  obtain ⟨b0, b1, h0, h1, c1⟩ :=
    shellescape_fresh heap (lit "''") [39, 39, 92, 39, 39, 39, 39] (by decide) (by decide)
  refine ⟨b0, b1, h0, h1, c1, ?_, ?_⟩ <;> rw [c1] <;> decide

/-- C2 (the code departs from the claim).  On the string `a''b`,
`strbuf_append_shellescape` applied to a fresh buffer writes `'a'\'''b'`: the
second of the two adjacent quotes is copied as it is, whereas the reference
transform replaces both and gives `'a'\'''\''b'`. -/
theorem shellescape_differs_from_reference (heap : Nat → Nat) :
    ∃ b0 b1, strbuf_alloc heap = .ok b0 ∧
      strbuf_append_shellescape heap b0 (lit "a''b") = .ok b1 ∧
      b1.content = [39, 97, 39, 92, 39, 39, 39, 98, 39] ∧
      shellescape_reference (bytes "a''b") =
        [39, 97, 39, 92, 39, 39, 39, 92, 39, 39, 98, 39] ∧
      b1.content ≠ shellescape_reference (bytes "a''b") := by
  obtain ⟨b0, b1, h0, h1, c1⟩ :=
    shellescape_fresh heap (lit "a''b") [39, 97, 39, 92, 39, 39, 39, 98, 39]
      (by decide) (by decide)
  refine ⟨b0, b1, h0, h1, c1, by decide, ?_⟩
  rw [c1]
  decide

/-- C3, counterexample.  The digit string `4294967296` has the decimal value
`2^32`, but `parse_playlist` returns 0 for it. -/
theorem parse_playlist_wraps :
    decimal_value (bytes "4294967296") = 4294967296 ∧
      parse_playlist (lit "4294967296") = .ok { value := 0, report := none } ∧
      parse_playlist (lit "4294967296") ≠
        .ok { value := decimal_value (bytes "4294967296"), report := none } := by
  decide

/-- C3, amended.  For every string of digits whose decimal value is below
`2^32`, `parse_playlist` returns that value, leading zeros allowed, and
reports nothing. -/
theorem parse_playlist_decimal (d : List Nat) (hd : ∀ c ∈ d, is_digit c)
    (hv : decimal_value d < UINT32_MOD) :
    parse_playlist (d ++ [0]) = .ok { value := decimal_value d, report := none } := by
  rw [parse_playlist_digits d [] hd, Nat.mod_eq_of_lt hv]

/-- C3, witness: the text `00001` gives 1. -/
theorem parse_playlist_decimal_witness :
    (∀ c ∈ bytes "00001", is_digit c) ∧ decimal_value (bytes "00001") < UINT32_MOD ∧
      decimal_value (bytes "00001") = 1 ∧
      parse_playlist (bytes "00001" ++ [0]) =
        .ok { value := decimal_value (bytes "00001"), report := none } :=
  ⟨by decide, by decide, by decide,
    parse_playlist_decimal (bytes "00001") (by decide) (by decide)⟩

/-- C4.  For every string (without terminator inside) that contains a
character that is not a digit, `parse_playlist` returns the error value
`(uint32_t)-1` and reports the character and zero-based position of the
first character of the string that is not a digit. -/
theorem parse_playlist_rejects (s : List Nat) (h0 : ∀ c ∈ s, c ≠ 0)
    (h : ∃ c ∈ s, ¬ is_digit c) :
    ∃ i c, s[i]? = some c ∧ ¬ is_digit c ∧
      (∀ j, j < i → ∃ x, s[j]? = some x ∧ is_digit x) ∧
      parse_playlist (s ++ [0]) = .ok { value := UINT32_MOD - 1, report := some (c, i) } := by
  obtain ⟨d, c, post, rfl, hd, hc⟩ := split_first_nondigit s h
  refine ⟨d.length, c, by rw [List.getElem?_append_right (le_refl _)]; simp, hc, ?_, ?_⟩
  · intro j hj
    refine ⟨d[j], ?_, hd _ (List.getElem_mem hj)⟩
    rw [List.getElem?_append_left hj, List.getElem?_eq_getElem hj]
  · have hc0 : c ≠ 0 := h0 c (by simp)
    unfold parse_playlist
    rw [List.append_assoc, List.cons_append,
      parse_playlist_loop_nondigit c (post ++ [0]) hc hc0 d 0 0 hd]
    simp

/-- C4, witness: `12a3` is rejected with the character `a` at position 2. -/
theorem parse_playlist_rejects_witness :
    parse_playlist (lit "12a3") = .ok { value := 4294967295, report := some (97, 2) } ∧
      ∃ i c, (bytes "12a3")[i]? = some c ∧ ¬ is_digit c ∧
        (∀ j, j < i → ∃ x, (bytes "12a3")[j]? = some x ∧ is_digit x) ∧
        parse_playlist (bytes "12a3" ++ [0]) =
          .ok { value := UINT32_MOD - 1, report := some (c, i) } :=
  ⟨by decide, parse_playlist_rejects (bytes "12a3") (by decide) (by decide)⟩

/-! ## The command line: claims C5 to C8 -/

/-- A call of `construct_makemkv` that returns 0 parsed the playlist, found
its title information and ran the writing part to the end. -/
theorem construct_makemkv_zero (heap : Nat → Nat) (b b2 : strbuf) (self bd_path : List Nat)
    (bd : BLURAY) (playlist outfile : List Nat)
    (h : construct_makemkv heap b self bd_path bd playlist outfile = .ok (0, b2)) :
    ∃ p info, parse_playlist playlist = .ok p ∧ p.value ≠ UINT32_MOD - 1 ∧
      bd p.value = some info ∧
      construct_makemkv_body heap self bd_path p.value info outfile b = .ok b2 := by
  unfold construct_makemkv at h
  rw [bind_eq_ok] at h
  obtain ⟨p, hp, h⟩ := h
  dsimp only at h
  by_cases hs : p.value = UINT32_MOD - 1
  · rw [if_pos hs] at h
    simp at h
  rw [if_neg hs] at h
  cases hi : bd p.value with
  | none =>
    rw [hi] at h
    simp at h
  | some info =>
    rw [hi] at h
    dsimp only at h
    rw [bind_eq_ok] at h
    obtain ⟨b3, h3, h4⟩ := h
    simp only [Except.ok.injEq, Prod.mk.injEq, true_and] at h4
    subst h4
    exact ⟨p, info, hp, hs, hi, h3⟩

/-- Layout of the command line written by a call of `construct_makemkv` that
returns 0: the head with the input sources, the clauses of the streams of
the first clip, and the token of the output file. -/
theorem construct_makemkv_layout (heap : Nat → Nat) (b b2 : strbuf)
    (self bd_path : List Nat) (bd : BLURAY) (playlist outfile : List Nat) (hb : b.wf)
    (h : construct_makemkv heap b self bd_path bd playlist outfile = .ok (0, b2)) :
    ∃ p info clip e_self e_path e_out,
      parse_playlist playlist = .ok p ∧ bd p.value = some info ∧
      info.clips[0]? = some clip ∧
      shellescape_text self = .ok e_self ∧ shellescape_text bd_path = .ok e_path ∧
      shellescape_text outfile = .ok e_out ∧ b2.wf ∧
      b2.content = b.content ++ (command_head e_self e_path p.value info ++
        ((command_clauses clip).map StreamClauses.text).flatten ++ e_out) := by
  obtain ⟨p, info, hp, _, hi, hbody⟩ :=
    construct_makemkv_zero heap b b2 self bd_path bd playlist outfile h
  obtain ⟨t, ht, w2, e2⟩ :=
    (construct_makemkv_body_appends heap self bd_path p.value info outfile b hb).1 b2 hbody
  obtain ⟨e_self, e_path, e_out, clip, h1, h2, h3, h4, rfl⟩ :=
    construct_makemkv_text_ok self bd_path p.value info outfile t ht
  exact ⟨p, info, clip, e_self, e_path, e_out, hp, hi, h4, h1, h2, h3, w2, e2⟩

theorem kind_clauses_selection (disp : Nat → List Nat) (tag : String) :
    ∀ (l : List BLURAY_STREAM_INFO) (i : Nat),
      (kind_clauses disp tag i l).map (·.selection) = l.map fun s => map_clause s.pid := by
  intro l
  induction l with
  | nil => intro i; rfl
  | cons s l ih =>
    intro i
    have := ih (i + 1)
    simp only [kind_clauses, List.enumFrom, List.map_cons, List.map_map] at this ⊢
    rw [this]

theorem kind_clauses_disposition (disp : Nat → List Nat) (tag : String) :
    ∀ (l : List BLURAY_STREAM_INFO) (i : Nat),
      (kind_clauses disp tag i l).map (·.disposition) = (List.range' i l.length).map disp := by
  intro l
  induction l with
  | nil => intro i; rfl
  | cons s l ih =>
    intro i
    have := ih (i + 1)
    simp only [kind_clauses, List.enumFrom, List.map_cons, List.map_map, List.length_cons,
      List.range'_succ] at this ⊢
    rw [this]

theorem kind_clauses_language (disp : Nat → List Nat) (tag : String)
    (l : List BLURAY_STREAM_INFO) (i : Nat) :
    (kind_clauses disp tag i l).map (·.language) = (l.enumFrom i).map fun ks =>
      if cstr ks.2.lang = [] then []
      else bytes "-metadata:" ++ bytes tag ++ bytes ":" ++ fmt_dec ks.1 ++ bytes " language=" ++
        cstr ks.2.lang ++ bytes " " := by
  simp only [kind_clauses, List.map_map]
  rfl

theorem video_disposition_list (n : Nat) (hn : 0 < n) :
    (List.range' 0 n).map video_disposition =
      bytes "-disposition:v:0 default " ::
        (List.range' 1 (n - 1)).map fun i =>
          bytes "-disposition:v:" ++ fmt_dec i ++ bytes " 0 " := by
  obtain ⟨m, rfl⟩ : ∃ m, n = m + 1 := ⟨n - 1, by omega⟩
  rw [List.range'_succ, List.map_cons, Nat.add_sub_cancel]
  congr 1
  apply List.map_congr_left
  intro i hi
  have h1 : 1 ≤ i := (List.mem_range'_1.1 hi).1
  unfold video_disposition
  rw [if_neg (by omega)]

/-- C5.  When `construct_makemkv` returns 0 for a title whose first clip has at
least one video stream, the command line is the head, then the clauses of
the streams, then the output token, and the disposition clauses of the
streams are, in order: `-disposition:v:0 default` for video stream 0,
`-disposition:v:i 0` for every video stream `i ≥ 1`, `-disposition:a:i 0`
for every audio stream and `-disposition:s:i 0` for every subtitle stream.
So exactly one disposition clause has the value `default`. -/
theorem construct_makemkv_default_track (heap : Nat → Nat) (b b2 : strbuf)
    (self bd_path : List Nat) (bd : BLURAY) (playlist outfile : List Nat)
    (p : ParseResult) (info : BLURAY_TITLE_INFO) (clip : BLURAY_CLIP_INFO) (hb : b.wf)
    (hp : parse_playlist playlist = .ok p) (hi : bd p.value = some info)
    (hc : info.clips[0]? = some clip) (hv : clip.video_streams ≠ [])
    (h : construct_makemkv heap b self bd_path bd playlist outfile = .ok (0, b2)) :
    (∃ e_self e_path e_out, shellescape_text self = .ok e_self ∧
      shellescape_text bd_path = .ok e_path ∧ shellescape_text outfile = .ok e_out ∧
      b2.content = b.content ++ (command_head e_self e_path p.value info ++
        ((command_clauses clip).map StreamClauses.text).flatten ++ e_out)) ∧
    (command_clauses clip).map (·.disposition) =
      (bytes "-disposition:v:0 default " ::
        (List.range' 1 (clip.video_streams.length - 1)).map fun i =>
          bytes "-disposition:v:" ++ fmt_dec i ++ bytes " 0 ") ++
      ((List.range' 0 clip.audio_streams.length).map fun i =>
          bytes "-disposition:a:" ++ fmt_dec i ++ bytes " 0 ") ++
      ((List.range' 0 clip.pg_streams.length).map fun i =>
          bytes "-disposition:s:" ++ fmt_dec i ++ bytes " 0 ") := by
  obtain ⟨p2, info2, clip2, e_self, e_path, e_out, hp2, hi2, hc2, h1, h2, h3, _, e⟩ :=
    construct_makemkv_layout heap b b2 self bd_path bd playlist outfile hb h
  rw [hp] at hp2
  simp only [Except.ok.injEq] at hp2
  subst hp2
  rw [hi] at hi2
  simp only [Option.some.injEq] at hi2
  subst hi2
  rw [hc] at hc2
  simp only [Option.some.injEq] at hc2
  subst hc2
  refine ⟨⟨e_self, e_path, e_out, h1, h2, h3, e⟩, ?_⟩
  have hn : 0 < clip.video_streams.length := List.length_pos.2 hv
  simp only [command_clauses, List.map_append, kind_clauses_disposition]
  rw [video_disposition_list _ hn]
  rfl

set_option maxRecDepth 100000 in
/-- C5, witness: the sample title with two video streams, one audio stream
and one subtitle stream. -/
theorem construct_makemkv_default_track_witness :
    (∃ e_self e_path e_out, shellescape_text (lit "./bdtool") = .ok e_self ∧
      shellescape_text (lit "/mnt/bd") = .ok e_path ∧
      shellescape_text (lit "out.mkv") = .ok e_out ∧
      (sample_out sample_info_chapters).content = sample_buf.content ++
        (command_head e_self e_path 1 sample_info_chapters ++
          ((command_clauses
            { video_streams := [{ pid := 0x1011, lang := [101, 110, 103, 0] },
                                { pid := 0x1012, lang := [0, 0, 0, 0] }]
              audio_streams := [{ pid := 0x1100, lang := [101, 110, 103, 0] }]
              pg_streams := [{ pid := 0x1200, lang := [100, 101, 117, 0] }] }).map
            StreamClauses.text).flatten ++ e_out)) ∧
    (command_clauses
        { video_streams := [{ pid := 0x1011, lang := [101, 110, 103, 0] },
                            { pid := 0x1012, lang := [0, 0, 0, 0] }]
          audio_streams := [{ pid := 0x1100, lang := [101, 110, 103, 0] }]
          pg_streams := [{ pid := 0x1200, lang := [100, 101, 117, 0] }] }).map (·.disposition) =
      [bytes "-disposition:v:0 default ", bytes "-disposition:v:1 0 ",
        bytes "-disposition:a:0 0 ", bytes "-disposition:s:0 0 "] :=
  construct_makemkv_default_track sample_heap sample_buf (sample_out sample_info_chapters)
    (lit "./bdtool") (lit "/mnt/bd") (sample_disc sample_info_chapters) (lit "00001")
    (lit "out.mkv") { value := 1, report := none } sample_info_chapters
    { video_streams := [{ pid := 0x1011, lang := [101, 110, 103, 0] },
                        { pid := 0x1012, lang := [0, 0, 0, 0] }]
      audio_streams := [{ pid := 0x1100, lang := [101, 110, 103, 0] }]
      pg_streams := [{ pid := 0x1200, lang := [100, 101, 117, 0] }] }
    (by decide) (by decide) rfl rfl (by decide) (by rfl)

/-- C6.  When `construct_makemkv` returns 0, the command line is the head, then
the clauses of the streams of the first clip, then the output token, and
the stream-selection clauses are, in order, one clause
`-map 0:i:0x<pid in hex> -c copy` per stream: all video streams, then all
audio streams, then all subtitle streams, each list in its own order. -/
theorem construct_makemkv_stream_selection (heap : Nat → Nat) (b b2 : strbuf)
    (self bd_path : List Nat) (bd : BLURAY) (playlist outfile : List Nat)
    (p : ParseResult) (info : BLURAY_TITLE_INFO) (clip : BLURAY_CLIP_INFO) (hb : b.wf)
    (hp : parse_playlist playlist = .ok p) (hi : bd p.value = some info)
    (hc : info.clips[0]? = some clip)
    (h : construct_makemkv heap b self bd_path bd playlist outfile = .ok (0, b2)) :
    (∃ e_self e_path e_out, shellescape_text self = .ok e_self ∧
      shellescape_text bd_path = .ok e_path ∧ shellescape_text outfile = .ok e_out ∧
      b2.content = b.content ++ (command_head e_self e_path p.value info ++
        ((command_clauses clip).map StreamClauses.text).flatten ++ e_out)) ∧
    (command_clauses clip).map (·.selection) =
      (clip.video_streams ++ clip.audio_streams ++ clip.pg_streams).map fun s =>
        bytes "-map 0:i:0x" ++ fmt_hex s.pid ++ bytes " -c copy " := by
  obtain ⟨p2, info2, clip2, e_self, e_path, e_out, hp2, hi2, hc2, h1, h2, h3, _, e⟩ :=
    construct_makemkv_layout heap b b2 self bd_path bd playlist outfile hb h
  rw [hp] at hp2
  simp only [Except.ok.injEq] at hp2
  subst hp2
  rw [hi] at hi2
  simp only [Option.some.injEq] at hi2
  subst hi2
  rw [hc] at hc2
  simp only [Option.some.injEq] at hc2
  subst hc2
  refine ⟨⟨e_self, e_path, e_out, h1, h2, h3, e⟩, ?_⟩
  simp only [command_clauses, List.map_append, kind_clauses_selection]
  rfl

set_option maxRecDepth 100000 in
/-- C6, witness: the sample title with two video streams, one audio stream
and one subtitle stream. -/
theorem construct_makemkv_stream_selection_witness :
    (∃ e_self e_path e_out, shellescape_text (lit "./bdtool") = .ok e_self ∧
      shellescape_text (lit "/mnt/bd") = .ok e_path ∧
      shellescape_text (lit "out.mkv") = .ok e_out ∧
      (sample_out sample_info_chapters).content = sample_buf.content ++
        (command_head e_self e_path 1 sample_info_chapters ++
          ((command_clauses
            { video_streams := [{ pid := 0x1011, lang := [101, 110, 103, 0] },
                                { pid := 0x1012, lang := [0, 0, 0, 0] }]
              audio_streams := [{ pid := 0x1100, lang := [101, 110, 103, 0] }]
              pg_streams := [{ pid := 0x1200, lang := [100, 101, 117, 0] }] }).map
            StreamClauses.text).flatten ++ e_out)) ∧
    (command_clauses
        { video_streams := [{ pid := 0x1011, lang := [101, 110, 103, 0] },
                            { pid := 0x1012, lang := [0, 0, 0, 0] }]
          audio_streams := [{ pid := 0x1100, lang := [101, 110, 103, 0] }]
          pg_streams := [{ pid := 0x1200, lang := [100, 101, 117, 0] }] }).map (·.selection) =
      [bytes "-map 0:i:0x1011 -c copy ", bytes "-map 0:i:0x1012 -c copy ",
        bytes "-map 0:i:0x1100 -c copy ", bytes "-map 0:i:0x1200 -c copy "] :=
  construct_makemkv_stream_selection sample_heap sample_buf (sample_out sample_info_chapters)
    (lit "./bdtool") (lit "/mnt/bd") (sample_disc sample_info_chapters) (lit "00001")
    (lit "out.mkv") { value := 1, report := none } sample_info_chapters
    { video_streams := [{ pid := 0x1011, lang := [101, 110, 103, 0] },
                        { pid := 0x1012, lang := [0, 0, 0, 0] }]
      audio_streams := [{ pid := 0x1100, lang := [101, 110, 103, 0] }]
      pg_streams := [{ pid := 0x1200, lang := [100, 101, 117, 0] }] }
    (by decide) (by decide) rfl rfl (by rfl)

/-- C7.  When `construct_makemkv` returns 0, the command line is the head, then
for every stream its selection clause, its disposition clause and its
language clause, then the output token; and the language clause of the
stream at index `i` of its kind is empty when the language code of the
stream is empty, and otherwise is `-metadata:<specifier>:i language=<code> `
with that index and that code (specifier `v` for video, `s:a` for audio,
`s:s` for subtitles). -/
theorem construct_makemkv_language (heap : Nat → Nat) (b b2 : strbuf)
    (self bd_path : List Nat) (bd : BLURAY) (playlist outfile : List Nat)
    (p : ParseResult) (info : BLURAY_TITLE_INFO) (clip : BLURAY_CLIP_INFO) (hb : b.wf)
    (hp : parse_playlist playlist = .ok p) (hi : bd p.value = some info)
    (hc : info.clips[0]? = some clip)
    (h : construct_makemkv heap b self bd_path bd playlist outfile = .ok (0, b2)) :
    (∃ e_self e_path e_out, shellescape_text self = .ok e_self ∧
      shellescape_text bd_path = .ok e_path ∧ shellescape_text outfile = .ok e_out ∧
      b2.content = b.content ++ (command_head e_self e_path p.value info ++
        ((command_clauses clip).map
          (fun c => c.selection ++ c.disposition ++ c.language)).flatten ++ e_out)) ∧
    (command_clauses clip).map (·.language) =
      (clip.video_streams.enum.map fun ks =>
        if cstr ks.2.lang = [] then []
        else bytes "-metadata:v:" ++ fmt_dec ks.1 ++ bytes " language=" ++ cstr ks.2.lang ++
          bytes " ") ++
      (clip.audio_streams.enum.map fun ks =>
        if cstr ks.2.lang = [] then []
        else bytes "-metadata:s:a:" ++ fmt_dec ks.1 ++ bytes " language=" ++ cstr ks.2.lang ++
          bytes " ") ++
      (clip.pg_streams.enum.map fun ks =>
        if cstr ks.2.lang = [] then []
        else bytes "-metadata:s:s:" ++ fmt_dec ks.1 ++ bytes " language=" ++ cstr ks.2.lang ++
          bytes " ") := by
  obtain ⟨p2, info2, clip2, e_self, e_path, e_out, hp2, hi2, hc2, h1, h2, h3, _, e⟩ :=
    construct_makemkv_layout heap b b2 self bd_path bd playlist outfile hb h
  rw [hp] at hp2
  simp only [Except.ok.injEq] at hp2
  subst hp2
  rw [hi] at hi2
  simp only [Option.some.injEq] at hi2
  subst hi2
  rw [hc] at hc2
  simp only [Option.some.injEq] at hc2
  subst hc2
  refine ⟨⟨e_self, e_path, e_out, h1, h2, h3, e⟩, ?_⟩
  simp only [command_clauses, List.map_append, kind_clauses_language]
  rfl

set_option maxRecDepth 100000 in
/-- C7, witness: in the sample title the second video stream has no language
code and gets no language clause. -/
theorem construct_makemkv_language_witness :
    (∃ e_self e_path e_out, shellescape_text (lit "./bdtool") = .ok e_self ∧
      shellescape_text (lit "/mnt/bd") = .ok e_path ∧
      shellescape_text (lit "out.mkv") = .ok e_out ∧
      (sample_out sample_info_chapters).content = sample_buf.content ++
        (command_head e_self e_path 1 sample_info_chapters ++
          ((command_clauses
            { video_streams := [{ pid := 0x1011, lang := [101, 110, 103, 0] },
                                { pid := 0x1012, lang := [0, 0, 0, 0] }]
              audio_streams := [{ pid := 0x1100, lang := [101, 110, 103, 0] }]
              pg_streams := [{ pid := 0x1200, lang := [100, 101, 117, 0] }] }).map
            (fun c => c.selection ++ c.disposition ++ c.language)).flatten ++ e_out)) ∧
    (command_clauses
        { video_streams := [{ pid := 0x1011, lang := [101, 110, 103, 0] },
                            { pid := 0x1012, lang := [0, 0, 0, 0] }]
          audio_streams := [{ pid := 0x1100, lang := [101, 110, 103, 0] }]
          pg_streams := [{ pid := 0x1200, lang := [100, 101, 117, 0] }] }).map (·.language) =
      [bytes "-metadata:v:0 language=eng ", [], bytes "-metadata:s:a:0 language=eng ",
        bytes "-metadata:s:s:0 language=deu "] :=
  construct_makemkv_language sample_heap sample_buf (sample_out sample_info_chapters)
    (lit "./bdtool") (lit "/mnt/bd") (sample_disc sample_info_chapters) (lit "00001")
    (lit "out.mkv") { value := 1, report := none } sample_info_chapters
    { video_streams := [{ pid := 0x1011, lang := [101, 110, 103, 0] },
                        { pid := 0x1012, lang := [0, 0, 0, 0] }]
      audio_streams := [{ pid := 0x1100, lang := [101, 110, 103, 0] }]
      pg_streams := [{ pid := 0x1200, lang := [100, 101, 117, 0] }] }
    (by decide) (by decide) rfl rfl (by rfl)

/-- C8.  When `construct_makemkv` returns 0, the command line starts with
`ffmpeg `, the splice input source for the parsed playlist number in
decimal, and then, exactly when `chapter_count > 0`, the second input
source with `print-ff-chapters` for the same number followed by
`-map_chapters 1 `; what follows are the stream clauses and the output
token.  `e_self` and `e_path` are the tokens that `strbuf_append_shellescape` writes for the
program and the disc. -/
theorem construct_makemkv_chapter_input (heap : Nat → Nat) (b b2 : strbuf)
    (self bd_path : List Nat) (bd : BLURAY) (playlist outfile : List Nat)
    (p : ParseResult) (info : BLURAY_TITLE_INFO) (hb : b.wf)
    (hp : parse_playlist playlist = .ok p) (hi : bd p.value = some info)
    (h : construct_makemkv heap b self bd_path bd playlist outfile = .ok (0, b2)) :
    ∃ e_self e_path e_out clip,
      (∀ b0 b1, b0.wf → strbuf_append_shellescape heap b0 self = .ok b1 →
        b1.content = b0.content ++ e_self) ∧
      (∀ b0 b1, b0.wf → strbuf_append_shellescape heap b0 bd_path = .ok b1 →
        b1.content = b0.content ++ e_path) ∧
      shellescape_text self = .ok e_self ∧
      shellescape_text bd_path = .ok e_path ∧ shellescape_text outfile = .ok e_out ∧
      info.clips[0]? = some clip ∧
      b2.content = b.content ++ (bytes "ffmpeg " ++
        (bytes "-i <(" ++ e_self ++ bytes " " ++ e_path ++ bytes " splice " ++
          fmt_dec p.value ++ bytes ") ") ++
        (if info.chapter_count > 0 then
          (bytes "-i <(" ++ e_self ++ bytes " " ++ e_path ++ bytes " print-ff-chapters " ++
            fmt_dec p.value ++ bytes ") ") ++ bytes "-map_chapters 1 "
        else []) ++
        (((command_clauses clip).map StreamClauses.text).flatten ++ e_out)) := by
  obtain ⟨p2, info2, clip, e_self, e_path, e_out, hp2, hi2, hc, h1, h2, h3, _, e⟩ :=
    construct_makemkv_layout heap b b2 self bd_path bd playlist outfile hb h
  rw [hp] at hp2
  simp only [Except.ok.injEq] at hp2
  subst hp2
  rw [hi] at hi2
  simp only [Option.some.injEq] at hi2
  subst hi2
  refine ⟨e_self, e_path, e_out, clip, shellescape_text_appended heap self e_self h1,
    shellescape_text_appended heap bd_path e_path h2, h1, h2, h3, hc, ?_⟩
  rw [e]
  have s1 : bytes " " ++ bytes "splice" ++ bytes " " = bytes " splice " := by decide
  have s2 : bytes " " ++ bytes "print-ff-chapters" ++ bytes " " =
      bytes " print-ff-chapters " := by decide
  have i1 : ∀ (command : String) (x : List Nat),
      bytes " " ++ bytes command ++ bytes " " = x →
      input_clause e_self e_path command p.value =
        bytes "-i <(" ++ e_self ++ bytes " " ++ e_path ++ x ++ fmt_dec p.value ++ bytes ") " := by
    intro command x hx
    rw [← hx]
    simp only [input_clause, List.append_assoc]
  simp only [command_head]
  rw [i1 _ _ s1, i1 _ _ s2]
  simp only [List.append_assoc]

set_option maxRecDepth 100000 in
/-- C8, witness: the sample title without chapters has the splice input
source only. -/
theorem construct_makemkv_chapter_input_witness :
    ∃ e_self e_path e_out clip,
      (∀ b0 b1, b0.wf → strbuf_append_shellescape sample_heap b0 (lit "./bdtool") = .ok b1 →
        b1.content = b0.content ++ e_self) ∧
      (∀ b0 b1, b0.wf → strbuf_append_shellescape sample_heap b0 (lit "/mnt/bd") = .ok b1 →
        b1.content = b0.content ++ e_path) ∧
      shellescape_text (lit "./bdtool") = .ok e_self ∧
      shellescape_text (lit "/mnt/bd") = .ok e_path ∧
      shellescape_text (lit "out.mkv") = .ok e_out ∧
      sample_info.clips[0]? = some clip ∧
      (sample_out sample_info).content = sample_buf.content ++ (bytes "ffmpeg " ++
        (bytes "-i <(" ++ e_self ++ bytes " " ++ e_path ++ bytes " splice " ++
          fmt_dec 1 ++ bytes ") ") ++
        (if sample_info.chapter_count > 0 then
          (bytes "-i <(" ++ e_self ++ bytes " " ++ e_path ++ bytes " print-ff-chapters " ++
            fmt_dec 1 ++ bytes ") ") ++ bytes "-map_chapters 1 "
        else []) ++
        (((command_clauses clip).map StreamClauses.text).flatten ++ e_out)) :=
  construct_makemkv_chapter_input sample_heap sample_buf (sample_out sample_info)
    (lit "./bdtool") (lit "/mnt/bd") (sample_disc sample_info) (lit "00001")
    (lit "out.mkv") { value := 1, report := none } sample_info
    (by decide) (by decide) rfl (by rfl)

/-! ## The space before the output token: claim C9 -/

theorem EndsSpaced.append_left {u : List Nat} (v : List Nat) (h : EndsSpaced u) :
    EndsSpaced (v ++ u) := by
  obtain ⟨x, c, rfl, hc⟩ := h
  exact ⟨v ++ x, c, by simp, hc⟩

theorem EndsSpaced.flatten (l : List (List Nat)) (hne : l ≠ [])
    (h : ∀ t ∈ l, EndsSpaced t) : EndsSpaced l.flatten := by
  obtain ⟨init, last, rfl⟩ : ∃ init last, l = init ++ [last] :=
    ⟨l.dropLast, l.getLast hne, (List.dropLast_append_getLast hne).symm⟩
  rw [List.flatten_append]
  simp only [List.flatten_cons, List.flatten_nil, List.append_nil]
  exact (h last (by simp)).append_left _

theorem video_disposition_spaced (i : Nat) : EndsSpaced (video_disposition i) := by
  unfold video_disposition
  split
  · exact ⟨bytes "-disposition:v:" ++ fmt_dec i ++ bytes " defaul", 116, by
      have : bytes " default " = bytes " defaul" ++ [116, 32] := by decide
      rw [this]; simp, by decide⟩
  · exact ⟨bytes "-disposition:v:" ++ fmt_dec i ++ bytes " ", 48, by
      have : bytes " 0 " = bytes " " ++ [48, 32] := by decide
      rw [this]; simp, by decide⟩

theorem audio_disposition_spaced (i : Nat) : EndsSpaced (audio_disposition i) :=
  ⟨bytes "-disposition:a:" ++ fmt_dec i ++ bytes " ", 48, by
    unfold audio_disposition
    have : bytes " 0 " = bytes " " ++ [48, 32] := by decide
    rw [this]; simp, by decide⟩

theorem pg_disposition_spaced (i : Nat) : EndsSpaced (pg_disposition i) :=
  ⟨bytes "-disposition:s:" ++ fmt_dec i ++ bytes " ", 48, by
    unfold pg_disposition
    have : bytes " 0 " = bytes " " ++ [48, 32] := by decide
    rw [this]; simp, by decide⟩

theorem kind_clauses_spaced (disp : Nat → List Nat) (tag : String)
    (hdisp : ∀ i, EndsSpaced (disp i)) :
    ∀ (l : List BLURAY_STREAM_INFO) (i : Nat),
      (∀ s ∈ l, (cstr s.lang).getLast? ≠ some 32) →
      ∀ c ∈ kind_clauses disp tag i l, EndsSpaced c.text := by
  intro l
  induction l with
  | nil =>
    intro i _ c hc
    simp [kind_clauses, List.enumFrom] at hc
  | cons s l ih =>
    intro i hl c hc
    simp only [kind_clauses, List.enumFrom, List.map_cons, List.mem_cons] at hc
    rcases hc with rfl | hc
    · simp only [StreamClauses.text]
      by_cases he : cstr s.lang = []
      · rw [if_pos he, List.append_nil]
        exact (hdisp i).append_left _
      · rw [if_neg he]
        apply EndsSpaced.append_left
        have hlast := hl s (by simp)
        obtain ⟨init, c, hcode⟩ : ∃ init c, cstr s.lang = init ++ [c] :=
          ⟨_, _, (List.dropLast_append_getLast he).symm⟩
        rw [hcode] at hlast ⊢
        refine ⟨bytes "-metadata:" ++ bytes tag ++ bytes ":" ++ fmt_dec i ++
          bytes " language=" ++ init, c, ?_, ?_⟩
        · simp only [language_clause, List.append_assoc]
          rfl
        · intro h32
          apply hlast
          simp [h32]
    · exact ih (i + 1) (fun s hs => hl s (by simp [hs])) c hc

theorem command_head_spaced (e_self e_path : List Nat) (n : Nat) (info : BLURAY_TITLE_INFO) :
    EndsSpaced (command_head e_self e_path n info) := by
  unfold command_head
  split
  · apply EndsSpaced.append_left
    apply EndsSpaced.append_left
    exact ⟨bytes "-map_chapters ", 49, by decide, by decide⟩
  · rw [List.append_nil]
    apply EndsSpaced.append_left
    unfold input_clause
    apply EndsSpaced.append_left
    exact ⟨[], 41, by decide, by decide⟩

theorem EndsSpaced.ends_space {t : List Nat} (h : EndsSpaced t) : EndsSpace t := by
  obtain ⟨x, c, rfl, _⟩ := h
  exact ⟨x ++ [c], by simp⟩

theorem EndsSpace.of_append {u : List Nat} (v : List Nat) (h : EndsSpace u) :
    EndsSpace (v ++ u) := by
  obtain ⟨x, rfl⟩ := h
  exact ⟨v ++ x, by simp⟩

theorem EndsSpace.of_flatten (l : List (List Nat)) (hne : l ≠ [])
    (h : ∀ t ∈ l, EndsSpace t) : EndsSpace l.flatten := by
  obtain ⟨init, last, rfl⟩ : ∃ init last, l = init ++ [last] :=
    ⟨l.dropLast, l.getLast hne, (List.dropLast_append_getLast hne).symm⟩
  rw [List.flatten_append]
  simp only [List.flatten_cons, List.flatten_nil, List.append_nil]
  exact (h last (by simp)).of_append _

theorem kind_clauses_end_space (disp : Nat → List Nat) (tag : String)
    (hdisp : ∀ i, EndsSpace (disp i)) :
    ∀ (l : List BLURAY_STREAM_INFO) (i : Nat),
      ∀ c ∈ kind_clauses disp tag i l, EndsSpace c.text := by
  intro l
  induction l with
  | nil =>
    intro i c hc
    simp [kind_clauses, List.enumFrom] at hc
  | cons s l ih =>
    intro i c hc
    simp only [kind_clauses, List.enumFrom, List.map_cons, List.mem_cons] at hc
    rcases hc with rfl | hc
    · simp only [StreamClauses.text]
      by_cases he : cstr s.lang = []
      · rw [if_pos he, List.append_nil]
        exact (hdisp i).of_append _
      · rw [if_neg he]
        apply EndsSpace.of_append
        exact ⟨bytes "-metadata:" ++ bytes tag ++ bytes ":" ++ fmt_dec i ++
          bytes " language=" ++ cstr s.lang, rfl⟩
    · exact ih (i + 1) c hc

/-- The command line before the output token ends with a space. -/
theorem command_front_end_space (e_self e_path : List Nat) (n : Nat)
    (info : BLURAY_TITLE_INFO) (clip : BLURAY_CLIP_INFO) :
    EndsSpace (command_head e_self e_path n info ++
      ((command_clauses clip).map StreamClauses.text).flatten) := by
  by_cases hne : (command_clauses clip).map StreamClauses.text = []
  · rw [hne]
    simp only [List.flatten_nil, List.append_nil]
    exact (command_head_spaced _ _ _ _).ends_space
  · apply EndsSpace.of_append
    apply EndsSpace.of_flatten _ hne
    intro t ht
    obtain ⟨c, hc, rfl⟩ := List.mem_map.1 ht
    simp only [command_clauses, List.mem_append] at hc
    rcases hc with (hc | hc) | hc
    · exact kind_clauses_end_space _ _ (fun i => (video_disposition_spaced i).ends_space)
        _ _ c hc
    · exact kind_clauses_end_space _ _ (fun i => (audio_disposition_spaced i).ends_space)
        _ _ c hc
    · exact kind_clauses_end_space _ _ (fun i => (pg_disposition_spaced i).ends_space)
        _ _ c hc

/-- The command line before the output token ends with one space, when no
language code ends in a space. -/
theorem command_front_spaced (e_self e_path : List Nat) (n : Nat) (info : BLURAY_TITLE_INFO)
    (clip : BLURAY_CLIP_INFO)
    (hl : ∀ s ∈ clip.video_streams ++ clip.audio_streams ++ clip.pg_streams,
      (cstr s.lang).getLast? ≠ some 32) :
    EndsSpaced (command_head e_self e_path n info ++
      ((command_clauses clip).map StreamClauses.text).flatten) := by
  by_cases hne : (command_clauses clip).map StreamClauses.text = []
  · rw [hne]
    simp only [List.flatten_nil, List.append_nil]
    exact command_head_spaced _ _ _ _
  · apply EndsSpaced.append_left
    apply EndsSpaced.flatten _ hne
    intro t ht
    obtain ⟨c, hc, rfl⟩ := List.mem_map.1 ht
    simp only [command_clauses, List.mem_append] at hc
    rcases hc with (hc | hc) | hc
    · exact kind_clauses_spaced _ _ video_disposition_spaced _ _
        (fun s hs => hl s (by simp [hs])) c hc
    · exact kind_clauses_spaced _ _ audio_disposition_spaced _ _
        (fun s hs => hl s (by simp [hs])) c hc
    · exact kind_clauses_spaced _ _ pg_disposition_spaced _ _
        (fun s hs => hl s (by simp [hs])) c hc

theorem Trail.of_spaced {t : List Nat} (o : Option BLURAY_STREAM_INFO) (h : EndsSpaced t)
    (ho : ∀ s, o = some s → (cstr s.lang).getLast? ≠ some 32) : Trail t o := by
  obtain ⟨x, c, rfl, hc⟩ := h
  refine ⟨x, c, rfl, ?_⟩
  constructor
  · intro h32
    exact absurd h32 hc
  · rintro ⟨s, hs, hl⟩
    exact absurd hl (ho s hs)

theorem Trail.after {u : List Nat} {o : Option BLURAY_STREAM_INFO} (v : List Nat)
    (h : Trail u o) : Trail (v ++ u) o := by
  obtain ⟨x, c, rfl, hc⟩ := h
  exact ⟨v ++ x, c, by simp, hc⟩

/-- The clauses of one stream end with a space, and the byte before it is a space exactly
when the language code of the stream ends in a space. -/
theorem stream_clauses_trail (disp : List Nat) (tag : String) (i : Nat)
    (s : BLURAY_STREAM_INFO) (hdisp : EndsSpaced disp) :
    Trail (map_clause s.pid ++ disp ++
      (if cstr s.lang = [] then [] else language_clause tag i (cstr s.lang))) (some s) := by
  by_cases he : cstr s.lang = []
  · rw [if_pos he, List.append_nil]
    refine Trail.of_spaced _ (hdisp.append_left _) ?_
    intro s2 hs2
    simp only [Option.some.injEq] at hs2
    subst hs2
    rw [he]
    simp
  · rw [if_neg he]
    apply Trail.after
    obtain ⟨init, c, hcode⟩ : ∃ init c, cstr s.lang = init ++ [c] :=
      ⟨_, _, (List.dropLast_append_getLast he).symm⟩
    refine ⟨bytes "-metadata:" ++ bytes tag ++ bytes ":" ++ fmt_dec i ++
      bytes " language=" ++ init, c, ?_, ?_⟩
    · rw [hcode]
      simp only [language_clause, List.append_assoc]
      rfl
    · constructor
      · intro h32
        exact ⟨s, rfl, by rw [hcode, h32]; simp⟩
      · rintro ⟨s2, hs2, hl⟩
        simp only [Option.some.injEq] at hs2
        subst hs2
        rw [hcode] at hl
        simpa using hl

/-- After the clauses of the streams of one kind, the byte before the last space is
decided by the last of these streams, and by what came before when there
is none. -/
theorem kind_clauses_trail (disp : Nat → List Nat) (tag : String)
    (hdisp : ∀ i, EndsSpaced (disp i)) :
    ∀ (l : List BLURAY_STREAM_INFO) (i : Nat) (pre : List Nat)
      (o : Option BLURAY_STREAM_INFO), Trail pre o →
      Trail (pre ++ ((kind_clauses disp tag i l).map StreamClauses.text).flatten)
        (l.getLast?.or o) := by
  intro l
  induction l with
  | nil =>
    intro i pre o h
    simpa [kind_clauses] using h
  | cons s l ih =>
    intro i pre o h
    have e1 : ((kind_clauses disp tag i (s :: l)).map StreamClauses.text).flatten =
        (map_clause s.pid ++ disp i ++
          (if cstr s.lang = [] then [] else language_clause tag i (cstr s.lang))) ++
        ((kind_clauses disp tag (i + 1) l).map StreamClauses.text).flatten := by
      simp [kind_clauses, List.enumFrom_cons, StreamClauses.text]
    have e2 : (s :: l).getLast?.or o = l.getLast?.or (some s) := by
      rw [List.getLast?_cons]
      cases l.getLast? <;> rfl
    rw [e1, e2, ← List.append_assoc]
    exact ih (i + 1) _ (some s)
      ((stream_clauses_trail (disp i) tag i s (hdisp i)).after pre)

/-- The command line before the output token ends with a space, and the byte before that
space is a space exactly when the last stream written has a language code
that ends in a space. -/
theorem command_front_trail (e_self e_path : List Nat) (n : Nat) (info : BLURAY_TITLE_INFO)
    (clip : BLURAY_CLIP_INFO) :
    Trail (command_head e_self e_path n info ++
        ((command_clauses clip).map StreamClauses.text).flatten)
      (clip.video_streams ++ clip.audio_streams ++ clip.pg_streams).getLast? := by
  have h0 : Trail (command_head e_self e_path n info) none :=
    Trail.of_spaced none (command_head_spaced e_self e_path n info) (fun s hs => by cases hs)
  have hv := kind_clauses_trail video_disposition "v" video_disposition_spaced
    clip.video_streams 0 _ _ h0
  have ha := kind_clauses_trail audio_disposition "s:a" audio_disposition_spaced
    clip.audio_streams 0 _ _ hv
  have hs := kind_clauses_trail pg_disposition "s:s" pg_disposition_spaced
    clip.pg_streams 0 _ _ ha
  have e1 : command_head e_self e_path n info ++
      ((command_clauses clip).map StreamClauses.text).flatten =
      command_head e_self e_path n info ++
        ((kind_clauses video_disposition "v" 0 clip.video_streams).map
          StreamClauses.text).flatten ++
        ((kind_clauses audio_disposition "s:a" 0 clip.audio_streams).map
          StreamClauses.text).flatten ++
        ((kind_clauses pg_disposition "s:s" 0 clip.pg_streams).map
          StreamClauses.text).flatten := by
    simp only [command_clauses, List.map_append, List.flatten_append, List.append_assoc]
  have e2 : (clip.video_streams ++ clip.audio_streams ++ clip.pg_streams).getLast? =
      clip.pg_streams.getLast?.or
        (clip.audio_streams.getLast?.or (clip.video_streams.getLast?.or none)) := by
    rw [List.getLast?_append, List.getLast?_append, Option.or_none]
  rw [e1, e2]
  exact hs

set_option maxRecDepth 100000 in
/-- C9, counterexample.  For a title whose last stream has the language code
`e` followed by a space, `construct_makemkv` returns 0 and the output token
`'out.mkv'` is preceded by two spaces: the one that ends the language code
and the one that ends the clause. -/
theorem construct_makemkv_two_spaces :
    construct_makemkv sample_heap sample_buf (lit "./bdtool") (lit "/mnt/bd")
        (sample_disc sample_info_spaced) (lit "00001") (lit "out.mkv") =
      .ok (0, sample_out sample_info_spaced) ∧
    shellescape_text (lit "out.mkv") = .ok (bytes "'out.mkv'") ∧
    (sample_out sample_info_spaced).content =
      bytes ("ffmpeg -i <('./bdtool' '/mnt/bd' splice 1) -map 0:i:0x1011 -c copy " ++
        "-disposition:v:0 default -metadata:v:0 language=e ") ++ [32] ++ bytes "'out.mkv'" ∧
    ¬ ∃ front, (sample_out sample_info_spaced).content = front ++ [32] ++ bytes "'out.mkv'" ∧
        front.getLast? ≠ some 32 := by
  have c3 : (sample_out sample_info_spaced).content =
      bytes ("ffmpeg -i <('./bdtool' '/mnt/bd' splice 1) -map 0:i:0x1011 -c copy " ++
        "-disposition:v:0 default -metadata:v:0 language=e ") ++ [32] ++ bytes "'out.mkv'" := by
    decide
  refine ⟨by rfl, by decide, c3, ?_⟩
  rintro ⟨front, hf, hlast⟩
  rw [c3] at hf
  have e := List.append_cancel_right (List.append_cancel_right hf)
  apply hlast
  rw [← e]
  decide

/-- C9, amended.  When `construct_makemkv` returns 0, the text in the buffer ends
with the token `e_out` that `strbuf_append_shellescape` writes for the output file, with
nothing after it, and the token is preceded by a space; the byte before that
space is a space too exactly when the last stream written, the last of the
video, audio and subtitle streams of the first clip in this order, has a
language code that ends in a space.  In every other case, also when an
earlier stream has such a code or when there is no stream, the token is
preceded by a single space. -/
theorem construct_makemkv_output_last (heap : Nat → Nat) (b b2 : strbuf)
    (self bd_path : List Nat) (bd : BLURAY) (playlist outfile : List Nat)
    (p : ParseResult) (info : BLURAY_TITLE_INFO) (clip : BLURAY_CLIP_INFO) (hb : b.wf)
    (hp : parse_playlist playlist = .ok p) (hi : bd p.value = some info)
    (hc : info.clips[0]? = some clip)
    (h : construct_makemkv heap b self bd_path bd playlist outfile = .ok (0, b2)) :
    ∃ front e_out,
      (∀ b0 b1, b0.wf → strbuf_append_shellescape heap b0 outfile = .ok b1 →
        b1.content = b0.content ++ e_out) ∧
      shellescape_text outfile = .ok e_out ∧
      b2.content = b.content ++ front ++ [32] ++ e_out ∧
      (front.getLast? = some 32 ↔
        ∃ s, (clip.video_streams ++ clip.audio_streams ++ clip.pg_streams).getLast? = some s ∧
          (cstr s.lang).getLast? = some 32) := by
  obtain ⟨p2, info2, clip2, e_self, e_path, e_out, hp2, hi2, hc2, h1, h2, h3, _, e⟩ :=
    construct_makemkv_layout heap b b2 self bd_path bd playlist outfile hb h
  rw [hp] at hp2
  simp only [Except.ok.injEq] at hp2
  subst hp2
  rw [hi] at hi2
  simp only [Option.some.injEq] at hi2
  subst hi2
  rw [hc] at hc2
  simp only [Option.some.injEq] at hc2
  subst hc2
  obtain ⟨x, c, hx, hiff⟩ := command_front_trail e_self e_path p.value info clip
  refine ⟨x ++ [c], e_out, ?_, h3, ?_, ?_⟩
  · exact shellescape_text_appended heap outfile e_out h3
  · rw [e, hx]
    simp only [List.append_assoc, List.cons_append, List.nil_append]
  · rw [List.getLast?_concat, Option.some.injEq]
    exact hiff

set_option maxRecDepth 100000 in
/-- C9, witness: the title whose video stream has the code `e` followed by a space and
whose audio stream, written last, has the code `eng`: the text ends in
`language=eng 'out.mkv'`, with a single space before the token. -/
theorem construct_makemkv_output_last_witness :
    (sample_out sample_info_inner).content =
      bytes ("ffmpeg -i <('./bdtool' '/mnt/bd' splice 1) -map 0:i:0x1011 -c copy " ++
        "-disposition:v:0 default -metadata:v:0 language=e  -map 0:i:0x1100 -c copy " ++
        "-disposition:a:0 0 -metadata:s:a:0 language=eng 'out.mkv'") ∧
    (¬ ∃ s, ([({ pid := 0x1011, lang := [101, 32, 0, 0] } : BLURAY_STREAM_INFO)] ++
        [({ pid := 0x1100, lang := [101, 110, 103, 0] } : BLURAY_STREAM_INFO)] ++
        ([] : List BLURAY_STREAM_INFO)).getLast? = some s ∧
      (cstr s.lang).getLast? = some 32) ∧
    ∃ front e_out,
      (∀ b0 b1, b0.wf → strbuf_append_shellescape sample_heap b0 (lit "out.mkv") = .ok b1 →
        b1.content = b0.content ++ e_out) ∧
      shellescape_text (lit "out.mkv") = .ok e_out ∧
      (sample_out sample_info_inner).content = sample_buf.content ++ front ++ [32] ++ e_out ∧
      (front.getLast? = some 32 ↔
        ∃ s, ([({ pid := 0x1011, lang := [101, 32, 0, 0] } : BLURAY_STREAM_INFO)] ++
            [({ pid := 0x1100, lang := [101, 110, 103, 0] } : BLURAY_STREAM_INFO)] ++
        ([] : List BLURAY_STREAM_INFO)).getLast? = some s ∧
          (cstr s.lang).getLast? = some 32) :=
  ⟨by decide, by
      rintro ⟨s, hs, hl⟩
      simp only [List.nil_append, List.append_nil, List.singleton_append,
        List.getLast?_cons_cons, List.getLast?_singleton, Option.some.injEq] at hs
      subst hs
      revert hl
      decide,
    construct_makemkv_output_last sample_heap sample_buf (sample_out sample_info_inner)
      (lit "./bdtool") (lit "/mnt/bd") (sample_disc sample_info_inner) (lit "00001")
      (lit "out.mkv") { value := 1, report := none } sample_info_inner
      { video_streams := [{ pid := 0x1011, lang := [101, 32, 0, 0] }]
        audio_streams := [{ pid := 0x1100, lang := [101, 110, 103, 0] }]
        pg_streams := [] }
      (by decide) (by decide) rfl rfl (by rfl)⟩

/-! ## When `construct_makemkv` fails: claim C10 -/

/-- What `construct_makemkv` does once the playlist text is parsed. -/
theorem construct_makemkv_parsed (heap : Nat → Nat) (b : strbuf) (self bd_path : List Nat)
    (bd : BLURAY) (playlist outfile : List Nat) (p : ParseResult)
    (hp : parse_playlist playlist = .ok p) :
    construct_makemkv heap b self bd_path bd playlist outfile =
      if p.value = UINT32_MOD - 1 then .ok (1, b)
      else match bd p.value with
        | none => .ok (1, b)
        | some info =>
          (construct_makemkv_body heap self bd_path p.value info outfile b).map
            fun b2 => (0, b2) := by
  unfold construct_makemkv
  rw [hp]
  simp only [bind, Except.bind]
  split
  · rfl
  · split
    · rfl
    · cases construct_makemkv_body heap self bd_path p.value _ outfile b <;> rfl

set_option maxRecDepth 100000 in
/-- C10, counterexample.  The playlist text `4294967295` consists of digits
and the provider has a record for every number, yet `construct_makemkv` returns
1: the parsed value is the one that `parse_playlist` uses to signal an
error. -/
theorem construct_makemkv_sentinel :
    (∀ c ∈ bytes "4294967295", is_digit c) ∧
    sample_disc sample_info (decimal_value (bytes "4294967295")) = some sample_info ∧
    construct_makemkv sample_heap sample_buf (lit "./bdtool") (lit "/mnt/bd")
        (sample_disc sample_info) (lit "4294967295") (lit "out.mkv") =
      .ok (1, sample_buf) := by
  refine ⟨by decide, rfl, by rfl⟩

/-- C10, amended.  For a playlist text `s`, `construct_makemkv` returns a
non-zero value exactly when `s` contains a character that is not a digit,
or the parsed number (the decimal value modulo `2^32`) is `2^32 - 1`, or the
provider has no record for the parsed number.  When none of these holds,
the buffer satisfies the invariant, writing the command does not fault on
the arguments (`construct_makemkv_text` yields a text `t`) and the text stays
below `APPEND_LIMIT`, the function returns 0 and has appended `t`. -/
theorem construct_makemkv_fails_iff (heap : Nat → Nat) (b : strbuf) (self bd_path : List Nat)
    (bd : BLURAY) (s outfile : List Nat) (h0 : ∀ c ∈ s, c ≠ 0) :
    ((∃ r b2, construct_makemkv heap b self bd_path bd (s ++ [0]) outfile = .ok (r, b2) ∧
        r ≠ 0) ↔
      ((∃ c ∈ s, ¬ is_digit c) ∨ decimal_value s % UINT32_MOD = UINT32_MOD - 1 ∨
        bd (decimal_value s % UINT32_MOD) = none)) ∧
    (∀ info t, (∀ c ∈ s, is_digit c) → decimal_value s % UINT32_MOD ≠ UINT32_MOD - 1 →
      bd (decimal_value s % UINT32_MOD) = some info → b.wf →
      construct_makemkv_text self bd_path (decimal_value s % UINT32_MOD) info outfile = .ok t →
      b.used_size + t.length < APPEND_LIMIT →
      ∃ b2, construct_makemkv heap b self bd_path bd (s ++ [0]) outfile = .ok (0, b2) ∧
        b2.content = b.content ++ t) := by
  have hbad : (∃ c ∈ s, ¬ is_digit c) →
      construct_makemkv heap b self bd_path bd (s ++ [0]) outfile = .ok (1, b) := by
    intro hnd
    obtain ⟨r, hparse⟩ := parse_playlist_nondigit s h0 hnd
    rw [construct_makemkv_parsed heap b self bd_path bd _ outfile _ hparse]
    simp
  have hgood : (∀ c ∈ s, is_digit c) →
      construct_makemkv heap b self bd_path bd (s ++ [0]) outfile =
        if decimal_value s % UINT32_MOD = UINT32_MOD - 1 then .ok (1, b)
        else match bd (decimal_value s % UINT32_MOD) with
          | none => .ok (1, b)
          | some info =>
            (construct_makemkv_body heap self bd_path (decimal_value s % UINT32_MOD) info
              outfile b).map fun b2 => (0, b2) := by
    intro hd
    rw [construct_makemkv_parsed heap b self bd_path bd _ outfile _
      (parse_playlist_digits s [] hd)]
  constructor
  · constructor
    · rintro ⟨r, b2, hrun, hr⟩
      by_cases hnd : ∃ c ∈ s, ¬ is_digit c
      · exact Or.inl hnd
      · have hd : ∀ c ∈ s, is_digit c := by
          intro c hc
          by_contra hn
          exact hnd ⟨c, hc, hn⟩
        rw [hgood hd] at hrun
        by_cases hs : decimal_value s % UINT32_MOD = UINT32_MOD - 1
        · exact Or.inr (Or.inl hs)
        · rw [if_neg hs] at hrun
          cases hi : bd (decimal_value s % UINT32_MOD) with
          | none => exact Or.inr (Or.inr rfl)
          | some info =>
            exfalso
            rw [hi] at hrun
            dsimp only at hrun
            cases hbody : construct_makemkv_body heap self bd_path
                (decimal_value s % UINT32_MOD) info outfile b with
            | error e => rw [hbody] at hrun; cases hrun
            | ok b3 =>
              rw [hbody] at hrun
              simp only [Except.map, Except.ok.injEq, Prod.mk.injEq] at hrun
              exact hr hrun.1.symm
    · intro hcase
      by_cases hnd : ∃ c ∈ s, ¬ is_digit c
      · exact ⟨1, b, hbad hnd, by decide⟩
      · have hd : ∀ c ∈ s, is_digit c := by
          intro c hc
          by_contra hn
          exact hnd ⟨c, hc, hn⟩
        rcases hcase with hnd2 | hs | hi
        · exact absurd hnd2 hnd
        · exact ⟨1, b, by rw [hgood hd, if_pos hs], by decide⟩
        · refine ⟨1, b, ?_, by decide⟩
          rw [hgood hd, hi]
          simp
  · intro info t hd hs hi hb ht hlim
    obtain ⟨a1, a2⟩ := construct_makemkv_body_appends heap self bd_path
      (decimal_value s % UINT32_MOD) info outfile b hb
    obtain ⟨b2, hrun⟩ := a2 t ht hlim
    obtain ⟨t2, ht2, _, e⟩ := a1 b2 hrun
    rw [ht] at ht2
    simp only [Except.ok.injEq] at ht2
    subst ht2
    refine ⟨b2, ?_, e⟩
    rw [hgood hd, if_neg hs, hi]
    dsimp only
    rw [hrun]
    rfl

set_option maxRecDepth 100000 in
/-- C10, witness: the playlist text `00001` on the sample title. -/
theorem construct_makemkv_fails_iff_witness :
    (decimal_value (bytes "00001") % UINT32_MOD = 1 ∧
      construct_makemkv sample_heap sample_buf (lit "./bdtool") (lit "/mnt/bd")
        (sample_disc sample_info) (bytes "00001" ++ [0]) (lit "out.mkv") =
        .ok (0, sample_out sample_info)) ∧
    (((∃ r b2, construct_makemkv sample_heap sample_buf (lit "./bdtool") (lit "/mnt/bd")
          (sample_disc sample_info) (bytes "00001" ++ [0]) (lit "out.mkv") = .ok (r, b2) ∧
          r ≠ 0) ↔
        ((∃ c ∈ bytes "00001", ¬ is_digit c) ∨
          decimal_value (bytes "00001") % UINT32_MOD = UINT32_MOD - 1 ∨
          sample_disc sample_info (decimal_value (bytes "00001") % UINT32_MOD) = none)) ∧
      (∀ info t, (∀ c ∈ bytes "00001", is_digit c) →
        decimal_value (bytes "00001") % UINT32_MOD ≠ UINT32_MOD - 1 →
        sample_disc sample_info (decimal_value (bytes "00001") % UINT32_MOD) = some info →
        sample_buf.wf →
        construct_makemkv_text (lit "./bdtool") (lit "/mnt/bd")
          (decimal_value (bytes "00001") % UINT32_MOD) info (lit "out.mkv") = .ok t →
        sample_buf.used_size + t.length < APPEND_LIMIT →
        ∃ b2, construct_makemkv sample_heap sample_buf (lit "./bdtool") (lit "/mnt/bd")
            (sample_disc sample_info) (bytes "00001" ++ [0]) (lit "out.mkv") = .ok (0, b2) ∧
          b2.content = sample_buf.content ++ t)) :=
  ⟨⟨by decide, by rfl⟩,
    construct_makemkv_fails_iff sample_heap sample_buf (lit "./bdtool") (lit "/mnt/bd")
      (sample_disc sample_info) (bytes "00001") (lit "out.mkv") (by decide)⟩

/-! ## A failed call leaves the buffer alone; long digit strings: claims C11 and C16 -/

/-- C11.  A call of `construct_makemkv` that returns a non-zero value returns
the buffer it was given, unchanged: the playlist text is parsed and looked up
before the first append.  This is what happens when the text contains a
character that is not a digit, when the parsed number is the error value
`2^32 - 1`, and when the provider has no record: the call returns 1 and the
same buffer. -/
theorem construct_makemkv_failure_keeps_buffer (heap : Nat → Nat) (b : strbuf)
    (self bd_path : List Nat) (bd : BLURAY) (s outfile : List Nat) (h0 : ∀ c ∈ s, c ≠ 0) :
    (∀ r b2, construct_makemkv heap b self bd_path bd (s ++ [0]) outfile = .ok (r, b2) →
      r ≠ 0 → b2 = b) ∧
    (((∃ c ∈ s, ¬ is_digit c) ∨ decimal_value s % UINT32_MOD = UINT32_MOD - 1 ∨
        bd (decimal_value s % UINT32_MOD) = none) →
      construct_makemkv heap b self bd_path bd (s ++ [0]) outfile = .ok (1, b)) := by
  by_cases hnd : ∃ c ∈ s, ¬ is_digit c
  · obtain ⟨rep, hparse⟩ := parse_playlist_nondigit s h0 hnd
    have hrun : construct_makemkv heap b self bd_path bd (s ++ [0]) outfile = .ok (1, b) := by
      rw [construct_makemkv_parsed heap b self bd_path bd _ outfile _ hparse]
      simp
    refine ⟨fun r b2 h _ => ?_, fun _ => hrun⟩
    rw [hrun] at h
    simp only [Except.ok.injEq, Prod.mk.injEq] at h
    exact h.2.symm
  · have hd : ∀ c ∈ s, is_digit c := by
      intro c hc
      by_contra hn
      exact hnd ⟨c, hc, hn⟩
    have hrun := construct_makemkv_parsed heap b self bd_path bd _ outfile _
      (parse_playlist_digits s [] hd)
    simp only at hrun
    by_cases hs : decimal_value s % UINT32_MOD = UINT32_MOD - 1
    · rw [if_pos hs] at hrun
      refine ⟨fun r b2 h _ => ?_, fun _ => hrun⟩
      rw [hrun] at h
      simp only [Except.ok.injEq, Prod.mk.injEq] at h
      exact h.2.symm
    · rw [if_neg hs] at hrun
      cases hi : bd (decimal_value s % UINT32_MOD) with
      | none =>
        rw [hi] at hrun
        refine ⟨fun r b2 h _ => ?_, fun _ => hrun⟩
        rw [hrun] at h
        simp only [Except.ok.injEq, Prod.mk.injEq] at h
        exact h.2.symm
      | some info =>
        rw [hi] at hrun
        dsimp only at hrun
        constructor
        · intro r b2 h hr
          rw [hrun] at h
          cases hbody : construct_makemkv_body heap self bd_path
              (decimal_value s % UINT32_MOD) info outfile b with
          | error e => rw [hbody] at h; cases h
          | ok b3 =>
            rw [hbody] at h
            simp only [Except.map, Except.ok.injEq, Prod.mk.injEq] at h
            exact absurd h.1.symm hr
        · intro hcase
          rcases hcase with h1 | h1 | h1
          · exact absurd h1 hnd
          · exact absurd h1 hs
          · cases h1

/-- C11, witness: the playlist text `12a3` leaves the sample buffer as it
was. -/
theorem construct_makemkv_failure_keeps_buffer_witness :
    construct_makemkv sample_heap sample_buf (lit "./bdtool") (lit "/mnt/bd")
        (sample_disc sample_info) (bytes "12a3" ++ [0]) (lit "out.mkv") = .ok (1, sample_buf) :=
  (construct_makemkv_failure_keeps_buffer sample_heap sample_buf (lit "./bdtool")
    (lit "/mnt/bd") (sample_disc sample_info) (bytes "12a3") (lit "out.mkv") (by decide)).2
    (Or.inl (by decide))

/-- C16.  For every string of digits, of any length, `parse_playlist` returns
the decimal value of the string reduced modulo `2^32` and reports nothing:
no string of digits is rejected. -/
theorem parse_playlist_modulo (d : List Nat) (hd : ∀ c ∈ d, is_digit c) :
    parse_playlist (d ++ [0]) =
      .ok { value := decimal_value d % UINT32_MOD, report := none } :=
  parse_playlist_digits d [] hd

/-- C16, witness: twenty nines give `10^20 - 1` modulo `2^32`. -/
theorem parse_playlist_modulo_witness :
    decimal_value (bytes "99999999999999999999") = 99999999999999999999 ∧
      parse_playlist (bytes "99999999999999999999" ++ [0]) =
        .ok { value := 99999999999999999999 % 4294967296, report := none } :=
  ⟨by decide, parse_playlist_modulo (bytes "99999999999999999999") (by decide)⟩

/-! ## The empty string and the trailing quote: claims C17 and C20 -/

theorem shellescape_text_empty (rest : List Nat) :
    shellescape_text (0 :: rest) = .ok [39, 39] := by
  unfold shellescape_text
  rw [List.length_cons, shellescape_loop_text]
  simp only [List.getElem?_cons_zero, if_pos, bind, Except.bind, text_append, strlen]
  rfl

/-- C17.  Applied to the empty string (an object that starts with the
terminator), `strbuf_append_shellescape` appends exactly the two bytes `''`: a run that
returns has appended them to the text of the buffer, and the run does
return when the buffer satisfies the invariant and stays below
`APPEND_LIMIT`. -/
theorem shellescape_empty_string (heap : Nat → Nat) (b : strbuf) (rest : List Nat)
    (hb : b.wf) :
    (∀ b2, strbuf_append_shellescape heap b (0 :: rest) = .ok b2 →
      b2.content = b.content ++ [39, 39]) ∧
    (b.used_size + 2 < APPEND_LIMIT →
      ∃ b2, strbuf_append_shellescape heap b (0 :: rest) = .ok b2 ∧
        b2.content = b.content ++ [39, 39]) := by
  have ht := shellescape_text_empty rest
  refine ⟨fun b2 h => shellescape_text_appended heap _ _ ht b b2 hb h, fun hlim => ?_⟩
  obtain ⟨b2, hrun⟩ := (shellescape_appends heap (0 :: rest) b hb).2 _ ht hlim
  exact ⟨b2, hrun, shellescape_text_appended heap _ _ ht b b2 hb hrun⟩

set_option maxRecDepth 100000 in
/-- C17, witness: the empty string appended to the sample buffer. -/
theorem shellescape_empty_string_witness :
    strbuf_append_shellescape sample_heap sample_buf (lit "") =
        .ok { allocated_size := 16, used_size := 2,
              str := [39, 39, 0, 170, 170, 170, 170, 170, 170, 170, 170, 170, 170, 170, 170, 0] } ∧
    ((∀ b2, strbuf_append_shellescape sample_heap sample_buf (0 :: []) = .ok b2 →
      b2.content = sample_buf.content ++ [39, 39]) ∧
    (sample_buf.used_size + 2 < APPEND_LIMIT →
      ∃ b2, strbuf_append_shellescape sample_heap sample_buf (0 :: []) = .ok b2 ∧
        b2.content = sample_buf.content ++ [39, 39])) :=
  ⟨by decide, shellescape_empty_string sample_heap sample_buf [] (by decide)⟩

/-- On an object that ends right after a quote and the terminator, the loop
of `strbuf_append_shellescape` reads outside the object. -/
theorem strbuf_append_shellescape_trailing_quote (heap : Nat → Nat) (b : strbuf) (hb : b.wf)
    (hlim : b.used_size + 6 < APPEND_LIMIT) :
    strbuf_append_shellescape heap b [39, 0] = .error .oob := by
  have hq : Writes (fun b => strbuf_append heap b (lit "'")) (bytes "'") :=
    Writes.append heap (lit "'") 1 (by decide)
  have hl : Writes (fun b => strbuf_append_len heap b [39, 0] 0) [] :=
    Writes.append_len heap [39, 0] 0 (by decide)
  have hr : Writes (fun b => strbuf_append heap b (lit "'\\''")) (bytes "'\\''") :=
    Writes.append heap (lit "'\\''") 4 (by decide)
  have hlenq : (bytes "'").length = 1 := by decide
  have hlenr : (bytes "'\\''").length = 4 := by decide
  obtain ⟨b1, h1⟩ := (hq b hb).2 (by rw [hlenq]; omega)
  obtain ⟨w1, c1⟩ := (hq b hb).1 b1 h1
  have u1 : b1.used_size = b.used_size + 1 := by
    rw [← strbuf.content_length b1 w1, c1, List.length_append, strbuf.content_length b hb,
      hlenq]
  obtain ⟨b2, h2⟩ := (hl b1 w1).2 (by simp only [List.length_nil]; omega)
  obtain ⟨w2, c2⟩ := (hl b1 w1).1 b2 h2
  have u2 : b2.used_size = b1.used_size := by
    rw [← strbuf.content_length b2 w2, c2, List.append_nil, strbuf.content_length b1 w1]
  obtain ⟨b3, h3⟩ := (hr b2 w2).2 (by rw [hlenr]; omega)
  beta_reduce at h1 h2 h3
  unfold strbuf_append_shellescape
  rw [h1]
  simp only [bind, Except.bind, List.length_cons, List.length_nil]
  rw [strbuf_append_shellescape_loop]
  simp only [List.getElem?_cons_zero]
  rw [if_pos trivial, h2]
  simp only [bind, Except.bind]
  rw [h3]
  simp only [strbuf_append_shellescape_loop]
  rfl

/-- C20 (the code departs from the claim).  On the string that consists of
one single quote, stored as the two bytes quote and terminator, the scan of
`strbuf_append_shellescape` reads the byte after the terminator: the run on a fresh buffer
ends in an out-of-bounds fault.  When the object goes on after the
terminator, the text appended depends on the bytes found there. -/
theorem shellescape_reads_past_terminator (heap : Nat → Nat) :
    (∃ b0, strbuf_alloc heap = .ok b0 ∧
      strbuf_append_shellescape heap b0 (lit "'") = .error .oob) ∧
    shellescape_text [39, 0, 65, 0] = .ok [39, 39, 92, 39, 39, 39] ∧
    shellescape_text [39, 0, 39, 66, 0] =
      .ok [39, 39, 92, 39, 39, 0, 39, 92, 39, 39, 66, 39] := by
  obtain ⟨b0, h0, w0, _, u0⟩ := strbuf_alloc_ok heap
  refine ⟨⟨b0, h0, ?_⟩, by decide, by decide⟩
  exact strbuf_append_shellescape_trailing_quote heap b0 w0 (by rw [u0]; decide)

/-! ## The chapter file: claim C12 -/

theorem print_chapters_loop_blocks (chapters : List BLURAY_TITLE_CHAPTER) :
    ∀ (rest done : List BLURAY_TITLE_CHAPTER) (out : List Nat), chapters = done ++ rest →
      print_chapters_loop chapters rest.length done.length out =
        .ok (out ++ (rest.map fun c =>
          chapter_block c.start ((c.start + c.duration) % UINT64_MOD)).flatten) := by
  intro rest
  induction rest with
  | nil =>
    intro done out _
    simp [print_chapters_loop]
  | cons c rest ih =>
    intro done out h
    have hc : chapters[done.length]? = some c := by
      rw [h, List.getElem?_append_right (le_refl _)]
      simp
    rw [List.length_cons, print_chapters_loop, hc]
    dsimp only
    have h2 : chapters = (done ++ [c]) ++ rest := by rw [h]; simp
    have hl : (done ++ [c]).length = done.length + 1 := by simp
    rw [← hl, ih (done ++ [c]) _ h2]
    congr 1
    have e1 : bytes "[CHAPTER]\n" = text_line (bytes "[CHAPTER]") := by decide
    have e2 : bytes "TIMEBASE=1/90000\n" = text_line (bytes "TIMEBASE=1/90000") := by decide
    have e3 : bytes "\n" = [10] := by decide
    rw [e1, e2, e3]
    simp only [List.map_cons, List.flatten_cons, chapter_block, text_line, List.append_assoc,
      List.nil_append]

/-- C12, counterexample.  For a chapter that starts at `2^64 - 1` and lasts
one tick, `print_chapters_ffmpeg` prints `END=0`, whereas start plus duration is
`18446744073709551616`. -/
theorem print_chapters_ffmpeg_end_wraps :
    print_chapters_ffmpeg (sample_disc sample_info_late) (lit "00001") =
      .ok (0, bytes (";FFMETADATA\n\n[CHAPTER]\nTIMEBASE=1/90000\n" ++
        "START=18446744073709551615\nEND=0\n\n")) ∧
    fmt_dec (18446744073709551615 + 1) = bytes "18446744073709551616" ∧
    print_chapters_ffmpeg (sample_disc sample_info_late) (lit "00001") ≠
      .ok (0, text_line (bytes ";FFMETADATA") ++ text_line [] ++
        chapter_block 18446744073709551615 (18446744073709551615 + 1)) := by
  decide

/-- C12, amended.  When the playlist text parses to a number that the
provider knows, with `chapter_count` chapters in the chapter list,
`print_chapters_ffmpeg` returns 0 and prints exactly the line `;FFMETADATA`, a blank
line, and then one block per chapter, in the order of the list: `[CHAPTER]`,
`TIMEBASE=1/90000`, `START=<start>`, `END=<start + duration modulo 2^64>`,
blank line, the numbers in decimal. -/
theorem print_chapters_ffmpeg_output (bd : BLURAY) (playlist : List Nat) (p : ParseResult)
    (info : BLURAY_TITLE_INFO) (hp : parse_playlist playlist = .ok p)
    (hs : p.value ≠ UINT32_MOD - 1) (hi : bd p.value = some info)
    (hn : info.chapter_count = info.chapters.length) :
    print_chapters_ffmpeg bd playlist =
      .ok (0, text_line (bytes ";FFMETADATA") ++ text_line [] ++
        (info.chapters.map fun c =>
          chapter_block c.start ((c.start + c.duration) % UINT64_MOD)).flatten) := by
  unfold print_chapters_ffmpeg
  rw [hp]
  simp only [bind, Except.bind]
  rw [if_neg hs, hi]
  dsimp only
  have hloop := print_chapters_loop_blocks info.chapters info.chapters []
    (bytes ";FFMETADATA\n\n") rfl
  rw [List.length_nil] at hloop
  rw [hn, hloop]
  rfl

/-- C12, witness: the chapters `(0, 900000)` and `(900000, 450000)` give
`START=0`, `END=900000` and then `START=900000`, `END=1350000`. -/
theorem print_chapters_ffmpeg_output_witness :
    print_chapters_ffmpeg (sample_disc sample_info_chapters) (lit "00001") =
      .ok (0, bytes (";FFMETADATA\n\n" ++
        "[CHAPTER]\nTIMEBASE=1/90000\nSTART=0\nEND=900000\n\n" ++
        "[CHAPTER]\nTIMEBASE=1/90000\nSTART=900000\nEND=1350000\n\n")) :=
  print_chapters_ffmpeg_output (sample_disc sample_info_chapters) (lit "00001")
    { value := 1, report := none } sample_info_chapters (by decide) (by decide) rfl rfl

/-! ## Growth of the buffer and sequences of appends: claims C13, C14, C15 and C18 -/

/-- Without wrap-around, the loop of `strbuf_ensure_space` returns the first value of the
sequence `n`, `2 n + 16`, `2 (2 n + 16) + 16`, … that leaves room for the
request: the value `m` with `m + 16 = 2 ^ k * (n + 16)` for the least `k`
that is enough. -/
theorem strbuf_ensure_space_loop_growth (used space : Nat)
    (hsp : used + space ≤ APPEND_LIMIT) :
    ∀ fuel n, used < n → n + sizeof_strbuf < SIZE_MOD →
      SIZE_MOD ≤ (n + sizeof_strbuf) * 2 ^ fuel →
      ∃ k m, strbuf_ensure_space_loop used space fuel n = .ok m ∧
        m + sizeof_strbuf = 2 ^ k * (n + sizeof_strbuf) ∧ used + space ≤ m ∧
        m + sizeof_strbuf < SIZE_MOD ∧
        ∀ j, j < k → 2 ^ j * (n + sizeof_strbuf) < used + space + sizeof_strbuf := by
  have hs := SIZE_MOD_eq
  have hz := sizeof_strbuf_eq
  have hl := APPEND_LIMIT_eq
  intro fuel
  induction fuel with
  | zero =>
    intro n _ h2 h3
    simp only [pow_zero, mul_one] at h3
    omega
  | succ fuel ih =>
    intro n h1 h2 h3
    unfold strbuf_ensure_space_loop
    have hsub : (n + SIZE_MOD - used) % SIZE_MOD = n - used := by
      have : n + SIZE_MOD - used = (n - used) + SIZE_MOD := by omega
      rw [this, Nat.add_mod_right]
      exact Nat.mod_eq_of_lt (by omega)
    rw [hsub]
    by_cases c : n - used < space
    · rw [if_pos c]
      have hmod : (n * 2 + sizeof_strbuf) % SIZE_MOD = n * 2 + sizeof_strbuf :=
        Nat.mod_eq_of_lt (by omega)
      rw [hmod]
      have hh : (n * 2 + sizeof_strbuf + sizeof_strbuf) * 2 ^ fuel =
          (n + sizeof_strbuf) * 2 ^ (fuel + 1) := by
        rw [hz]; ring
      obtain ⟨k, m, e1, e2, e3, e4, e5⟩ := ih (n * 2 + sizeof_strbuf) (by omega) (by omega)
        (by rw [hh]; exact h3)
      have hstep : ∀ j, 2 ^ j * (n * 2 + sizeof_strbuf + sizeof_strbuf) =
          2 ^ (j + 1) * (n + sizeof_strbuf) := by
        intro j; rw [hz]; ring
      refine ⟨k + 1, m, e1, by rw [e2, hstep], e3, e4, ?_⟩
      intro j hj
      cases j with
      | zero => simp only [pow_zero, one_mul]; omega
      | succ j =>
        rw [← hstep]
        exact e5 j (by omega)
    · rw [if_neg c]
      exact ⟨0, n, rfl, by simp, by omega, h2, fun j hj => by omega⟩

/-- Without wrap-around, `strbuf_ensure_space` returns a buffer whose capacity `m` is the
first value of the sequence `c`, `2 c + 16`, … that holds the text and the
request, and the buffer is the old one when that value is `c` itself. -/
theorem strbuf_ensure_space_growth (heap : Nat → Nat) (b : strbuf) (space : Nat) (hb : b.wf)
    (hsp : b.used_size + space ≤ APPEND_LIMIT) :
    ∃ k b1, strbuf_ensure_space heap b space = .ok b1 ∧
      b1.allocated_size + sizeof_strbuf = 2 ^ k * (b.allocated_size + sizeof_strbuf) ∧
      b.used_size + space ≤ b1.allocated_size ∧
      (∀ j, j < k →
        2 ^ j * (b.allocated_size + sizeof_strbuf) < b.used_size + space + sizeof_strbuf) ∧
      (k = 0 → b1 = b) := by
  have hs := SIZE_MOD_eq
  have hz := sizeof_strbuf_eq
  obtain ⟨h1, h2, h3, _⟩ := hb
  obtain ⟨k, m, hm, e2, e3, e4, e5⟩ := strbuf_ensure_space_loop_growth b.used_size space hsp
    66 b.allocated_size h1 h3 (by rw [hs, hz]; omega)
  have hge : b.allocated_size + sizeof_strbuf ≤ m + sizeof_strbuf := by
    rw [e2]
    exact Nat.le_mul_of_pos_left _ (by positivity)
  unfold strbuf_ensure_space
  rw [hm]
  simp only [bind, Except.bind]
  by_cases c : m = b.allocated_size
  · rw [if_neg (by simpa using c)]
    refine ⟨k, b, rfl, by rw [c] at e2; exact e2, by omega, e5, fun _ => rfl⟩
  · rw [if_pos c]
    unfold strbuf_realloc
    dsimp only
    have hm0 : (if m = 0 then 1 else m) = m := by
      rw [if_neg]; omega
    rw [hm0, if_neg (by omega)]
    refine ⟨k, _, rfl, e2, e3, e5, fun hk => ?_⟩
    exfalso
    rw [hk] at e2
    simp only [pow_zero, one_mul] at e2
    omega

theorem strbuf_append_len_write_allocated (b1 b2 : strbuf) (str : List Nat) (len : Nat)
    (h : strbuf_append_len_write b1 str len = .ok b2) :
    b2.allocated_size = b1.allocated_size := by
  unfold strbuf_append_len_write at h
  split at h
  · cases h
  · split at h
    · cases h
    · dsimp only at h
      split at h
      · cases h
      · simp only [Except.ok.injEq] at h
        rw [← h]

theorem strbuf_append_vprintf_write_allocated (b1 b2 : strbuf) (out : List Nat)
    (h : strbuf_append_vprintf_write b1 out = .ok b2) :
    b2.allocated_size = b1.allocated_size := by
  unfold strbuf_append_vprintf_write at h
  dsimp only at h
  split at h
  · cases h
  · simp only [Except.ok.injEq] at h
    rw [← h]

theorem strlen_of_mem (s : List Nat) (h : 0 ∈ s) : ∃ n, strlen s = .ok n := by
  induction s with
  | nil => simp at h
  | cons c rest ih =>
    unfold strlen
    by_cases hc : c = 0
    · rw [if_pos hc]; exact ⟨0, rfl⟩
    · rw [if_neg hc]
      have : 0 ∈ rest := by
        rcases List.mem_cons.1 h with h | h
        · exact absurd h.symm hc
        · exact h
      obtain ⟨n, hn⟩ := ih this
      rw [hn]
      exact ⟨n + 1, rfl⟩

/-- A call with valid arguments writes its fragment. -/
theorem AppendCall.writes (heap : Nat → Nat) (c : AppendCall) (hv : c.valid) :
    Writes (fun b => c.run heap b) c.fragment := by
  cases c with
  | append_len str len => exact Writes.append_len heap str len hv
  | append str =>
    obtain ⟨n, hn⟩ := strlen_of_mem str hv
    exact Writes.append heap str n hn
  | append_printf out => exact Writes.printf heap out hv

/-- The space that a call asks `strbuf_ensure_space` for is the length of its fragment
plus one, and the capacity it leaves is the one `strbuf_ensure_space` returned. -/
theorem AppendCall.run_eq (heap : Nat → Nat) (c : AppendCall) (hv : c.valid) (b b2 : strbuf)
    (hlim : b.used_size + c.fragment.length < APPEND_LIMIT)
    (h : c.run heap b = .ok b2) :
    ∃ b1, strbuf_ensure_space heap b (c.fragment.length + 1) = .ok b1 ∧
      b2.allocated_size = b1.allocated_size := by
  have hs := SIZE_MOD_eq
  have hl := APPEND_LIMIT_eq
  have hmod : (c.fragment.length + 1) % SIZE_MOD = c.fragment.length + 1 :=
    Nat.mod_eq_of_lt (by omega)
  cases c with
  | append_len str len =>
    have hf : (AppendCall.append_len str len).fragment.length = len := by
      simp only [AppendCall.fragment, List.length_take]
      exact Nat.min_eq_left hv
    rw [hf] at hmod ⊢
    simp only [AppendCall.run, strbuf_append_len] at h
    rw [bind_eq_ok, hmod] at h
    obtain ⟨b1, h1, h2⟩ := h
    exact ⟨b1, h1, strbuf_append_len_write_allocated _ _ _ _ h2⟩
  | append str =>
    obtain ⟨n, hn⟩ := strlen_of_mem str hv
    obtain ⟨_, e2, _⟩ := strlen_ok str n hn
    have hf : (AppendCall.append str).fragment.length = n := by
      simp only [AppendCall.fragment, ← e2, List.length_take]
      have := (strlen_ok str n hn).1
      omega
    rw [hf] at hmod ⊢
    simp only [AppendCall.run, strbuf_append] at h
    rw [hn] at h
    simp only [bind, Except.bind, strbuf_append_len] at h
    rw [hmod] at h
    cases h1 : strbuf_ensure_space heap b (n + 1) with
    | error e => rw [h1] at h; cases h
    | ok b1 =>
      rw [h1] at h
      exact ⟨b1, rfl, strbuf_append_len_write_allocated _ _ _ _ h⟩
  | append_printf out =>
    have hf : (AppendCall.append_printf out).fragment.length = out.length := rfl
    rw [hf] at hmod ⊢
    simp only [AppendCall.run, strbuf_append_printf, strbuf_append_vprintf] at h
    rw [if_neg (show ¬ 2 ^ 31 ≤ out.length from Nat.not_le.2 hv), bind_eq_ok, hmod] at h
    obtain ⟨b1, h1, h2⟩ := h
    exact ⟨b1, h1, strbuf_append_vprintf_write_allocated _ _ _ h2⟩

/-- The buffer that `strbuf_alloc` returns is empty and has a capacity of 16 bytes. -/
theorem strbuf_alloc_fresh (heap : Nat → Nat) :
    ∃ b0, strbuf_alloc heap = .ok b0 ∧ b0.wf ∧ b0.used_size = 0 ∧ b0.allocated_size = 16 := by
  obtain ⟨b0, h, hw, _, hu⟩ := strbuf_alloc_ok heap
  refine ⟨b0, h, hw, hu, ?_⟩
  have e : strbuf_alloc heap = .ok
      { allocated_size := 16, used_size := 0,
        str := ((List.map (fun k => heap (0 + k)) (List.range 16)).set 15 0).set 0 0 } := rfl
  rw [e] at h
  simp only [Except.ok.injEq] at h
  rw [← h]

/-- One call with valid arguments on a buffer below the limit: it returns, the invariant
holds afterwards, the fragment is appended, and the capacity `m` is the
first value of `c`, `2 c + 16`, … that holds the new text and its
terminator. -/
theorem AppendCall.step (heap : Nat → Nat) (c : AppendCall) (b : strbuf) (hb : b.wf)
    (hv : c.valid) (hlim : b.used_size + c.fragment.length < APPEND_LIMIT) :
    ∃ k b2, c.run heap b = .ok b2 ∧ b2.wf ∧ b2.content = b.content ++ c.fragment ∧
      b2.used_size = b.used_size + c.fragment.length ∧
      b2.allocated_size + sizeof_strbuf = 2 ^ k * (b.allocated_size + sizeof_strbuf) ∧
      b.used_size + c.fragment.length + 1 ≤ b2.allocated_size ∧
      (∀ j, j < k → 2 ^ j * (b.allocated_size + sizeof_strbuf) <
        b.used_size + c.fragment.length + 1 + sizeof_strbuf) ∧
      (k = 0 → b2.allocated_size = b.allocated_size) := by
  obtain ⟨hpart, htot⟩ := AppendCall.writes heap c hv b hb
  obtain ⟨b2, h2⟩ := htot hlim
  obtain ⟨hw2, hc2⟩ := hpart b2 h2
  obtain ⟨b1, h1, ha⟩ := AppendCall.run_eq heap c hv b b2 hlim h2
  obtain ⟨k, b1', h1', e1, e2, e3, e4⟩ :=
    strbuf_ensure_space_growth heap b (c.fragment.length + 1) hb (by omega)
  rw [h1] at h1'
  simp only [Except.ok.injEq] at h1'
  subst h1'
  have hu : b2.used_size = b.used_size + c.fragment.length := by
    rw [← strbuf.content_length b2 hw2, hc2, List.length_append, strbuf.content_length b hb]
  refine ⟨k, b2, h2, hw2, hc2, hu, by rw [ha]; exact e1, by rw [ha]; omega, ?_, ?_⟩
  · intro j hj
    have := e3 j hj
    omega
  · intro hk
    rw [ha, e4 hk]

/-- A sequence of calls with valid arguments writes the concatenation of the fragments. -/
theorem run_calls_writes (heap : Nat → Nat) :
    ∀ calls : List AppendCall, (∀ c ∈ calls, c.valid) →
      Writes (run_calls heap calls) (calls.map AppendCall.fragment).flatten := by
  intro calls
  induction calls with
  | nil => intro _; exact Writes.ok_nil
  | cons c rest ih =>
    intro hv
    have h1 := AppendCall.writes heap c (hv c (List.mem_cons_self _ _))
    have h2 := ih (fun d hd => hv d (List.mem_cons_of_mem _ hd))
    exact Writes.seq h1 h2

/-- Counting the reallocations of a sequence of calls with valid arguments, started on a
buffer whose capacity is at most twice the text plus 16: each reallocation
at least doubles the capacity plus 16, and the capacity stays at most twice
the text plus 16. -/
theorem count_reallocs_bound (heap : Nat → Nat) :
    ∀ (calls : List AppendCall) (b : strbuf), b.wf → (∀ c ∈ calls, c.valid) →
      b.used_size + (calls.map fun c => c.fragment.length).sum < APPEND_LIMIT →
      b.allocated_size ≤ 2 * b.used_size + sizeof_strbuf →
      ∃ k b2, count_reallocs heap calls b = .ok (k, b2) ∧ run_calls heap calls b = .ok b2 ∧
        2 ^ k * (b.allocated_size + sizeof_strbuf) ≤ b2.allocated_size + sizeof_strbuf ∧
        b2.allocated_size ≤ 2 * b2.used_size + sizeof_strbuf ∧
        b2.used_size = b.used_size + (calls.map fun c => c.fragment.length).sum := by
  have hz := sizeof_strbuf_eq
  intro calls
  induction calls with
  | nil =>
    intro b _ _ _ hcap
    exact ⟨0, b, rfl, rfl, by simp, hcap, by simp⟩
  | cons c rest ih =>
    intro b hb hv hlim hcap
    simp only [List.map_cons, List.sum_cons] at hlim ⊢
    obtain ⟨j, b1, h1, hw1, _, hu1, ha1, hn1, hmin, hsame⟩ :=
      AppendCall.step heap c b hb (hv c (List.mem_cons_self _ _)) (by omega)
    have hcap1 : b1.allocated_size ≤ 2 * b1.used_size + sizeof_strbuf := by
      cases j with
      | zero => rw [hsame rfl, hu1]; omega
      | succ j =>
        have := hmin j (by omega)
        have e : b1.allocated_size + sizeof_strbuf =
            2 * (2 ^ j * (b.allocated_size + sizeof_strbuf)) := by rw [ha1]; ring
        generalize 2 ^ j * (b.allocated_size + sizeof_strbuf) = x at this e
        omega
    obtain ⟨k, b2, h2, hr2, hk2, hc2, hu2⟩ := ih b1 hw1
      (fun d hd => hv d (List.mem_cons_of_mem _ hd)) (by omega) hcap1
    have hrun : run_calls heap (c :: rest) b = .ok b2 := by
      show (c.run heap b >>= fun b1 => run_calls heap rest b1) = .ok b2
      rw [h1]; exact hr2
    have hcount : count_reallocs heap (c :: rest) b =
        .ok ((if b1.allocated_size ≠ b.allocated_size then 1 else 0) + k, b2) := by
      show (c.run heap b >>= fun b1 => count_reallocs heap rest b1 >>= fun r =>
        Except.ok ((if b1.allocated_size ≠ b.allocated_size then 1 else 0) + r.1, r.2)) = _
      rw [h1]
      show (count_reallocs heap rest b1 >>= fun r =>
        Except.ok ((if b1.allocated_size ≠ b.allocated_size then 1 else 0) + r.1, r.2)) = _
      rw [h2]
      rfl
    refine ⟨_, b2, hcount, hrun, ?_, hc2, by omega⟩
    by_cases hne : b1.allocated_size ≠ b.allocated_size
    · rw [if_pos hne]
      have hj : 1 ≤ j := by
        rcases Nat.eq_zero_or_pos j with h0 | h0
        · exact absurd (hsame h0) hne
        · exact h0
      have hdouble : 2 * (b.allocated_size + sizeof_strbuf) ≤
          b1.allocated_size + sizeof_strbuf := by
        rw [ha1]
        exact Nat.mul_le_mul_right _ (by
          calc 2 = 2 ^ 1 := rfl
            _ ≤ 2 ^ j := Nat.pow_le_pow_right (by decide) hj)
      calc 2 ^ (1 + k) * (b.allocated_size + sizeof_strbuf)
          = 2 ^ k * (2 * (b.allocated_size + sizeof_strbuf)) := by ring
        _ ≤ 2 ^ k * (b1.allocated_size + sizeof_strbuf) := Nat.mul_le_mul_left _ hdouble
        _ ≤ _ := hk2
    · rw [if_neg hne]
      have he : b1.allocated_size = b.allocated_size := not_not.1 hne
      rw [← he, Nat.zero_add]
      exact hk2

/-- C13: for every sequence of appends (`strbuf_append_len`, `strbuf_append`,
`strbuf_append_printf`, each with arguments the C function can be called
with) applied to the buffer that `strbuf_alloc` returns, a final buffer
holds exactly the concatenation of the fragments in call order and its
`used_size` is the sum of their lengths; and the calls do return a final
buffer while that sum is below `APPEND_LIMIT`. -/
theorem run_calls_concatenation (heap : Nat → Nat) (calls : List AppendCall)
    (hv : ∀ c ∈ calls, c.valid) :
    ∃ b0, strbuf_alloc heap = .ok b0 ∧
      (∀ b, run_calls heap calls b0 = .ok b →
        b.content = (calls.map AppendCall.fragment).flatten ∧
        b.used_size = (calls.map fun c => c.fragment.length).sum) ∧
      ((calls.map fun c => c.fragment.length).sum < APPEND_LIMIT →
        ∃ b, run_calls heap calls b0 = .ok b) := by
  obtain ⟨b0, h0, hw0, hc0, hu0⟩ := strbuf_alloc_ok heap
  obtain ⟨hpart, htot⟩ := run_calls_writes heap calls hv b0 hw0
  have hlen : ((calls.map AppendCall.fragment).flatten).length =
      (calls.map fun c => c.fragment.length).sum := by
    rw [List.length_flatten, List.map_map]
    rfl
  refine ⟨b0, h0, ?_, ?_⟩
  · intro b hb
    obtain ⟨hw, hc⟩ := hpart b hb
    rw [hc0, List.nil_append] at hc
    exact ⟨hc, by rw [← strbuf.content_length b hw, hc, hlen]⟩
  · intro hL
    exact htot (by rw [hu0, hlen]; omega)

/-- Witness of C13: the three sample calls append `-map 0:i:0x1011 -c copy `, `ffmpeg ` and
`spl`, 34 bytes in all. -/
theorem run_calls_concatenation_witness :
    (∀ c ∈ sample_calls, c.valid) ∧
      (sample_calls.map AppendCall.fragment).flatten =
        bytes "-map 0:i:0x1011 -c copy ffmpeg spl" ∧
      (sample_calls.map fun c => c.fragment.length).sum = 34 ∧
      ∃ b0, strbuf_alloc sample_heap = .ok b0 ∧
        (∀ b, run_calls sample_heap sample_calls b0 = .ok b →
          b.content = (sample_calls.map AppendCall.fragment).flatten ∧
          b.used_size = (sample_calls.map fun c => c.fragment.length).sum) ∧
        ((sample_calls.map fun c => c.fragment.length).sum < APPEND_LIMIT →
          ∃ b, run_calls sample_heap sample_calls b0 = .ok b) :=
  ⟨by decide, by decide, by decide,
    run_calls_concatenation sample_heap sample_calls (by decide)⟩

/-- C14: the buffer that `strbuf_alloc` returns satisfies the invariant
(`used_size < allocated_size`, the array has `allocated_size` bytes and the
byte at index `used_size` is 0), and every append with valid arguments on a
buffer that satisfies it can only return a buffer that satisfies it; the
model faults on a write outside the array, and below `APPEND_LIMIT` the
append returns, so that every write it made was inside. -/
theorem strbuf_invariant (heap : Nat → Nat) (c : AppendCall) (b : strbuf) (hb : b.wf)
    (hv : c.valid) :
    (∃ b0, strbuf_alloc heap = .ok b0 ∧ b0.wf ∧ b0.used_size < b0.allocated_size ∧
      b0.str.length = b0.allocated_size ∧ b0.str[b0.used_size]? = some 0) ∧
    (∀ b2, c.run heap b = .ok b2 → b2.wf ∧ b2.used_size < b2.allocated_size ∧
      b2.str.length = b2.allocated_size ∧ b2.str[b2.used_size]? = some 0) ∧
    (b.used_size + c.fragment.length < APPEND_LIMIT → ∃ b2, c.run heap b = .ok b2) := by
  obtain ⟨b0, h0, hw0, _, _⟩ := strbuf_alloc_ok heap
  obtain ⟨hpart, htot⟩ := AppendCall.writes heap c hv b hb
  refine ⟨⟨b0, h0, hw0, hw0.1, hw0.2.1, hw0.2.2.2⟩, ?_, htot⟩
  intro b2 h2
  obtain ⟨hw, _⟩ := hpart b2 h2
  exact ⟨hw, hw.1, hw.2.1, hw.2.2.2⟩

/-- Witness of C14: appending the C string `ffmpeg ` to the sample buffer. -/
theorem strbuf_invariant_witness :
    sample_buf.wf ∧ (AppendCall.append (lit "ffmpeg ")).valid ∧
    (∃ b0, strbuf_alloc sample_heap = .ok b0 ∧ b0.wf ∧ b0.used_size < b0.allocated_size ∧
      b0.str.length = b0.allocated_size ∧ b0.str[b0.used_size]? = some 0) ∧
    (∀ b2, (AppendCall.append (lit "ffmpeg ")).run sample_heap sample_buf = .ok b2 →
      b2.wf ∧ b2.used_size < b2.allocated_size ∧
      b2.str.length = b2.allocated_size ∧ b2.str[b2.used_size]? = some 0) ∧
    (sample_buf.used_size + (AppendCall.append (lit "ffmpeg ")).fragment.length < APPEND_LIMIT →
      ∃ b2, (AppendCall.append (lit "ffmpeg ")).run sample_heap sample_buf = .ok b2) :=
  ⟨by decide, by decide,
    strbuf_invariant sample_heap (.append (lit "ffmpeg ")) sample_buf (by decide) (by decide)⟩

/-- C15, counterexample: appending 20 bytes to the empty buffer of capacity 16 needs 21
bytes and grows the capacity to 48, which is not `max 21 (2 * 16) = 32`. -/
theorem strbuf_append_len_growth_not_max :
    sample_buf.wf ∧ sample_buf.allocated_size = 16 ∧ sample_buf.used_size + 20 + 1 = 21 ∧
    ∃ b2, strbuf_append_len sample_heap sample_buf (bytes "01234567890123456789") 20 = .ok b2 ∧
      b2.allocated_size = 48 ∧
      b2.allocated_size ≠ max (sample_buf.used_size + 20 + 1) (2 * sample_buf.allocated_size) :=
  ⟨by decide, rfl, rfl, _, rfl, rfl, by decide⟩

/-- C15, amended: when an append with valid arguments has to grow a buffer of capacity
`c` (below `APPEND_LIMIT`, where `size_t` does not wrap), the capacity
after the growth is `2 ^ k * (c + 16) - 16` for the least `k ≥ 1` for which
this holds the needed bytes: the first of `2 c + 16`, `2 (2 c + 16) + 16`,
… that is at least `needed`, and so at least `max needed (2 c + 16)`. -/
theorem append_growth_capacity (heap : Nat → Nat) (c : AppendCall) (b : strbuf) (hb : b.wf)
    (hv : c.valid) (hlim : b.used_size + c.fragment.length < APPEND_LIMIT)
    (hg : b.allocated_size < b.used_size + c.fragment.length + 1) :
    ∃ k b2, c.run heap b = .ok b2 ∧ 1 ≤ k ∧
      b2.allocated_size + sizeof_strbuf = 2 ^ k * (b.allocated_size + sizeof_strbuf) ∧
      (∀ j, j < k → 2 ^ j * (b.allocated_size + sizeof_strbuf) <
        b.used_size + c.fragment.length + 1 + sizeof_strbuf) ∧
      max (b.used_size + c.fragment.length + 1) (2 * b.allocated_size + sizeof_strbuf) ≤
        b2.allocated_size := by
  have hz := sizeof_strbuf_eq
  obtain ⟨k, b2, h2, _, _, _, ha, hn, hmin, hsame⟩ := AppendCall.step heap c b hb hv hlim
  have hk : 1 ≤ k := by
    rcases Nat.eq_zero_or_pos k with h0 | h0
    · have := hsame h0
      omega
    · exact h0
  refine ⟨k, b2, h2, hk, ha, hmin, max_le hn ?_⟩
  have hdouble : 2 * (b.allocated_size + sizeof_strbuf) ≤ b2.allocated_size + sizeof_strbuf := by
    rw [ha]
    exact Nat.mul_le_mul_right _ (by
      calc 2 = 2 ^ 1 := rfl
        _ ≤ 2 ^ k := Nat.pow_le_pow_right (by decide) hk)
  omega

/-- Witness of C15, amended: appending 20 bytes to the empty buffer of capacity 16. -/
theorem append_growth_capacity_witness :
    sample_buf.wf ∧ (AppendCall.append_len (bytes "01234567890123456789") 20).valid ∧
    ∃ k b2, (AppendCall.append_len (bytes "01234567890123456789") 20).run
        sample_heap sample_buf = .ok b2 ∧ 1 ≤ k ∧
      b2.allocated_size + sizeof_strbuf = 2 ^ k * (sample_buf.allocated_size + sizeof_strbuf) ∧
      (∀ j, j < k → 2 ^ j * (sample_buf.allocated_size + sizeof_strbuf) <
        sample_buf.used_size +
          (AppendCall.append_len (bytes "01234567890123456789") 20).fragment.length + 1 +
          sizeof_strbuf) ∧
      max (sample_buf.used_size +
          (AppendCall.append_len (bytes "01234567890123456789") 20).fragment.length + 1)
        (2 * sample_buf.allocated_size + sizeof_strbuf) ≤ b2.allocated_size :=
  ⟨by decide, by decide,
    append_growth_capacity sample_heap (.append_len (bytes "01234567890123456789") 20)
      sample_buf (by decide) (by decide) (by decide) (by decide)⟩

/-- C18: on a buffer that satisfies the invariant and for a request that stays below
`APPEND_LIMIT` (no `size_t` overflow), `strbuf_ensure_space` returns; it
changes the capacity only when the free space is smaller than the request,
leaves the buffer as it is otherwise, and a changed capacity is at least
twice the old one. A sequence of appends with valid arguments of total
length `L` to the buffer of `strbuf_alloc` makes at most
`Nat.log 2 (L / 16 + 1)` reallocations. -/
theorem strbuf_ensure_space_doubles (heap : Nat → Nat) (b : strbuf) (space : Nat)
    (calls : List AppendCall) (hb : b.wf) (hsp : b.used_size + space ≤ APPEND_LIMIT)
    (hv : ∀ c ∈ calls, c.valid)
    (hL : (calls.map fun c => c.fragment.length).sum < APPEND_LIMIT) :
    (∃ b1, strbuf_ensure_space heap b space = .ok b1 ∧
      (b1.allocated_size ≠ b.allocated_size → b.allocated_size - b.used_size < space) ∧
      (space ≤ b.allocated_size - b.used_size → b1 = b) ∧
      (b1.allocated_size ≠ b.allocated_size → 2 * b.allocated_size ≤ b1.allocated_size)) ∧
    (∃ b0 k b2, strbuf_alloc heap = .ok b0 ∧ count_reallocs heap calls b0 = .ok (k, b2) ∧
      k ≤ Nat.log 2 ((calls.map fun c => c.fragment.length).sum / 16 + 1)) := by
  have hz := sizeof_strbuf_eq
  constructor
  · obtain ⟨k, b1, h1, e1, _, e3, e4⟩ := strbuf_ensure_space_growth heap b space hb hsp
    have hfree : 1 ≤ k → b.allocated_size - b.used_size < space := by
      intro hk
      have := e3 0 (by omega)
      simp only [pow_zero, one_mul] at this
      have := hb.1
      omega
    have hk : b1.allocated_size ≠ b.allocated_size → 1 ≤ k := by
      intro hne
      rcases Nat.eq_zero_or_pos k with h0 | h0
      · exact absurd (by rw [e4 h0]) hne
      · exact h0
    refine ⟨b1, h1, fun hne => hfree (hk hne), ?_, ?_⟩
    · intro hroom
      rcases Nat.eq_zero_or_pos k with h0 | h0
      · exact e4 h0
      · have := hfree h0
        omega
    · intro hne
      have hdouble : 2 * (b.allocated_size + sizeof_strbuf) ≤
          b1.allocated_size + sizeof_strbuf := by
        rw [e1]
        exact Nat.mul_le_mul_right _ (by
          calc 2 = 2 ^ 1 := rfl
            _ ≤ 2 ^ k := Nat.pow_le_pow_right (by decide) (hk hne))
      omega
  · obtain ⟨b0, h0, hw0, hu0, ha0⟩ := strbuf_alloc_fresh heap
    obtain ⟨k, b2, hcount, _, hk, hcap, hu⟩ := count_reallocs_bound heap calls b0 hw0 hv
      (by rw [hu0]; omega) (by rw [ha0, hu0, hz])
    refine ⟨b0, k, b2, h0, hcount, Nat.le_log_of_pow_le (by decide) ?_⟩
    rw [ha0, hz] at hk
    rw [hu0, Nat.zero_add] at hu
    rw [hu, hz] at hcap
    have h16 : 2 ^ k * 16 ≤ (calls.map fun c => c.fragment.length).sum + 16 := by omega
    have : 2 ^ k ≤ ((calls.map fun c => c.fragment.length).sum + 16) / 16 :=
      (Nat.le_div_iff_mul_le (by decide)).2 h16
    omega

/-- Witness of C18: a request of 21 bytes on the empty buffer of capacity 16, and the three
sample calls, which append 34 bytes and reallocate once. -/
theorem strbuf_ensure_space_doubles_witness :
    sample_buf.wf ∧ sample_buf.used_size + 21 ≤ APPEND_LIMIT ∧
    (∀ c ∈ sample_calls, c.valid) ∧
    (sample_calls.map fun c => c.fragment.length).sum < APPEND_LIMIT ∧
    Nat.log 2 ((sample_calls.map fun c => c.fragment.length).sum / 16 + 1) = 1 ∧
    (∃ b1, strbuf_ensure_space sample_heap sample_buf 21 = .ok b1 ∧
      (b1.allocated_size ≠ sample_buf.allocated_size →
        sample_buf.allocated_size - sample_buf.used_size < 21) ∧
      (21 ≤ sample_buf.allocated_size - sample_buf.used_size → b1 = sample_buf) ∧
      (b1.allocated_size ≠ sample_buf.allocated_size →
        2 * sample_buf.allocated_size ≤ b1.allocated_size)) ∧
    (∃ b0 k b2, strbuf_alloc sample_heap = .ok b0 ∧
      count_reallocs sample_heap sample_calls b0 = .ok (k, b2) ∧
      k ≤ Nat.log 2 ((sample_calls.map fun c => c.fragment.length).sum / 16 + 1)) :=
  ⟨by decide, by decide, by decide, by decide,
    by simp [sample_calls, AppendCall.fragment, bytes, lit, cstr, Nat.log],
    strbuf_ensure_space_doubles sample_heap sample_buf 21 sample_calls
      (by decide) (by decide) (by decide) (by decide)⟩

/-! ## Language codes are written as they are: claim C19 -/

set_option maxRecDepth 100000 in
/-- C19, counterexample.  Two titles with the same stream counts (one video
stream), the same language-presence flags and no chapters, whose language
codes are the printable codes `abc` and `a b`: `construct_makemkv` returns 0
on both, the first command line splits into 15 words with the word
`language=abc`, the second into 16 words, `language=a` and `b` among them,
and none of them is `language=a b`.  With the output path of two adjacent
single quotes the command line leaves a quote open. -/
theorem construct_makemkv_language_unescaped :
    construct_makemkv sample_heap sample_buf (lit "./bdtool") (lit "/mnt/bd")
        (sample_disc sample_info_word) (lit "00001") (lit "out.mkv") =
      .ok (0, sample_out sample_info_word) ∧
    construct_makemkv sample_heap sample_buf (lit "./bdtool") (lit "/mnt/bd")
        (sample_disc sample_info_blank) (lit "00001") (lit "out.mkv") =
      .ok (0, sample_out sample_info_blank) ∧
    (sample_out sample_info_blank).content =
      bytes ("ffmpeg -i <('./bdtool' '/mnt/bd' splice 1) -map 0:i:0x1011 -c copy " ++
        "-disposition:v:0 default -metadata:v:0 language=a b 'out.mkv'") ∧
    shell_words (sample_out sample_info_word).content =
      some [bytes "ffmpeg", bytes "-i", bytes "<(./bdtool", bytes "/mnt/bd", bytes "splice",
        bytes "1)", bytes "-map", bytes "0:i:0x1011", bytes "-c", bytes "copy",
        bytes "-disposition:v:0", bytes "default", bytes "-metadata:v:0",
        bytes "language=abc", bytes "out.mkv"] ∧
    shell_words (sample_out sample_info_blank).content =
      some [bytes "ffmpeg", bytes "-i", bytes "<(./bdtool", bytes "/mnt/bd", bytes "splice",
        bytes "1)", bytes "-map", bytes "0:i:0x1011", bytes "-c", bytes "copy",
        bytes "-disposition:v:0", bytes "default", bytes "-metadata:v:0",
        bytes "language=a", bytes "b", bytes "out.mkv"] ∧
    (shell_words (sample_out sample_info_word).content).map List.length = some 15 ∧
    (shell_words (sample_out sample_info_blank).content).map List.length = some 16 ∧
    (∀ ws, shell_words (sample_out sample_info_blank).content = some ws →
      bytes "language=a b" ∉ ws) ∧
    (construct_makemkv sample_heap sample_buf (lit "./bdtool") (lit "/mnt/bd")
        (sample_disc sample_info_word) (lit "00001") (lit "''")).map
      (fun r => (r.1, shell_words r.2.content)) = .ok (0, none) := by
  have c1 : (sample_out sample_info_word).content =
      bytes ("ffmpeg -i <('./bdtool' '/mnt/bd' splice 1) -map 0:i:0x1011 -c copy " ++
        "-disposition:v:0 default -metadata:v:0 language=abc 'out.mkv'") := by decide
  have c2 : (sample_out sample_info_blank).content =
      bytes ("ffmpeg -i <('./bdtool' '/mnt/bd' splice 1) -map 0:i:0x1011 -c copy " ++
        "-disposition:v:0 default -metadata:v:0 language=a b 'out.mkv'") := by decide
  have w1 : shell_words (sample_out sample_info_word).content =
      some [bytes "ffmpeg", bytes "-i", bytes "<(./bdtool", bytes "/mnt/bd", bytes "splice",
        bytes "1)", bytes "-map", bytes "0:i:0x1011", bytes "-c", bytes "copy",
        bytes "-disposition:v:0", bytes "default", bytes "-metadata:v:0",
        bytes "language=abc", bytes "out.mkv"] := by rw [c1]; decide
  have w2 : shell_words (sample_out sample_info_blank).content =
      some [bytes "ffmpeg", bytes "-i", bytes "<(./bdtool", bytes "/mnt/bd", bytes "splice",
        bytes "1)", bytes "-map", bytes "0:i:0x1011", bytes "-c", bytes "copy",
        bytes "-disposition:v:0", bytes "default", bytes "-metadata:v:0",
        bytes "language=a", bytes "b", bytes "out.mkv"] := by rw [c2]; decide
  have c3 : (construct_makemkv sample_heap sample_buf (lit "./bdtool") (lit "/mnt/bd")
        (sample_disc sample_info_word) (lit "00001") (lit "''")).map
      (fun r => (r.1, r.2.content)) = .ok (0,
        bytes ("ffmpeg -i <('./bdtool' '/mnt/bd' splice 1) -map 0:i:0x1011 -c copy " ++
        "-disposition:v:0 default -metadata:v:0 language=abc ''\\''''")) := by decide
  refine ⟨by rfl, by rfl, c2, w1, w2, ?_, ?_, ?_, ?_⟩
  · rw [w1]; rfl
  · rw [w2]; rfl
  · intro ws h
    rw [w2] at h
    simp only [Option.some.injEq] at h
    subst h
    decide
  · cases h : construct_makemkv sample_heap sample_buf (lit "./bdtool") (lit "/mnt/bd")
        (sample_disc sample_info_word) (lit "00001") (lit "''") with
    | error e => rw [h] at c3; cases c3
    | ok r =>
      rw [h] at c3
      simp only [Except.map, Except.ok.injEq, Prod.mk.injEq] at c3 ⊢
      refine ⟨c3.1, ?_⟩
      rw [c3.2]
      decide

/-! ## How the command line splits into words: claim C19 -/

theorem shell_words_from_char (cur : Option (List Nat)) (c : Nat) (rest : List Nat)
    (h : word_char c) :
    shell_words_from false cur (c :: rest) =
      shell_words_from false (some (cur.getD [] ++ [c])) rest := by
  obtain ⟨h1, h2, h3, h4, h5⟩ := h
  rw [shell_words_from.eq_def]
  simp [h1, h2, h3, h4, h5]

theorem shell_words_from_blank (w rest : List Nat) :
    shell_words_from false (some w) (32 :: rest) =
      (shell_words_from false none rest).map (w :: ·) := by
  rw [shell_words_from.eq_def]
  simp

theorem shell_words_from_open (cur : Option (List Nat)) (rest : List Nat) :
    shell_words_from false cur (39 :: rest) =
      shell_words_from true (some (cur.getD [])) rest := by
  rw [shell_words_from.eq_def]
  simp

theorem shell_words_from_escaped (cur : Option (List Nat)) (d : Nat) (rest : List Nat) :
    shell_words_from false cur (92 :: d :: rest) =
      shell_words_from false (some (cur.getD [] ++ [d])) rest := by
  rw [shell_words_from.eq_def]
  simp

theorem shell_words_from_quoted (cur : Option (List Nat)) (c : Nat) (rest : List Nat) :
    shell_words_from true cur (c :: rest) =
      if c = 39 then shell_words_from false cur rest
      else shell_words_from true (some (cur.getD [] ++ [c])) rest := by
  rw [shell_words_from]

/-- Characters outside quotes that are no quote, backslash or blank join the word in
progress. -/
theorem shell_words_from_chars :
    ∀ (w u rest : List Nat), (∀ c ∈ w, word_char c) →
      shell_words_from false (some u) (w ++ rest) =
        shell_words_from false (some (u ++ w)) rest := by
  intro w
  induction w with
  | nil => intro u rest _; simp
  | cons c w ih =>
    intro u rest h
    rw [List.cons_append, shell_words_from_char _ c _ (h c (List.mem_cons_self _ _)),
      ih _ _ (fun d hd => h d (List.mem_cons_of_mem _ hd))]
    simp

theorem Word.chars (w : List Nat) (hne : w ≠ []) (h : ∀ c ∈ w, word_char c) : Word w w := by
  intro cur rest
  cases w with
  | nil => exact absurd rfl hne
  | cons c w =>
    rw [List.cons_append, shell_words_from_char _ c _ (h c (List.mem_cons_self _ _)),
      shell_words_from_chars w _ rest (fun d hd => h d (List.mem_cons_of_mem _ hd))]
    simp

theorem Word.join {p q v w : List Nat} (hp : Word p v) (hq : Word q w) :
    Word (p ++ q) (v ++ w) := by
  intro cur rest
  rw [List.append_assoc, hp cur (q ++ rest), hq _ rest]
  simp

/-- Inside quotes, the body of the reference transform of `t` and the closing quote add
`t` to the word in progress. -/
theorem shell_words_from_reference :
    ∀ (t u rest : List Nat),
      shell_words_from true (some u)
          ((t.map fun c => if c = 39 then [39, 92, 39, 39] else [c]).flatten ++ 39 :: rest) =
        shell_words_from false (some (u ++ t)) rest := by
  intro t
  induction t with
  | nil =>
    intro u rest
    simp [shell_words_from_quoted]
  | cons c t ih =>
    intro u rest
    by_cases hc : c = 39
    · subst hc
      simp only [List.map_cons, List.flatten_cons, if_true, List.cons_append, List.nil_append,
        List.append_assoc]
      rw [shell_words_from_quoted, if_pos rfl, shell_words_from_escaped,
        shell_words_from_open]
      simp only [Option.getD_some]
      rw [ih]
      simp
    · simp only [List.map_cons, List.flatten_cons, if_neg hc, List.cons_append,
        List.nil_append, List.append_assoc]
      rw [shell_words_from_quoted, if_neg hc]
      simp only [Option.getD_some]
      rw [ih]
      simp

/-- The reference transform of `t` reads as the characters of `t`. -/
theorem Word.reference (t : List Nat) : Word (shellescape_reference t) t := by
  intro cur rest
  unfold shellescape_reference
  simp only [List.cons_append, List.nil_append, List.append_assoc]
  rw [shell_words_from_open, shell_words_from_reference]

theorem Line.nil : Line [] [] := by
  intro rest
  simp

theorem Line.word {p w : List Nat} (h : Word p w) : Line (p ++ [32]) [w] := by
  intro rest
  rw [List.append_assoc, h none, List.singleton_append, shell_words_from_blank]
  simp

theorem Line.concat {t u : List Nat} {vs ws : List (List Nat)} (ht : Line t vs)
    (hu : Line u ws) : Line (t ++ u) (vs ++ ws) := by
  intro rest
  rw [List.append_assoc, ht (u ++ rest), hu rest, Option.map_map]
  congr 1
  funext x
  simp

/-- A text that reads as the words `ws`, followed by a text that reads as the word `w`,
splits into `ws` and `w`. -/
theorem Line.words_of {t p w : List Nat} {ws : List (List Nat)} (ht : Line t ws)
    (hp : Word p w) : shell_words (t ++ p) = some (ws ++ [w]) := by
  unfold shell_words
  have h := hp none []
  rw [List.append_nil] at h
  rw [ht p, h]
  simp [shell_words_from]

theorem quote_safe_tail (c : Nat) (t : List Nat) (h : quote_safe (c :: t)) : quote_safe t := by
  cases t with
  | nil => trivial
  | cons d rest => exact h.2

theorem reference_body_plain (t : List Nat) (h : ∀ c ∈ t, c ≠ 39) :
    (t.map fun c => if c = 39 then [39, 92, 39, 39] else [c]).flatten = t := by
  induction t with
  | nil => rfl
  | cons c t ih =>
    have hc : c ≠ 39 := h c (List.mem_cons_self _ _)
    simp only [List.map_cons, List.flatten_cons, if_neg hc, List.singleton_append]
    rw [ih (fun d hd => h d (List.mem_cons_of_mem _ hd))]

theorem reference_body_append (t u : List Nat) :
    ((t ++ u).map fun c => if c = 39 then [39, 92, 39, 39] else [c]).flatten =
      (t.map fun c => if c = 39 then [39, 92, 39, 39] else [c]).flatten ++
        (u.map fun c => if c = 39 then [39, 92, 39, 39] else [c]).flatten := by
  simp

theorem index_after_prefix (pre : List Nat) (c : Nat) (rest : List Nat) :
    (pre ++ c :: rest)[pre.length]? = some c := by
  induction pre with
  | nil => simp
  | cons d pre ih => simpa using ih

/-- On a string in which no quote is directly followed by a quote or by the terminator,
the scan of `strbuf_append_shellescape` ends at the terminator, and the
text it appends together with the rest it leaves is the body of the
reference transform.  `pre` is the part of the current piece already
passed, `u` the part of the string still to scan. -/
theorem shellescape_loop_text_safe :
    ∀ (n : Nat) (u pre junk : List Nat) (fuel : Nat), u.length ≤ n → u.length < fuel →
      (∀ c ∈ pre, c ≠ 0) → (∀ c ∈ pre, c ≠ 39) → (∀ c ∈ u, c ≠ 0) → quote_safe u →
      ∃ e s2, shellescape_loop_text fuel (pre ++ u ++ 0 :: junk) pre.length = .ok (e, s2) ∧
        0 ∈ s2 ∧
        e ++ cstr s2 =
          ((pre ++ u).map fun c => if c = 39 then [39, 92, 39, 39] else [c]).flatten := by
  intro n
  induction n with
  | zero =>
    intro u pre junk fuel hn hf hp0 hpq _ _
    have hu : u = [] := List.length_eq_zero.1 (Nat.le_zero.1 hn)
    subst hu
    cases fuel with
    | zero => simp at hf
    | succ fuel =>
      unfold shellescape_loop_text
      have hget : (pre ++ [] ++ 0 :: junk)[pre.length]? = some 0 := by
        rw [List.append_nil]; exact index_after_prefix pre 0 junk
      rw [hget]
      dsimp only
      rw [if_pos rfl]
      refine ⟨[], _, rfl, by simp, ?_⟩
      rw [List.append_nil, List.nil_append, cstr_terminated pre junk hp0,
        reference_body_plain pre hpq]
  | succ n ih =>
    intro u pre junk fuel hn hf hp0 hpq hu0 hq
    cases u with
    | nil => exact ih [] pre junk fuel (Nat.zero_le _) hf hp0 hpq hu0 hq
    | cons c u =>
      cases fuel with
      | zero => simp at hf
      | succ fuel =>
        have hc0 : c ≠ 0 := hu0 c (List.mem_cons_self _ _)
        have hu0t : ∀ d ∈ u, d ≠ 0 := fun d hd => hu0 d (List.mem_cons_of_mem _ hd)
        simp only [List.length_cons, Nat.add_lt_add_iff_right, Nat.add_le_add_iff_right]
          at hn hf
        unfold shellescape_loop_text
        have hget : (pre ++ c :: u ++ 0 :: junk)[pre.length]? = some c := by
          rw [List.append_assoc, List.cons_append]; exact index_after_prefix pre c _
        rw [hget]
        dsimp only
        rw [if_neg hc0]
        by_cases hc : c = 39
        · subst hc
          rw [if_pos rfl]
          cases u with
          | nil => exact absurd rfl hq
          | cons d u =>
            have hd39 : d ≠ 39 := hq.1 rfl
            have hd0 : d ≠ 0 := hu0t d (List.mem_cons_self _ _)
            have hdrop : (pre ++ 39 :: d :: u ++ 0 :: junk).drop (pre.length + 1) =
                [d] ++ u ++ 0 :: junk := by
              rw [List.append_assoc, List.drop_append_eq_append_drop]
              simp
            have htake : (pre ++ 39 :: d :: u ++ 0 :: junk).take pre.length = pre := by
              rw [List.append_assoc, List.take_left]
            simp only [List.length_cons] at hn hf
            obtain ⟨e, s2, hrun, hz, he⟩ := ih u [d] junk fuel (by omega) (by omega)
              (by simpa using hd0) (by simpa using hd39)
              (fun x hx => hu0t x (List.mem_cons_of_mem _ hx))
              (quote_safe_tail d u hq.2)
            rw [hdrop]
            have hlen : [d].length = 0 + 1 := rfl
            rw [← hlen, hrun]
            simp only [bind, Except.bind]
            refine ⟨_, s2, rfl, hz, ?_⟩
            rw [htake, List.append_assoc, List.append_assoc, he, reference_body_append,
              reference_body_append, reference_body_plain pre hpq]
            simp [bytes]
        · rw [if_neg hc]
          have hs : pre ++ c :: u ++ 0 :: junk = (pre ++ [c]) ++ u ++ 0 :: junk := by simp
          have hl : pre.length + 1 = (pre ++ [c]).length := by simp
          rw [hs, hl]
          obtain ⟨e, s2, hrun, hz, he⟩ := ih u (pre ++ [c]) junk fuel hn hf
            (by
              intro x hx
              rcases List.mem_append.1 hx with h | h
              · exact hp0 x h
              · rw [List.mem_singleton.1 h]; exact hc0)
            (by
              intro x hx
              rcases List.mem_append.1 hx with h | h
              · exact hpq x h
              · rw [List.mem_singleton.1 h]; exact hc)
            hu0t (quote_safe_tail c u hq)
          refine ⟨e, s2, hrun, hz, ?_⟩
          rw [he]
          simp

/-- An object that holds a terminator is its text, the terminator and the bytes after
it. -/
theorem cstr_split (s : List Nat) (h : 0 ∈ s) :
    ∃ junk, s = cstr s ++ 0 :: junk ∧ ∀ c ∈ cstr s, c ≠ 0 := by
  induction s with
  | nil => simp at h
  | cons c rest ih =>
    by_cases hc : c = 0
    · subst hc
      exact ⟨rest, by simp [cstr], by simp [cstr]⟩
    · have hm : 0 ∈ rest := by
        rcases List.mem_cons.1 h with h | h
        · exact absurd h.symm hc
        · exact h
      obtain ⟨junk, e1, e2⟩ := ih hm
      have hcs : cstr (c :: rest) = c :: cstr rest := by
        simp only [cstr]
        rw [List.takeWhile_cons_of_pos (by simpa using hc)]
      refine ⟨junk, ?_, ?_⟩
      · rw [hcs, List.cons_append, ← e1]
      · intro x hx
        rw [hcs] at hx
        rcases List.mem_cons.1 hx with h | h
        · rw [h]; exact hc
        · exact e2 x h

/-- On a C string in which no quote is directly followed by a quote or by the end,
`strbuf_append_shellescape` appends the reference transform of the string. -/
theorem shellescape_text_safe (s : List Nat) (h0 : 0 ∈ s) (hq : quote_safe (cstr s)) :
    shellescape_text s = .ok (shellescape_reference (cstr s)) := by
  obtain ⟨junk, hs, hz⟩ := cstr_split s h0
  have hlen : (cstr s).length < s.length + 1 := by
    have := congrArg List.length hs
    simp only [List.length_append, List.length_cons] at this
    omega
  obtain ⟨e, s2, hrun, hz2, he⟩ := shellescape_loop_text_safe (cstr s).length (cstr s) []
    junk (s.length + 1) (le_refl _) hlen (by simp) (by simp) hz hq
  rw [List.nil_append, ← hs] at hrun
  rw [List.nil_append] at he
  obtain ⟨k, hk⟩ := strlen_of_mem s2 hz2
  unfold shellescape_text
  rw [show ([] : List Nat).length = 0 from rfl] at hrun
  rw [hrun]
  simp only [bind, Except.bind, text_append]
  rw [hk]
  simp only [bind, Except.bind]
  unfold shellescape_reference
  rw [← he]
  simp [bytes]

theorem digitChar_word_char (d : Nat) (h : d < 16) : word_char (Nat.digitChar d).toNat := by
  interval_cases d <;> decide

theorem toDigitsCore_word_char (b : Nat) (h0 : 0 < b) (h16 : b ≤ 16) :
    ∀ (fuel n : Nat) (acc : List Char), (∀ c ∈ acc, word_char c.toNat) →
      ∀ c ∈ Nat.toDigitsCore b fuel n acc, word_char c.toNat := by
  intro fuel
  induction fuel with
  | zero => intro n acc h; simpa [Nat.toDigitsCore] using h
  | succ fuel ih =>
    intro n acc h
    have hacc : ∀ c ∈ Nat.digitChar (n % b) :: acc, word_char c.toNat := by
      intro c hc
      rcases List.mem_cons.1 hc with h1 | h1
      · rw [h1]
        exact digitChar_word_char _ (Nat.lt_of_lt_of_le (Nat.mod_lt _ h0) h16)
      · exact h c h1
    unfold Nat.toDigitsCore
    dsimp only
    split
    · exact hacc
    · exact ih _ _ hacc

/-- The digits that `%u` and `%d` render join the word in progress. -/
theorem fmt_dec_word_char (n : Nat) : ∀ c ∈ fmt_dec n, word_char c := by
  intro c hc
  simp only [fmt_dec, List.mem_map] at hc
  obtain ⟨x, hx, rfl⟩ := hc
  exact toDigitsCore_word_char 10 (by decide) (by decide) _ _ [] (by simp) x hx

/-- The digits that `%x` renders join the word in progress. -/
theorem fmt_hex_word_char (n : Nat) : ∀ c ∈ fmt_hex n, word_char c := by
  intro c hc
  simp only [fmt_hex, List.mem_map] at hc
  obtain ⟨x, hx, rfl⟩ := hc
  exact toDigitsCore_word_char 16 (by decide) (by decide) _ _ [] (by simp) x hx

theorem word_char_of_not_special (c : Nat) (h : ¬ shell_special c) : word_char c := by
  unfold shell_special at h
  simp only [List.mem_cons, List.mem_singleton, List.not_mem_nil, or_false, not_or] at h
  unfold word_char
  omega

theorem word_char_append {v w : List Nat} (hv : ∀ c ∈ v, word_char c)
    (hw : ∀ c ∈ w, word_char c) : ∀ c ∈ v ++ w, word_char c := by
  intro c hc
  rcases List.mem_append.1 hc with h | h
  · exact hv c h
  · exact hw c h

/-- A word of characters that are no quote, backslash or blank, followed by a
space. -/
theorem Line.single (w : List Nat) (hne : w ≠ []) (h : ∀ c ∈ w, word_char c) :
    Line (w ++ [32]) [w] :=
  Line.word (Word.chars w hne h)

/-- One input source reads as five words: `-i`, `<(` joined to the program, the disc, the
command and the playlist number joined to `)`. -/
theorem input_clause_line (self bd_path : List Nat) (command : String) (n : Nat)
    (hne : bytes command ≠ []) (hc : ∀ c ∈ bytes command, word_char c) :
    Line (input_clause (shellescape_reference self) (shellescape_reference bd_path) command n)
      (input_words self bd_path command n) := by
  have e : input_clause (shellescape_reference self) (shellescape_reference bd_path)
      command n =
      (bytes "-i" ++ [32]) ++ ((bytes "<(" ++ shellescape_reference self) ++ [32]) ++
        (shellescape_reference bd_path ++ [32]) ++ (bytes command ++ [32]) ++
        ((fmt_dec n ++ bytes ")") ++ [32]) := by
    unfold input_clause
    have e1 : bytes "-i <(" = bytes "-i" ++ [32] ++ bytes "<(" := by decide
    have e2 : bytes " " = [32] := by decide
    have e3 : bytes ") " = bytes ")" ++ [32] := by decide
    rw [e1, e2, e3]
    simp only [List.append_assoc]
  rw [e]
  exact Line.concat (Line.concat (Line.concat (Line.concat
    (Line.single (bytes "-i") (by decide) (by decide))
    (Line.word (Word.join (Word.chars (bytes "<(") (by decide) (by decide))
      (Word.reference self))))
    (Line.word (Word.reference bd_path)))
    (Line.single (bytes command) hne hc))
    (Line.single (fmt_dec n ++ bytes ")") (by simp [bytes])
      (word_char_append (fmt_dec_word_char n) (by decide)))

/-- The head of the command line reads as `ffmpeg`, the words of the input source, and
with chapters the words of the chapter source and `-map_chapters`, `1`. -/
theorem command_head_line (self bd_path : List Nat) (n : Nat) (info : BLURAY_TITLE_INFO) :
    Line (command_head (shellescape_reference self) (shellescape_reference bd_path) n info)
      ([bytes "ffmpeg"] ++ input_words self bd_path "splice" n ++
        (if info.chapter_count > 0 then
          input_words self bd_path "print-ff-chapters" n ++ [bytes "-map_chapters", bytes "1"]
        else [])) := by
  unfold command_head
  have e1 : bytes "ffmpeg " = bytes "ffmpeg" ++ [32] := by decide
  have e2 : bytes "-map_chapters 1 " = (bytes "-map_chapters" ++ [32]) ++ (bytes "1" ++ [32]) := by
    decide
  refine Line.concat (Line.concat ?_ (input_clause_line self bd_path "splice" n (by decide)
    (by decide))) ?_
  · rw [e1]
    exact Line.single (bytes "ffmpeg") (by decide) (by decide)
  · by_cases h : info.chapter_count > 0
    · rw [if_pos h, if_pos h, e2]
      exact Line.concat (input_clause_line self bd_path "print-ff-chapters" n (by decide)
        (by decide))
        (Line.concat (Line.single (bytes "-map_chapters") (by decide) (by decide))
          (Line.single (bytes "1") (by decide) (by decide)))
    · rw [if_neg h, if_neg h]
      exact Line.nil

/-- The selection clause reads as four words. -/
theorem map_clause_line (pid : Nat) :
    Line (map_clause pid)
      [bytes "-map", bytes "0:i:0x" ++ fmt_hex pid, bytes "-c", bytes "copy"] := by
  have e : map_clause pid = (bytes "-map" ++ [32]) ++ ((bytes "0:i:0x" ++ fmt_hex pid) ++ [32]) ++
      (bytes "-c" ++ [32]) ++ (bytes "copy" ++ [32]) := by
    unfold map_clause
    have e1 : bytes "-map 0:i:0x" = bytes "-map" ++ [32] ++ bytes "0:i:0x" := by decide
    have e2 : bytes " -c copy " = [32] ++ bytes "-c" ++ [32] ++ bytes "copy" ++ [32] := by decide
    rw [e1, e2]
    simp only [List.append_assoc]
  rw [e]
  exact Line.concat (Line.concat (Line.concat
    (Line.single (bytes "-map") (by decide) (by decide))
    (Line.single (bytes "0:i:0x" ++ fmt_hex pid) (by simp [bytes])
      (word_char_append (by decide) (fmt_hex_word_char pid))))
    (Line.single (bytes "-c") (by decide) (by decide)))
    (Line.single (bytes "copy") (by decide) (by decide))

/-- A disposition clause reads as two words. -/
theorem disposition_line (head value : String) (i : Nat) (hhne : bytes head ≠ [])
    (hh : ∀ c ∈ bytes head, word_char c) (hne : bytes value ≠ [])
    (hv : ∀ c ∈ bytes value, word_char c) :
    Line (bytes head ++ fmt_dec i ++ ([32] ++ bytes value ++ [32]))
      [bytes head ++ fmt_dec i, bytes value] := by
  have e : bytes head ++ fmt_dec i ++ ([32] ++ bytes value ++ [32]) =
      ((bytes head ++ fmt_dec i) ++ [32]) ++ (bytes value ++ [32]) := by
    simp only [List.append_assoc]
  rw [e]
  refine Line.concat (Line.single _ ?_ (word_char_append hh (fmt_dec_word_char i)))
    (Line.single _ hne hv)
  intro h
  exact hhne (List.append_eq_nil.1 h).1

theorem video_disposition_line (i : Nat) : Line (video_disposition i) (video_words i) := by
  unfold video_disposition video_words
  have e1 : bytes " default " = [32] ++ bytes "default" ++ [32] := by decide
  have e2 : bytes " 0 " = [32] ++ bytes "0" ++ [32] := by decide
  by_cases h : i = 0
  · rw [if_pos h, if_pos h, e1]
    exact disposition_line "-disposition:v:" "default" i (by decide) (by decide) (by decide)
      (by decide)
  · rw [if_neg h, if_neg h, e2]
    exact disposition_line "-disposition:v:" "0" i (by decide) (by decide) (by decide)
      (by decide)

theorem audio_disposition_line (i : Nat) : Line (audio_disposition i) (audio_words i) := by
  unfold audio_disposition audio_words
  have e2 : bytes " 0 " = [32] ++ bytes "0" ++ [32] := by decide
  rw [e2]
  exact disposition_line "-disposition:a:" "0" i (by decide) (by decide) (by decide)
    (by decide)

theorem pg_disposition_line (i : Nat) : Line (pg_disposition i) (pg_words i) := by
  unfold pg_disposition pg_words
  have e2 : bytes " 0 " = [32] ++ bytes "0" ++ [32] := by decide
  rw [e2]
  exact disposition_line "-disposition:s:" "0" i (by decide) (by decide) (by decide)
    (by decide)

/-- A language clause whose code holds no character that the shell treats specially reads
as two words, the second of them `language=` joined to the code. -/
theorem language_clause_line (tag : String) (i : Nat) (code : List Nat)
    (ht : ∀ c ∈ bytes tag, word_char c) (hc : ∀ c ∈ code, word_char c) :
    Line (language_clause tag i code)
      [bytes "-metadata:" ++ bytes tag ++ bytes ":" ++ fmt_dec i, bytes "language=" ++ code] := by
  have e : language_clause tag i code =
      ((bytes "-metadata:" ++ bytes tag ++ bytes ":" ++ fmt_dec i) ++ [32]) ++
        ((bytes "language=" ++ code) ++ [32]) := by
    unfold language_clause
    have e1 : bytes " language=" = [32] ++ bytes "language=" := by decide
    have e2 : bytes " " = [32] := by decide
    rw [e1, e2]
    simp only [List.append_assoc]
  rw [e]
  exact Line.concat
    (Line.single _ (by simp [bytes])
      (word_char_append (word_char_append (word_char_append (by decide) ht) (by decide))
        (fmt_dec_word_char i)))
    (Line.single _ (by simp [bytes]) (word_char_append (by decide) hc))

/-- The clauses of the streams of one kind read as the words of `kind_words`, when the
language codes hold no quote, backslash or blank. -/
theorem kind_clauses_line (disp : Nat → List Nat) (dw : Nat → List (List Nat)) (tag : String)
    (hd : ∀ i, Line (disp i) (dw i)) (ht : ∀ c ∈ bytes tag, word_char c) :
    ∀ (l : List BLURAY_STREAM_INFO) (i : Nat),
      (∀ s ∈ l, ∀ c ∈ cstr s.lang, word_char c) →
      Line ((kind_clauses disp tag i l).map StreamClauses.text).flatten
        (kind_words dw tag i l) := by
  intro l
  induction l with
  | nil => intro i _; exact Line.nil
  | cons s l ih =>
    intro i hl
    have e1 : ((kind_clauses disp tag i (s :: l)).map StreamClauses.text).flatten =
        (map_clause s.pid ++ disp i ++
          (if cstr s.lang = [] then [] else language_clause tag i (cstr s.lang))) ++
        ((kind_clauses disp tag (i + 1) l).map StreamClauses.text).flatten := by
      simp [kind_clauses, List.enumFrom_cons, StreamClauses.text]
    have e2 : kind_words dw tag i (s :: l) =
        stream_words (dw i) tag i s ++ kind_words dw tag (i + 1) l := by
      simp [kind_words, List.enumFrom_cons]
    rw [e1, e2]
    refine Line.concat ?_ (ih (i + 1) (fun x hx => hl x (List.mem_cons_of_mem _ hx)))
    unfold stream_words
    refine Line.concat (Line.concat (map_clause_line s.pid) (hd i)) ?_
    by_cases h : cstr s.lang = []
    · rw [if_pos h, if_pos h]
      exact Line.nil
    · rw [if_neg h, if_neg h]
      exact language_clause_line tag i (cstr s.lang) ht (hl s (List.mem_cons_self _ _))

/-- The number of words of the streams of one kind: six for each stream and two more for
each language code. -/
theorem kind_words_length (dw : Nat → List (List Nat)) (tag : String)
    (hd : ∀ i, (dw i).length = 2) :
    ∀ (l : List BLURAY_STREAM_INFO) (i : Nat),
      (kind_words dw tag i l).length = 6 * l.length + 2 * language_count l := by
  intro l
  induction l with
  | nil => intro i; rfl
  | cons s l ih =>
    intro i
    have e2 : kind_words dw tag i (s :: l) =
        stream_words (dw i) tag i s ++ kind_words dw tag (i + 1) l := by
      simp [kind_words, List.enumFrom_cons]
    rw [e2, List.length_append, ih (i + 1)]
    unfold stream_words language_count
    by_cases h : cstr s.lang = []
    · rw [if_pos h, List.filter_cons_of_neg (by simpa using h)]
      simp only [List.length_append, List.length_cons, List.length_nil, hd i]
      omega
    · rw [if_neg h, List.filter_cons_of_pos (by simpa using h)]
      simp only [List.length_append, List.length_cons, List.length_nil, hd i]
      omega

/-- The number of words of the command line. -/
theorem command_words_length (self bd_path : List Nat) (n : Nat) (info : BLURAY_TITLE_INFO)
    (clip : BLURAY_CLIP_INFO) (outfile : List Nat) :
    (command_words self bd_path n info clip outfile).length =
      7 + (if info.chapter_count > 0 then 7 else 0) +
        6 * (clip.video_streams.length + clip.audio_streams.length + clip.pg_streams.length) +
        2 * (language_count clip.video_streams + language_count clip.audio_streams +
          language_count clip.pg_streams) := by
  unfold command_words
  simp only [List.length_append,
    kind_words_length video_words "v" (fun _ => rfl),
    kind_words_length audio_words "s:a" (fun _ => rfl),
    kind_words_length pg_words "s:s" (fun _ => rfl)]
  by_cases h : info.chapter_count > 0
  · rw [if_pos h, if_pos h]
    simp only [input_words, List.length_append, List.length_cons, List.length_nil]
    omega
  · rw [if_neg h, if_neg h]
    simp only [input_words, List.length_cons, List.length_nil]
    omega

/-- The command line of quoted paths and plain language codes splits into the words of
`command_words`. -/
theorem command_line_words (self bd_path outfile : List Nat) (n : Nat)
    (info : BLURAY_TITLE_INFO) (clip : BLURAY_CLIP_INFO)
    (hl : ∀ s ∈ clip.video_streams ++ clip.audio_streams ++ clip.pg_streams,
      ∀ c ∈ cstr s.lang, word_char c) :
    shell_words (command_head (shellescape_reference self) (shellescape_reference bd_path)
        n info ++ ((command_clauses clip).map StreamClauses.text).flatten ++
        shellescape_reference outfile) =
      some (command_words self bd_path n info clip outfile) := by
  have hv := kind_clauses_line video_disposition video_words "v" video_disposition_line
    (by decide) clip.video_streams 0 (fun s hs => hl s (by simp [hs]))
  have ha := kind_clauses_line audio_disposition audio_words "s:a" audio_disposition_line
    (by decide) clip.audio_streams 0 (fun s hs => hl s (by simp [hs]))
  have hs := kind_clauses_line pg_disposition pg_words "s:s" pg_disposition_line
    (by decide) clip.pg_streams 0 (fun s hs => hl s (by simp [hs]))
  have hc : Line ((command_clauses clip).map StreamClauses.text).flatten
      (kind_words video_words "v" 0 clip.video_streams ++
        kind_words audio_words "s:a" 0 clip.audio_streams ++
        kind_words pg_words "s:s" 0 clip.pg_streams) := by
    unfold command_clauses
    rw [List.map_append, List.map_append, List.flatten_append, List.flatten_append]
    exact Line.concat (Line.concat hv ha) hs
  have h := Line.words_of (Line.concat (command_head_line self bd_path n info) hc)
    (Word.reference outfile)
  rw [h]
  unfold command_words
  simp only [List.append_assoc]

/-- C19, amended.  When `construct_makemkv` returns 0 for C strings `self`,
`bd_path` and `outfile` in which no single quote is directly followed by a
single quote or by the end of the string, and for streams whose language
codes hold none of the characters that the shell requires to be quoted, the
text appended splits by the shell quoting rules into the words of
`command_words`: `ffmpeg`, five words for each input source, `-map_chapters`
and `1` with chapters, for every stream four words of selection, two of
disposition and, when it has a language code, a metadata specifier and the
single word `language=<code>`, and the output path as the last word.  Their
number is fixed by chapter presence, the stream counts and the number of
language codes present, whatever the characters of the paths and codes. -/
theorem construct_makemkv_words (heap : Nat → Nat) (b b2 : strbuf)
    (self bd_path : List Nat) (bd : BLURAY) (playlist outfile : List Nat)
    (p : ParseResult) (info : BLURAY_TITLE_INFO) (clip : BLURAY_CLIP_INFO) (hb : b.wf)
    (hp : parse_playlist playlist = .ok p) (hi : bd p.value = some info)
    (hc : info.clips[0]? = some clip)
    (h : construct_makemkv heap b self bd_path bd playlist outfile = .ok (0, b2))
    (hs0 : 0 ∈ self) (hp0 : 0 ∈ bd_path) (ho0 : 0 ∈ outfile)
    (hsq : quote_safe (cstr self)) (hpq : quote_safe (cstr bd_path))
    (hoq : quote_safe (cstr outfile))
    (hl : ∀ s ∈ clip.video_streams ++ clip.audio_streams ++ clip.pg_streams,
      ∀ c ∈ cstr s.lang, ¬ shell_special c) :
    ∃ t, b2.content = b.content ++ t ∧
      shell_words t =
        some (command_words (cstr self) (cstr bd_path) p.value info clip (cstr outfile)) ∧
      (command_words (cstr self) (cstr bd_path) p.value info clip (cstr outfile)).length =
        7 + (if info.chapter_count > 0 then 7 else 0) +
          6 * (clip.video_streams.length + clip.audio_streams.length +
            clip.pg_streams.length) +
          2 * (language_count clip.video_streams + language_count clip.audio_streams +
            language_count clip.pg_streams) := by
  obtain ⟨p2, info2, clip2, e_self, e_path, e_out, hp2, hi2, hc2, h1, h2, h3, _, e⟩ :=
    construct_makemkv_layout heap b b2 self bd_path bd playlist outfile hb h
  rw [hp] at hp2
  simp only [Except.ok.injEq] at hp2
  subst hp2
  rw [hi] at hi2
  simp only [Option.some.injEq] at hi2
  subst hi2
  rw [hc] at hc2
  simp only [Option.some.injEq] at hc2
  subst hc2
  rw [shellescape_text_safe self hs0 hsq] at h1
  rw [shellescape_text_safe bd_path hp0 hpq] at h2
  rw [shellescape_text_safe outfile ho0 hoq] at h3
  simp only [Except.ok.injEq] at h1 h2 h3
  subst h1 h2 h3
  exact ⟨_, e, command_line_words (cstr self) (cstr bd_path) (cstr outfile) p.value info clip
    (fun s hs c hc => word_char_of_not_special c (hl s hs c hc)),
    command_words_length _ _ _ _ _ _⟩

set_option maxRecDepth 100000 in
/-- C19, witness: the sample title with the output file `it's.mkv`, whose quote is
followed by `s`: 23 words, the last of them the path. -/
theorem construct_makemkv_words_witness :
    command_words (cstr (lit "./bdtool")) (cstr (lit "/mnt/bd")) 1 sample_info
        { video_streams := [{ pid := 0x1011, lang := [101, 110, 103, 0] }]
          audio_streams := [{ pid := 0x1100, lang := [101, 110, 103, 0] }]
          pg_streams := [] } (cstr (lit "it's.mkv")) =
      [bytes "ffmpeg", bytes "-i", bytes "<(./bdtool", bytes "/mnt/bd", bytes "splice",
        bytes "1)", bytes "-map", bytes "0:i:0x1011", bytes "-c", bytes "copy",
        bytes "-disposition:v:0", bytes "default", bytes "-metadata:v:0",
        bytes "language=eng", bytes "-map", bytes "0:i:0x1100", bytes "-c", bytes "copy",
        bytes "-disposition:a:0", bytes "0", bytes "-metadata:s:a:0", bytes "language=eng",
        bytes "it's.mkv"] ∧
    ∃ t, sample_out_quoted.content = sample_buf.content ++ t ∧
      shell_words t =
        some (command_words (cstr (lit "./bdtool")) (cstr (lit "/mnt/bd")) 1 sample_info
          { video_streams := [{ pid := 0x1011, lang := [101, 110, 103, 0] }]
            audio_streams := [{ pid := 0x1100, lang := [101, 110, 103, 0] }]
            pg_streams := [] } (cstr (lit "it's.mkv"))) ∧
      (command_words (cstr (lit "./bdtool")) (cstr (lit "/mnt/bd")) 1 sample_info
          { video_streams := [{ pid := 0x1011, lang := [101, 110, 103, 0] }]
            audio_streams := [{ pid := 0x1100, lang := [101, 110, 103, 0] }]
            pg_streams := [] } (cstr (lit "it's.mkv"))).length =
        7 + (if sample_info.chapter_count > 0 then 7 else 0) + 6 * (1 + 1 + 0) +
          2 * (1 + 1 + 0) :=
  ⟨by decide,
    construct_makemkv_words sample_heap sample_buf sample_out_quoted
      (lit "./bdtool") (lit "/mnt/bd") (sample_disc sample_info) (lit "00001")
      (lit "it's.mkv") { value := 1, report := none } sample_info
      { video_streams := [{ pid := 0x1011, lang := [101, 110, 103, 0] }]
        audio_streams := [{ pid := 0x1100, lang := [101, 110, 103, 0] }]
        pg_streams := [] }
      (by decide) (by decide) rfl rfl (by rfl) (by decide) (by decide) (by decide)
      (by decide) (by decide) (by decide) (by decide)⟩

end BdTool

